import Mathlib

/-!
# Verification of `dfft.cpp`: naive, recursive and in-place discrete Fourier transforms

The three transform classes of `src/dfft.cpp` are embedded as functions on
`List (cmplx T)`:

* `dft_naive`   – `dft_naive::operator()`            (lines 76–97)
* `dft_ct`      – `dft_ct::operator()` / `_compute`  (lines 134–175)
* `dft_inplace` – `dft_inplace::operator()`          (lines 202–247)

The floating type `T` of the C++ templates is a type parameter: any field with
`cos`, `sin` and a constant `PI` (class `Trig`).  The theorems instantiate it with
the real numbers, so that arithmetic is exact.  `uint32` variables are natural
numbers reduced modulo `2 ^ 32` at the places where the C++ value can leave the
range (`static_cast<uint32>`, `n - 1`, `len <<= 1`, `i += len`).  Loops and
recursions that the code does not bound by themselves take a `fuel` argument and
return `none` when it runs out; element accesses through iterators are checked and
return `none` outside the sequence.
-/

namespace DFFT

/-! ## Scalars and complex samples -/

/-- The operations `std::cos`, `std::sin` and the constant `M_PI` for the floating type `T`. -/
class Trig (T : Type) where
  /-- The function `std::cos` -/
  cos : T → T
  /-- The function `std::sin` -/
  sin : T → T
  /-- The constant `static_cast<T>(M_PI)` -/
  PI : T

/-- The type `std::complex<T>`: a real and an imaginary component. -/
structure cmplx (T : Type) where
  /-- The real component -/
  re : T
  /-- The imaginary component -/
  im : T

namespace cmplx

variable {T : Type}

instance [Zero T] : Zero (cmplx T) := ⟨⟨0, 0⟩⟩

instance [Zero T] : Inhabited (cmplx T) := ⟨⟨0, 0⟩⟩

instance [Add T] : Add (cmplx T) := ⟨fun a b => ⟨a.re + b.re, a.im + b.im⟩⟩

instance [Sub T] : Sub (cmplx T) := ⟨fun a b => ⟨a.re - b.re, a.im - b.im⟩⟩

instance [Add T] [Sub T] [Mul T] : Mul (cmplx T) :=
  ⟨fun a b => ⟨a.re * b.re - a.im * b.im, a.re * b.im + a.im * b.re⟩⟩

/-- The product `complex<T> * T` (as in `sum*scale`). -/
def scale [Mul T] (a : cmplx T) (s : T) : cmplx T := ⟨a.re * s, a.im * s⟩

/-- The quotient `complex<T> / T` (as in `c /= static_cast<T>(n)`). -/
def divide [Div T] (a : cmplx T) (s : T) : cmplx T := ⟨a.re / s, a.im / s⟩

/-- The value of `w` after `k` executions of `w *= rot`, starting from `w{T{1}}`. -/
def rotpow [Zero T] [One T] [Add T] [Sub T] [Mul T] (rot : cmplx T) : Nat → cmplx T
  | 0 => ⟨1, 0⟩
  | k + 1 => rotpow rot k * rot

end cmplx

/-! ## Checked element access -/

/-- The write `*(it + i) = v`, defined only inside the sequence. -/
def write {α : Type} (xs : List α) (i : Nat) (v : α) : Option (List α) :=
  if i < xs.length then some (xs.set i v) else none

/-- The call `std::swap(*(it + i), *(it + j))`, defined only inside the sequence. -/
def swap {α : Type} (xs : List α) (i j : Nat) : Option (List α) := do
  let a ← xs[i]?
  let b ← xs[j]?
  let s ← write xs i b
  write s j a

/-- The modulus of `uint32` arithmetic. -/
def UINT32 : Nat := 2 ^ 32

section Transforms

variable {T : Type} [Field T] [Trig T]

/-! ## `dft_naive` -/

/-- The inner loop of `dft_naive::operator()` (lines 89–94): the value of `sum` after
the loop `for (uint32 i = 0; i < n; ++i)`.  The reads `samples[i]` have `i < n`, and
`n` is at most the size of the snapshot. -/
def naive_sum (samples : List (cmplx T)) (omega : T) (n k : Nat) : cmplx T :=
  (List.range n).foldl (fun sum (i : Nat) =>
    let angle : T := omega * (k : T) * (i : T)
    let rot : cmplx T := ⟨Trig.cos angle, Trig.sin angle⟩
    sum + samples.getD i 0 * rot) ⟨0, 0⟩

/-- The transform `dft_naive::operator()` (lines 76–97) with `_inv = inv`. -/
def dft_naive (inv : Bool) (xs : List (cmplx T)) : List (cmplx T) :=
  let n_it := xs.length
  if n_it ≤ 0 then xs else
  let n := n_it % UINT32
  let samples := xs
  let omega : T := 2 * Trig.PI / (n : T) * (if inv then 1 else -1)
  let scale : T := if inv then 1 / (n : T) else 1
  (List.range n).foldl (fun out k => out.set k ((naive_sum samples omega n k).scale scale)) xs

/-! ## `dft_ct` -/

/-- The loop of lines 161–164 of `dft_ct::_compute`: the buffers `evens` and `odds`. -/
def split_even_odd (samples : List (cmplx T)) (half : Nat) :
    Option (List (cmplx T) × List (cmplx T)) :=
  (List.range half).foldlM (fun (eo : List (cmplx T) × List (cmplx T)) i => do
    let e ← samples[2 * i]?
    let o ← samples[2 * i + 1]?
    pure (eo.1 ++ [e], eo.2 ++ [o])) ([], [])

/-- The loop of lines 170–174 of `dft_ct::_compute`: the butterflies that combine the
two transformed halves into `samples`. -/
def combine (evens odds : List (cmplx T)) (angle scale : T) (half : Nat)
    (samples : List (cmplx T)) : Option (List (cmplx T)) :=
  (List.range half).foldlM (fun s (k : Nat) => do
    let w : cmplx T := ⟨Trig.cos ((k : T) * angle), Trig.sin ((k : T) * angle)⟩
    let e ← evens[k]?
    let o ← odds[k]?
    let s ← write s k ((e + w * o).scale scale)
    write s (k + half) ((e - w * o).scale scale)) samples

/-- The recursion `dft_ct::_compute` (lines 150–175); `samples` is the sequence that
starts at the iterator, `fuel` bounds the recursion depth. -/
def dft_ct._compute (inv : Bool) : Nat → List (cmplx T) → Nat → Option (List (cmplx T))
  | 0, _, _ => none
  | fuel + 1, samples, n =>
    if n = 1 then some samples else
    let half := n / 2
    do
      let eo ← split_even_odd samples half
      let odds ← dft_ct._compute inv fuel eo.2 half
      let evens ← dft_ct._compute inv fuel eo.1 half
      let angle : T := 2 * Trig.PI / (n : T) * (if inv then 1 else -1)
      let scale : T := if inv then 1 / 2 else 1
      combine evens odds angle scale half samples

/-- The test `(n & (n - 1))` of lines 141 and 209, on `uint32`. -/
def not_pow2 (n : Nat) : Bool := n &&& ((n + (UINT32 - 1)) % UINT32) != 0

/-- The transform `dft_ct::operator()` (lines 134–146) with `_inv = inv`. -/
def dft_ct (inv : Bool) (fuel : Nat) (xs : List (cmplx T)) : Option (List (cmplx T)) :=
  let n_it := xs.length
  if n_it ≤ 0 then some xs else
  let n := n_it % UINT32
  if not_pow2 n then some xs else
  dft_ct._compute inv fuel xs n

/-! ## `dft_inplace` -/

/-- The loop `for (; j & bit; bit >>= 1) j ^= bit;` of lines 216–218: the final
values of `j` and `bit`. -/
def rev_carry (j bit : Nat) : Nat × Nat :=
  if j &&& bit ≠ 0 then rev_carry (j ^^^ bit) (bit >>> 1) else (j, bit)
termination_by bit
decreasing_by
  rename_i h
  have hb : bit ≠ 0 := by
    rintro rfl
    simp at h
  rw [Nat.shiftRight_eq_div_pow]
  omega

/-- One iteration of the loop of lines 214–224 for the index `i`: the new value of
`j` and the sequence after the conditional swap. -/
def perm_step (n : Nat) (st : Nat × List (cmplx T)) (i : Nat) :
    Option (Nat × List (cmplx T)) :=
  let jb := rev_carry st.1 (n >>> 1)
  let j := jb.1 ^^^ jb.2
  if i < j then (swap st.2 i j).map (fun s => (j, s)) else some (j, st.2)

/-- The permutation loop `for (uint32 i = 1, j = 0; i < n; ++i)` of lines 214–224. -/
def perm_loop (n : Nat) (xs : List (cmplx T)) : Option (Nat × List (cmplx T)) :=
  (List.range' 1 (n - 1)).foldlM (perm_step n) (0, xs)

/-- The loop `for (uint32 j = 0; j < half; ++j)` of lines 232–238 for the block that
starts at `i`: the state is the accumulated twiddle `w` and the sequence. -/
def butterfly_block (rot : cmplx T) (half i : Nat) (xs : List (cmplx T)) :
    Option (cmplx T × List (cmplx T)) :=
  (List.range half).foldlM (fun (st : cmplx T × List (cmplx T)) j => do
    let u ← st.2[i + j]?
    let x ← st.2[i + j + half]?
    let v := x * st.1
    let s ← write st.2 (i + j) (u + v)
    let s ← write s (i + j + half) (u - v)
    pure (st.1 * rot, s)) (⟨1, 0⟩, xs)

/-- The loop `for (uint32 i = 0; i < n; i += len)` of lines 229–239, from the block
start `i` on. -/
def block_loop (rot : cmplx T) (n len : Nat) : Nat → Nat → List (cmplx T) →
    Option (List (cmplx T))
  | 0, _, _ => none
  | fuel + 1, i, xs =>
    if i < n then do
      let half := len / 2
      let st ← butterfly_block rot half i xs
      block_loop rot n len fuel ((i + len) % UINT32) st.2
    else some xs

/-- The loop `for (uint32 len = 2; len <= n; len <<= 1)` of lines 226–240, from the
stage length `len` on. -/
def stage_loop (inv : Bool) (n : Nat) : Nat → Nat → List (cmplx T) →
    Option (List (cmplx T))
  | 0, _, _ => none
  | fuel + 1, len, xs =>
    if len ≤ n then do
      let angle : T := 2 * Trig.PI / (len : T) * (if inv then 1 else -1)
      let rot : cmplx T := ⟨Trig.cos angle, Trig.sin angle⟩
      let s ← block_loop rot n len fuel 0 xs
      stage_loop inv n fuel ((len <<< 1) % UINT32) s
    else some xs

/-- The transform `dft_inplace::operator()` (lines 202–247) with `_inv = inv`. -/
def dft_inplace (inv : Bool) (fuel : Nat) (xs : List (cmplx T)) : Option (List (cmplx T)) :=
  let n_it := xs.length
  if n_it ≤ 0 then some xs else
  let n := n_it % UINT32
  if not_pow2 n then some xs else do
    let p ← perm_loop n xs
    let s ← stage_loop inv n fuel 2 p.2
    if inv then some (s.map (fun c => c.divide (n : T))) else some s

end Transforms

/-! ## The exact instance and the mathematical transform -/

/-- Exact real arithmetic as the floating type. -/
noncomputable instance : Trig ℝ := ⟨Real.cos, Real.sin, Real.pi⟩

/-- The complex number that a sample over the reals denotes. -/
def toC (z : cmplx ℝ) : ℂ := ⟨z.re, z.im⟩

/-- The sample that denotes a complex number. -/
def ofC (z : ℂ) : cmplx ℝ := ⟨z.re, z.im⟩

/-- The value `exp(e * (2 * pi * I / n))`, the rotation by `e` steps of an `n`-th of a turn. -/
noncomputable def turn (n : Nat) (e : ℤ) : ℂ :=
  Complex.exp ((e : ℂ) * (2 * (Real.pi : ℂ) * Complex.I / (n : ℂ)))

/-- The sign of the exponent the code uses: `-1` for the forward transform, `+1` for
the inverse (the factor `(_inv ? T{1} : T{-1})`). -/
def sgn (inv : Bool) : ℤ := if inv then 1 else -1

/-- The sum `sum_{i < n} x[i] * exp(sgn * 2 * pi * I * k * i / n)`. -/
noncomputable def dsum (inv : Bool) (n : Nat) (x : Nat → ℂ) (k : Nat) : ℂ :=
  ∑ i in Finset.range n, x i * turn n (sgn inv * (k : ℤ) * (i : ℤ))

/-- The value at index `i` of a sequence of samples, as a complex number. -/
def val (xs : List (cmplx ℝ)) (i : Nat) : ℂ := toC (xs.getD i 0)

/-- The scale that the naive transform applies to a sum of `n` terms. -/
noncomputable def nscale (inv : Bool) (n : Nat) : ℂ := if inv then 1 / (n : ℂ) else 1

/-- The scale accumulated by `dft_ct::_compute` over `m` levels of recursion: the factor
`scale = 1/2` (inverse) or `1` (forward) at each level. -/
noncomputable def cscale (inv : Bool) (m : Nat) : ℂ := if inv then (1 / 2) ^ m else 1

/-- The number whose `m`-bit binary representation is that of `i` reversed. -/
def bitrev : Nat → Nat → Nat
  | 0, _ => 0
  | m + 1, i => (i % 2) * 2 ^ m + bitrev m (i / 2)

/-- The element-wise combination `a*x + b*y` of two sequences. -/
def lincomb {T : Type} [Field T] (a b : cmplx T) (xs ys : List (cmplx T)) : List (cmplx T) :=
  List.zipWith (fun x y => a * x + b * y) xs ys

/-- The unit impulse `(1, 0, ..., 0)` of length `n`. -/
def impulse {T : Type} [Field T] (n : Nat) : List (cmplx T) :=
  (List.range n).map (fun i => if i = 0 then ⟨1, 0⟩ else ⟨0, 0⟩)

/-- The alternating sequence `x[i] = (-1)^i` of length `n`. -/
def alternating {T : Type} [Field T] (n : Nat) : List (cmplx T) :=
  (List.range n).map (fun i => if i % 2 = 0 then ⟨1, 0⟩ else ⟨-1, 0⟩)

/-- The sequence of length `n` that is `n` at index `n/2` and `0` elsewhere. -/
def nyquist {T : Type} [Field T] (n : Nat) : List (cmplx T) :=
  (List.range n).map (fun k => if k = n / 2 then ⟨(n : T), 0⟩ else ⟨0, 0⟩)

/-- The sequence of length `n` that is `n * c` at index `0` and `0` elsewhere. -/
def dc_bin {T : Type} [Field T] (n : Nat) (c : cmplx T) : List (cmplx T) :=
  (List.range n).map (fun k => if k = 0 then c.scale (n : T) else ⟨0, 0⟩)

/-- The body of the loop of lines 232–238 for the step `j` of the block that starts at
`i` (the step function of `butterfly_block`): the state is the accumulated twiddle `w`
and the sequence. -/
def butterfly_step {T : Type} [Field T] (rot : cmplx T) (half i : Nat)
    (st : cmplx T × List (cmplx T)) (j : Nat) : Option (cmplx T × List (cmplx T)) := do
  let u ← st.2[i + j]?
  let x ← st.2[i + j + half]?
  let v := x * st.1
  let s ← write st.2 (i + j) (u + v)
  let s ← write s (i + j + half) (u - v)
  pure (st.1 * rot, s)

/-! ## Samples as complex numbers -/

theorem toC_add (a b : cmplx ℝ) : toC (a + b) = toC a + toC b := by
  apply Complex.ext <;> rfl

theorem toC_sub (a b : cmplx ℝ) : toC (a - b) = toC a - toC b := by
  apply Complex.ext <;> rfl

theorem toC_mul (a b : cmplx ℝ) : toC (a * b) = toC a * toC b := by
  apply Complex.ext <;> simp [toC] <;> rfl

theorem toC_zero : toC 0 = 0 := by
  apply Complex.ext <;> rfl

theorem toC_mk_zero : toC ⟨0, 0⟩ = 0 := by
  apply Complex.ext <;> rfl

theorem toC_mk_one : toC ⟨1, 0⟩ = 1 := by
  apply Complex.ext <;> rfl

theorem toC_scale (a : cmplx ℝ) (s : ℝ) : toC (a.scale s) = toC a * (s : ℂ) := by
  apply Complex.ext <;> simp [toC, cmplx.scale]

theorem toC_divide (a : cmplx ℝ) (s : ℝ) : toC (a.divide s) = toC a / (s : ℂ) := by
  apply Complex.ext
  · simp [toC, cmplx.divide, Complex.div_ofReal_re]
  · simp [toC, cmplx.divide, Complex.div_ofReal_im]

theorem toC_cis (a : ℝ) : toC ⟨Trig.cos a, Trig.sin a⟩ = Complex.exp ((a : ℂ) * Complex.I) := by
  rw [Complex.exp_mul_I]
  apply Complex.ext
  · simp [toC, Trig.cos, ← Complex.ofReal_cos, ← Complex.ofReal_sin]
  · simp [toC, Trig.sin, ← Complex.ofReal_cos, ← Complex.ofReal_sin]

theorem toC_ofC (z : ℂ) : toC (ofC z) = z := rfl

theorem ofC_toC (z : cmplx ℝ) : ofC (toC z) = z := rfl

theorem toC_injective : Function.Injective toC := by
  intro a b h
  have := congrArg ofC h
  simpa [ofC_toC] using this

open Finset

/-! ## Rotations -/

theorem turn_zero (n : Nat) : turn n 0 = 1 := by simp [turn]

theorem turn_add (n : Nat) (a b : ℤ) : turn n (a + b) = turn n a * turn n b := by
  simp only [turn, ← Complex.exp_add]
  congr 1
  push_cast
  ring

theorem turn_neg (n : Nat) (a : ℤ) : turn n (-a) = (turn n a)⁻¹ := by
  simp only [turn, ← Complex.exp_neg]
  congr 1
  push_cast
  ring

theorem turn_mul_nat (n : Nat) (a : ℤ) (k : Nat) : turn n (a * k) = turn n a ^ k := by
  simp only [turn, ← Complex.exp_nat_mul]
  congr 1
  push_cast
  ring

theorem turn_self_mul (n : Nat) (hn : n ≠ 0) (a : ℤ) : turn n ((n : ℤ) * a) = 1 := by
  have hn' : (n : ℂ) ≠ 0 := Nat.cast_ne_zero.mpr hn
  have : ((((n : ℤ) * a : ℤ) : ℂ)) * (2 * (Real.pi : ℂ) * Complex.I / (n : ℂ))
      = (a : ℂ) * (2 * (Real.pi : ℂ) * Complex.I) := by
    push_cast
    field_simp
    ring
  rw [turn, this, Complex.exp_int_mul_two_pi_mul_I]

theorem turn_add_self_mul (n : Nat) (hn : n ≠ 0) (e a : ℤ) :
    turn n (e + (n : ℤ) * a) = turn n e := by
  rw [turn_add, turn_self_mul n hn, mul_one]

theorem turn_double (h : Nat) (hh : h ≠ 0) (e : ℤ) : turn (2 * h) (2 * e) = turn h e := by
  have hh' : (h : ℂ) ≠ 0 := Nat.cast_ne_zero.mpr hh
  simp only [turn]
  congr 1
  push_cast
  field_simp
  ring

theorem turn_half (h : Nat) (hh : h ≠ 0) : turn (2 * h) h = -1 := by
  have hh' : (h : ℂ) ≠ 0 := Nat.cast_ne_zero.mpr hh
  have : (((h : ℤ) : ℂ)) * (2 * (Real.pi : ℂ) * Complex.I / ((2 * h : ℕ) : ℂ))
      = (Real.pi : ℂ) * Complex.I := by
    push_cast
    field_simp
    ring
  rw [turn, this, Complex.exp_pi_mul_I]

/-- The rotation built from `cos` and `sin` of the angle `2 * PI / n * s * e`. -/
theorem toC_rot (n : Nat) (s e : ℤ) (a : ℝ)
    (ha : a = 2 * Real.pi / (n : ℝ) * (s : ℝ) * (e : ℝ)) :
    toC ⟨Trig.cos a, Trig.sin a⟩ = turn n (s * e) := by
  rw [toC_cis, turn, ha]
  congr 1
  push_cast
  ring

/-! ## List updates -/

theorem getD_set_eq {α : Type} (xs : List α) (i p : Nat) (v d : α) :
    (xs.set i v).getD p d = if p = i ∧ i < xs.length then v else xs.getD p d := by
  simp only [List.getD_eq_getElem?_getD, List.getElem?_set]
  by_cases h : i = p
  · subst h
    by_cases h2 : i < xs.length
    · simp [h2]
    · have hn : xs[i]? = none := List.getElem?_eq_none (by omega)
      simp [h2, hn]
  · have h' : ¬ p = i := fun e => h e.symm
    simp [h, h']

theorem foldl_set_length {α : Type} (f : Nat → α) (n : Nat) (xs : List α) :
    ((List.range n).foldl (fun out k => out.set k (f k)) xs).length = xs.length := by
  induction n with
  | zero => simp
  | succ n ih => simp [List.range_succ, List.foldl_append, ih]

theorem foldl_set_getD {α : Type} (f : Nat → α) (n : Nat) (xs : List α) (d : α)
    (hn : n ≤ xs.length) (p : Nat) :
    ((List.range n).foldl (fun out k => out.set k (f k)) xs).getD p d
      = if p < n then f p else xs.getD p d := by
  induction n with
  | zero => simp
  | succ n ih =>
    have ih' := ih (by omega)
    simp only [List.range_succ, List.foldl_append, List.foldl_cons, List.foldl_nil]
    rw [getD_set_eq, foldl_set_length, ih']
    by_cases h1 : p = n
    · subst h1
      simp
      omega
    · by_cases h2 : p < n
      · have : p < n + 1 := by omega
        simp [h1, h2, this]
      · have : ¬ p < n + 1 := by omega
        simp [h1, h2, this]

/-! ## The naive transform -/

theorem naive_sum_succ {T : Type} [Field T] [Trig T] (xs : List (cmplx T)) (omega : T)
    (n k : Nat) :
    naive_sum xs omega (n + 1) k = naive_sum xs omega n k
      + xs.getD n 0 * ⟨Trig.cos (omega * (k : T) * (n : T)), Trig.sin (omega * (k : T) * (n : T))⟩ := by
  simp [naive_sum, List.range_succ, List.foldl_append]

theorem toC_naive_sum (xs : List (cmplx ℝ)) (N : Nat) (s : ℤ) (n k : Nat) :
    toC (naive_sum xs (2 * Trig.PI / (N : ℝ) * (s : ℝ)) n k)
      = ∑ i in range n, val xs i * turn N (s * k * i) := by
  induction n with
  | zero => simp [naive_sum, toC_mk_zero]
  | succ n ih =>
    rw [naive_sum_succ, toC_add, toC_mul, ih, Finset.sum_range_succ]
    congr 2
    rw [toC_rot N s (k * n), mul_assoc]
    simp [Trig.PI]
    ring

theorem dft_naive_length {T : Type} [Field T] [Trig T] (inv : Bool) (xs : List (cmplx T)) :
    (dft_naive inv xs).length = xs.length := by
  unfold dft_naive
  simp only
  split
  · rfl
  · exact foldl_set_length _ _ _

theorem val_dft_naive (inv : Bool) (xs : List (cmplx ℝ)) (k : Nat) :
    val (dft_naive inv xs) k
      = if k < xs.length % UINT32 then dsum inv (xs.length % UINT32) (val xs) k * nscale inv (xs.length % UINT32)
        else val xs k := by
  unfold dft_naive
  simp only
  split
  · next h =>
    have : xs.length = 0 := by omega
    simp [this]
  · next h =>
    have hle : xs.length % UINT32 ≤ xs.length := Nat.mod_le _ _
    rw [val, foldl_set_getD _ _ _ _ hle]
    split
    · have e : (2 * Trig.PI / ((xs.length % UINT32 : ℕ) : ℝ) * (if inv = true then 1 else -1) : ℝ)
        = 2 * Trig.PI / ((xs.length % UINT32 : ℕ) : ℝ) * ((sgn inv : ℤ) : ℝ) := by
        cases inv <;> simp [sgn]
      rw [toC_scale, e, toC_naive_sum, dsum]
      congr 1
      cases inv <;> simp [nscale]
    · rfl

theorem map_toC_getElem? (xs : List (cmplx ℝ)) (k : Nat) (hk : k < xs.length) :
    (xs[k]?).map toC = some (val xs k) := by
  simp [val, List.getD_eq_getElem?_getD, List.getElem?_eq_getElem hk]

theorem turn_eq_exp (n : Nat) (s : ℤ) (k i : Nat) :
    turn n (s * k * i)
      = Complex.exp ((-s : ℂ) * (-2 * (Real.pi : ℂ) * Complex.I * (k : ℂ) * (i : ℂ) / (n : ℂ))) := by
  rw [turn]
  congr 1
  push_cast
  ring

theorem turn_four_one : turn 4 1 = Complex.I := by
  have : ((1 : ℤ) : ℂ) * (2 * (Real.pi : ℂ) * Complex.I / ((4 : ℕ) : ℂ))
      = ((Real.pi / 2 : ℝ) : ℂ) * Complex.I := by
    push_cast
    ring
  rw [turn, this, Complex.exp_mul_I, ← Complex.ofReal_cos, ← Complex.ofReal_sin,
    Real.cos_pi_div_two, Real.sin_pi_div_two]
  simp

theorem dft_naive_of_length_eq_UINT32 {T : Type} [Field T] [Trig T] (inv : Bool)
    (xs : List (cmplx T)) (h : xs.length = UINT32) : dft_naive inv xs = xs := by
  simp [dft_naive, h]

/-- C1 as stated fails. With `inverted = false` the code uses the exponent
`-2*pi*I*k*i/n`, not `s * (-2*pi*I*k*i/n)` with `s = -1`: on `[0, 1, 0, 0]` element 1
becomes `-I`, the stated sum is `I`.  And a sequence of `2^32` samples (`UINT32`) is
left unchanged, because its length is reduced to the `uint32` value `0`, while the
stated sum for element 0 of the all-ones sequence is `2^32`. -/
theorem dft_naive_claimed_fails :
    (((dft_naive false ([⟨0, 0⟩, ⟨1, 0⟩, ⟨0, 0⟩, ⟨0, 0⟩] : List (cmplx ℝ)))[1]?).map toC
        = some (-Complex.I)
      ∧ (∑ i in range 4, val [⟨0, 0⟩, ⟨1, 0⟩, ⟨0, 0⟩, ⟨0, 0⟩] i *
            Complex.exp ((-1 : ℂ) *
              (-2 * (Real.pi : ℂ) * Complex.I * ((1 : ℕ) : ℂ) * (i : ℂ) / ((4 : ℕ) : ℂ))))
          = Complex.I)
    ∧ (((dft_naive false (List.replicate UINT32 (⟨1, 0⟩ : cmplx ℝ)))[0]?).map toC = some 1
      ∧ (∑ i in range UINT32, val (List.replicate UINT32 (⟨1, 0⟩ : cmplx ℝ)) i *
            Complex.exp ((-1 : ℂ) *
              (-2 * (Real.pi : ℂ) * Complex.I * ((0 : ℕ) : ℂ) * (i : ℂ) / (UINT32 : ℂ))))
          = (UINT32 : ℂ)
      ∧ (UINT32 : ℂ) ≠ 1) := by
  refine ⟨⟨?_, ?_⟩, ?_, ?_, ?_⟩
  · rw [map_toC_getElem? _ _ (by rw [dft_naive_length]; simp), val_dft_naive]
    have h4 : ([⟨0, 0⟩, ⟨1, 0⟩, ⟨0, 0⟩, ⟨0, 0⟩] : List (cmplx ℝ)).length % UINT32 = 4 := by
      simp [UINT32]
    rw [h4, if_pos (by norm_num), dsum, nscale]
    simp only [Finset.sum_range_succ, Finset.sum_range_zero, val]
    simp only [List.getD_cons_zero, List.getD_cons_succ, toC_mk_zero, toC_mk_one, sgn]
    have : turn 4 (-1) = -Complex.I := by
      rw [turn_neg, turn_four_one, Complex.inv_I]
    simp [this]
  · simp only [Finset.sum_range_succ, Finset.sum_range_zero, val]
    simp only [List.getD_cons_zero, List.getD_cons_succ, toC_mk_zero, toC_mk_one]
    have h := turn_eq_exp 4 1 1 1
    rw [show ((1 : ℤ) * ((1 : ℕ) : ℤ) * ((1 : ℕ) : ℤ)) = 1 by norm_num, turn_four_one,
      Int.cast_one] at h
    simp only [zero_mul, zero_add, add_zero, one_mul]
    exact h.symm
  · have hpos : 0 < UINT32 := by simp [UINT32]
    rw [dft_naive_of_length_eq_UINT32 _ _ (by simp)]
    rw [map_toC_getElem? _ _ (by simpa using hpos)]
    simp [val, List.getD_eq_getElem?_getD, List.getElem?_replicate, toC_mk_one, hpos]
  · have : ∀ i ∈ range UINT32, val (List.replicate UINT32 (⟨1, 0⟩ : cmplx ℝ)) i *
            Complex.exp ((-1 : ℂ) *
              (-2 * (Real.pi : ℂ) * Complex.I * ((0 : ℕ) : ℂ) * (i : ℂ) / (UINT32 : ℂ))) = 1 := by
      intro i hi
      have hi' : i < UINT32 := Finset.mem_range.mp hi
      simp [val, List.getD_eq_getElem?_getD, List.getElem?_replicate, toC_mk_one, hi']
    rw [Finset.sum_congr rfl this]
    simp
  · have : (UINT32 : ℂ) = 4294967296 := by
      simp [UINT32]
    rw [this]
    norm_num

/-! ## C1 -/

/-- C1 (amended): for a sequence of `n < 2^32` samples and `k < n`, `dft_naive` sets element `k` to
`sum_{i<n} x[i] * exp(s * (-2*pi*I*k*i/n))` with `s = +1` for the forward transform and
`s = -1` for the inverse, the inverse sum multiplied by `1/n`; `x` is the sequence
before the call. -/
theorem dft_naive_spec (inv : Bool) (xs : List (cmplx ℝ)) (k : Nat)
    (hlt : xs.length < 2 ^ 32) (hk : k < xs.length) :
    ((dft_naive inv xs)[k]?).map toC
      = some ((∑ i in range xs.length, val xs i *
            Complex.exp ((if inv then -1 else 1) *
              (-2 * (Real.pi : ℂ) * Complex.I * (k : ℂ) * (i : ℂ) / (xs.length : ℂ))))
          * (if inv then 1 / (xs.length : ℂ) else 1)) := by
  have hmod : xs.length % UINT32 = xs.length := Nat.mod_eq_of_lt hlt
  rw [map_toC_getElem? _ _ (by rw [dft_naive_length]; exact hk), val_dft_naive, hmod,
    if_pos hk, dsum, nscale]
  congr 2
  apply Finset.sum_congr rfl
  intro i _
  rw [turn_eq_exp]
  cases inv <;> simp [sgn]

/-- Witness of C1: element 1 of the transforms of `[0, 1, 0, 0]` (`n = 4`, `k = 1`): the
forward sum is `exp(-2*pi*I/4) = -I`, the inverse one is `(1/4) * exp(+2*pi*I/4) = I/4`. -/
theorem dft_naive_spec_witness :
    ((dft_naive false ([⟨0, 0⟩, ⟨1, 0⟩, ⟨0, 0⟩, ⟨0, 0⟩] : List (cmplx ℝ)))[1]?).map toC
        = some (-Complex.I)
    ∧ ((dft_naive true ([⟨0, 0⟩, ⟨1, 0⟩, ⟨0, 0⟩, ⟨0, 0⟩] : List (cmplx ℝ)))[1]?).map toC
        = some (Complex.I * (1 / 4)) := by
  have hf := dft_naive_spec false ([⟨0, 0⟩, ⟨1, 0⟩, ⟨0, 0⟩, ⟨0, 0⟩] : List (cmplx ℝ)) 1
    (by norm_num) (by norm_num)
  have hi := dft_naive_spec true ([⟨0, 0⟩, ⟨1, 0⟩, ⟨0, 0⟩, ⟨0, 0⟩] : List (cmplx ℝ)) 1
    (by norm_num) (by norm_num)
  have hlen : ([⟨0, 0⟩, ⟨1, 0⟩, ⟨0, 0⟩, ⟨0, 0⟩] : List (cmplx ℝ)).length = 4 := rfl
  have e1 : Complex.exp
      (-2 * (Real.pi : ℂ) * Complex.I * ((1 : ℕ) : ℂ) * ((1 : ℕ) : ℂ) / ((4 : ℕ) : ℂ))
      = -Complex.I := by
    have h := turn_eq_exp 4 (-1) 1 1
    rw [show ((-1 : ℤ) * ((1 : ℕ) : ℤ) * ((1 : ℕ) : ℤ)) = -1 by norm_num, turn_neg,
      turn_four_one, Complex.inv_I] at h
    have h' : (-2 * (Real.pi : ℂ) * Complex.I * ((1 : ℕ) : ℂ) * ((1 : ℕ) : ℂ) / ((4 : ℕ) : ℂ))
        = (-((-1 : ℤ) : ℂ)) *
          (-2 * (Real.pi : ℂ) * Complex.I * ((1 : ℕ) : ℂ) * ((1 : ℕ) : ℂ) / ((4 : ℕ) : ℂ)) := by
      push_cast
      ring
    rw [h']
    exact h.symm
  have e2 : Complex.exp ((-1 : ℂ) *
      (-2 * (Real.pi : ℂ) * Complex.I * ((1 : ℕ) : ℂ) * ((1 : ℕ) : ℂ) / ((4 : ℕ) : ℂ)))
      = Complex.I := by
    have h := turn_eq_exp 4 1 1 1
    rw [show ((1 : ℤ) * ((1 : ℕ) : ℤ) * ((1 : ℕ) : ℤ)) = 1 by norm_num, turn_four_one,
      Int.cast_one] at h
    exact h.symm
  rw [hlen] at hf hi
  simp only [Finset.sum_range_succ, Finset.sum_range_zero, val, List.getD_cons_zero,
    List.getD_cons_succ, toC_mk_zero, toC_mk_one, zero_mul, zero_add, add_zero, one_mul,
    Bool.false_eq_true, if_false, if_true, mul_one] at hf hi
  rw [e1] at hf
  rw [e2] at hi
  simp only [Nat.cast_ofNat] at hi
  exact ⟨hf, hi⟩

/-! ## Loops over `List.range` -/

theorem foldlM_range_eq_foldl {σ : Type} (f : σ → Nat → Option σ) (g : σ → Nat → σ)
    (P : σ → Prop) (n : Nat) (s0 : σ) (h0 : P s0)
    (hstep : ∀ s k, k < n → P s → f s k = some (g s k) ∧ P (g s k)) :
    (List.range n).foldlM f s0 = some ((List.range n).foldl g s0)
      ∧ P ((List.range n).foldl g s0) := by
  induction n with
  | zero => exact ⟨rfl, h0⟩
  | succ n ih =>
    have ih' := ih (fun s k hk hs => hstep s k (by omega) hs)
    have hs := hstep _ n (by omega) ih'.2
    simp only [List.range_succ, List.foldlM_append, List.foldl_append, ih'.1]
    simp [hs.1, hs.2]

theorem getElem?_eq_some_getD {α : Type} (xs : List α) (i : Nat) (d : α) (h : i < xs.length) :
    xs[i]? = some (xs.getD i d) := by
  simp [List.getD_eq_getElem?_getD, List.getElem?_eq_getElem h]

theorem write_eq_some {α : Type} (xs : List α) (i : Nat) (v : α) (h : i < xs.length) :
    write xs i v = some (xs.set i v) := by
  simp [write, h]

/-! ## The recursive transform: the two loops of `_compute` -/

theorem split_even_odd_eq {T : Type} [Field T] (samples : List (cmplx T)) (half : Nat)
    (h : 2 * half ≤ samples.length) :
    split_even_odd samples half
      = some ((List.range half).map (fun i => samples.getD (2 * i) 0),
              (List.range half).map (fun i => samples.getD (2 * i + 1) 0)) := by
  induction half with
  | zero => rfl
  | succ n ih =>
    have ih' := ih (by omega)
    unfold split_even_odd at ih' ⊢
    simp only [List.range_succ, List.foldlM_append, ih', List.map_append]
    simp only [getElem?_eq_some_getD samples (2 * n) 0 (by omega),
      getElem?_eq_some_getD samples (2 * n + 1) 0 (by omega), Option.some_bind,
      Option.bind_eq_bind, List.foldlM_cons, List.foldlM_nil, List.map_cons, List.map_nil,
      Option.pure_def, Option.bind_some]

section Generic

variable {T : Type} [Field T] [Trig T]

theorem combine_eq (evens odds : List (cmplx T)) (angle scale : T) (half : Nat)
    (samples : List (cmplx T)) (he : evens.length = half) (ho : odds.length = half)
    (hs : 2 * half ≤ samples.length) :
    ∃ zs, combine evens odds angle scale half samples = some zs
      ∧ zs.length = samples.length
      ∧ ∀ p, zs.getD p 0 =
          if p < half then
            ((evens.getD p 0 + (⟨Trig.cos ((p : T) * angle), Trig.sin ((p : T) * angle)⟩ : cmplx T)
              * odds.getD p 0).scale scale)
          else if p < 2 * half then
            ((evens.getD (p - half) 0
              - (⟨Trig.cos (((p - half : ℕ) : T) * angle), Trig.sin (((p - half : ℕ) : T) * angle)⟩ : cmplx T)
              * odds.getD (p - half) 0).scale scale)
          else samples.getD p 0 := by
  let A : Nat → cmplx T := fun k =>
    (evens.getD k 0 + (⟨Trig.cos ((k : T) * angle), Trig.sin ((k : T) * angle)⟩ : cmplx T)
      * odds.getD k 0).scale scale
  let B : Nat → cmplx T := fun k =>
    (evens.getD k 0 - (⟨Trig.cos ((k : T) * angle), Trig.sin ((k : T) * angle)⟩ : cmplx T)
      * odds.getD k 0).scale scale
  let g : List (cmplx T) → Nat → List (cmplx T) := fun s k => (s.set k (A k)).set (k + half) (B k)
  have key := foldlM_range_eq_foldl
    (fun s (k : Nat) => do
      let w : cmplx T := ⟨Trig.cos ((k : T) * angle), Trig.sin ((k : T) * angle)⟩
      let e ← evens[k]?
      let o ← odds[k]?
      let s ← write s k ((e + w * o).scale scale)
      write s (k + half) ((e - w * o).scale scale))
    g (fun s => s.length = samples.length) half samples rfl
    (by
      intro s k hk hlen
      have h1 := getElem?_eq_some_getD evens k 0 (by omega)
      have h2 := getElem?_eq_some_getD odds k 0 (by omega)
      refine ⟨?_, by simp [g, hlen]⟩
      simp only [h1, h2, Option.bind_eq_bind, Option.some_bind]
      rw [write_eq_some _ _ _ (by omega)]
      simp only [Option.some_bind]
      rw [write_eq_some _ _ _ (by simp; omega)])
  refine ⟨_, key.1, key.2, ?_⟩
  have inv : ∀ j, j ≤ half → ∀ p, ((List.range j).foldl g samples).getD p 0 =
      if p < j then A p else if half ≤ p ∧ p < half + j then B (p - half)
      else samples.getD p 0 := by
    intro j
    induction j with
    | zero =>
      intro _ p
      have : ¬ (half ≤ p ∧ p < half + 0) := by omega
      simp only [List.range_zero, List.foldl_nil, Nat.not_lt_zero, if_false, this]
    | succ j ih =>
      intro hj p
      have ih' := ih (by omega)
      have hlen : ((List.range j).foldl g samples).length = samples.length := by
        clear ih ih'
        induction j with
        | zero => rfl
        | succ j ih2 => simp [List.range_succ, List.foldl_append, g, ih2 (by omega)]
      simp only [List.range_succ, List.foldl_append, List.foldl_cons, List.foldl_nil]
      simp only [g]
      rw [getD_set_eq, getD_set_eq, ih' p]
      simp only [List.length_set, hlen]
      split_ifs <;> first
        | rfl
        | (exfalso; omega)
        | (have e : p = j := by omega
           subst e; rfl)
        | (have e : p - half = j := by omega
           rw [e])
  intro p
  rw [inv half le_rfl p]
  by_cases c1 : p < half
  · simp [c1, A]
  · by_cases c2 : p < 2 * half
    · have : half ≤ p ∧ p < half + half := by omega
      simp [c1, c2, this, B]
    · have : ¬ (half ≤ p ∧ p < half + half) := by omega
      simp [c1, c2, this]

end Generic

/-! ## The Cooley–Tukey identity -/

theorem sum_range_even_odd (g : Nat → ℂ) (h : Nat) :
    ∑ i in range (2 * h), g i = ∑ i in range h, g (2 * i) + ∑ i in range h, g (2 * i + 1) := by
  induction h with
  | zero => simp
  | succ h ih =>
    rw [show 2 * (h + 1) = 2 * h + 1 + 1 by ring, Finset.sum_range_succ, Finset.sum_range_succ,
      ih, Finset.sum_range_succ, Finset.sum_range_succ]
    ring

theorem turn_sgn_half (inv : Bool) (h : Nat) (hh : h ≠ 0) :
    turn (2 * h) (sgn inv * h) = -1 := by
  cases inv
  · have : sgn false * (h : ℤ) = -(h : ℤ) := by simp [sgn]
    rw [this, turn_neg, turn_half h hh]
    norm_num
  · have : sgn true * (h : ℤ) = (h : ℤ) := by simp [sgn]
    rw [this, turn_half h hh]

theorem dsum_ct_low (inv : Bool) (h : Nat) (hh : h ≠ 0) (x : Nat → ℂ) (k : Nat) :
    dsum inv (2 * h) x k
      = dsum inv h (fun i => x (2 * i)) k
        + turn (2 * h) (sgn inv * k) * dsum inv h (fun i => x (2 * i + 1)) k := by
  simp only [dsum]
  rw [sum_range_even_odd, Finset.mul_sum]
  congr 1
  · apply Finset.sum_congr rfl
    intro i _
    rw [← turn_double h hh]
    congr 2
    push_cast
    ring
  · apply Finset.sum_congr rfl
    intro i _
    rw [← turn_double h hh (sgn inv * k * i), mul_left_comm, ← turn_add]
    congr 2
    push_cast
    ring

theorem dsum_ct_high (inv : Bool) (h : Nat) (hh : h ≠ 0) (x : Nat → ℂ) (k : Nat) :
    dsum inv (2 * h) x (k + h)
      = dsum inv h (fun i => x (2 * i)) k
        - turn (2 * h) (sgn inv * k) * dsum inv h (fun i => x (2 * i + 1)) k := by
  have h2 : (2 * h) ≠ 0 := by omega
  simp only [dsum]
  rw [sum_range_even_odd, Finset.mul_sum, sub_eq_add_neg, ← Finset.sum_neg_distrib]
  congr 1
  · apply Finset.sum_congr rfl
    intro i _
    have e1 : sgn inv * ((k + h : ℕ) : ℤ) * ((2 * i : ℕ) : ℤ)
        = 2 * (sgn inv * k * i) + ((2 * h : ℕ) : ℤ) * (sgn inv * i) := by
      push_cast
      ring
    rw [e1, turn_add_self_mul _ h2, turn_double h hh]
  · apply Finset.sum_congr rfl
    intro i _
    have e : turn (2 * h) (sgn inv * ((k + h : ℕ) : ℤ) * ((2 * i + 1 : ℕ) : ℤ))
        = turn (2 * h) (sgn inv * k) * turn h (sgn inv * k * i) * turn (2 * h) (sgn inv * h) := by
      have e1 : sgn inv * ((k + h : ℕ) : ℤ) * ((2 * i + 1 : ℕ) : ℤ)
          = (sgn inv * k + 2 * (sgn inv * k * i) + sgn inv * h)
            + ((2 * h : ℕ) : ℤ) * (sgn inv * i) := by
        push_cast
        ring
      rw [e1, turn_add_self_mul _ h2, turn_add, turn_add, turn_double h hh]
    rw [e, turn_sgn_half inv h hh]
    ring

theorem getD_map_range {α : Type} (f : Nat → α) (n i : Nat) (d : α) (h : i < n) :
    ((List.range n).map f).getD i d = f i := by
  simp [List.getD_eq_getElem?_getD, List.getElem?_map, List.getElem?_range h]

theorem val_map_range (f : Nat → cmplx ℝ) (n i : Nat) (h : i < n) :
    val ((List.range n).map f) i = toC (f i) := by
  rw [val, getD_map_range f n i 0 h]

theorem dsum_congr (inv : Bool) (n : Nat) (x y : Nat → ℂ) (k : Nat)
    (h : ∀ i, i < n → x i = y i) : dsum inv n x k = dsum inv n y k := by
  simp only [dsum]
  apply Finset.sum_congr rfl
  intro i hi
  rw [h i (Finset.mem_range.mp hi)]

theorem dsum_one (inv : Bool) (x : Nat → ℂ) : dsum inv 1 x 0 = x 0 := by
  simp [dsum, turn_zero]

theorem cscale_succ (inv : Bool) (m : Nat) :
    cscale inv (m + 1) = cscale inv m * (((if inv then 1 / 2 else 1 : ℝ)) : ℂ) := by
  cases inv <;> simp [cscale, pow_succ]

/-- The recursion `_compute` on `2^m` samples returns, with fuel for `m + 1` levels, the
sums of the transform scaled by `cscale`. -/
theorem compute_spec (inv : Bool) (m : Nat) :
    ∀ (xs : List (cmplx ℝ)) (fuel : Nat), xs.length = 2 ^ m → m < fuel →
      ∃ ys, dft_ct._compute inv fuel xs (2 ^ m) = some ys ∧ ys.length = 2 ^ m
        ∧ ∀ k, k < 2 ^ m → val ys k = dsum inv (2 ^ m) (val xs) k * cscale inv m := by
  induction m with
  | zero =>
    intro xs fuel hlen hf
    obtain ⟨f, rfl⟩ : ∃ f, fuel = f + 1 := ⟨fuel - 1, by omega⟩
    refine ⟨xs, by simp [dft_ct._compute], hlen, ?_⟩
    intro k hk
    have : k = 0 := by simpa using hk
    subst this
    simp [dsum_one, cscale]
  | succ m ih =>
    intro xs fuel hlen hf
    obtain ⟨f, rfl⟩ : ∃ f, fuel = f + 1 := ⟨fuel - 1, by omega⟩
    have hpos : 0 < 2 ^ m := Nat.two_pow_pos m
    have hne1 : 2 ^ (m + 1) ≠ 1 := by
      rw [pow_succ]; omega
    have hhalf : 2 ^ (m + 1) / 2 = 2 ^ m := by
      rw [pow_succ]; omega
    have h2 : 2 ^ (m + 1) = 2 * 2 ^ m := by rw [pow_succ]; ring
    obtain ⟨os, hos, hosl, hosv⟩ := ih ((List.range (2 ^ m)).map (fun i => xs.getD (2 * i + 1) 0)) f
      (by simp) (by omega)
    obtain ⟨es, hes, hesl, hesv⟩ := ih ((List.range (2 ^ m)).map (fun i => xs.getD (2 * i) 0)) f
      (by simp) (by omega)
    obtain ⟨zs, hzs, hzsl, hzsv⟩ := combine_eq es os
      (2 * Trig.PI / ((2 ^ (m + 1) : ℕ) : ℝ) * (if inv then 1 else -1))
      (if inv then 1 / 2 else 1) (2 ^ m) xs hesl hosl (by omega)
    refine ⟨zs, ?_, by rw [hzsl, hlen], ?_⟩
    · rw [dft_ct._compute]
      simp only [hne1, if_false, hhalf]
      rw [split_even_odd_eq xs (2 ^ m) (by omega)]
      simp only [Option.bind_eq_bind, Option.some_bind, hos, hes]
      exact hzs
    · intro k hk
      have hang : ∀ j : Nat, ((j : ℝ) * (2 * Trig.PI / ((2 ^ (m + 1) : ℕ) : ℝ) * (if inv then 1 else -1)))
          = 2 * Real.pi / ((2 ^ (m + 1) : ℕ) : ℝ) * ((sgn inv : ℤ) : ℝ) * ((j : ℤ) : ℝ) := by
        intro j
        cases inv <;> simp [sgn, Trig.PI] <;> ring
      have hev : ∀ j, j < 2 ^ m → val es j
          = dsum inv (2 ^ m) (fun i => val xs (2 * i)) j * cscale inv m := by
        intro j hj
        rw [hesv j hj]
        congr 1
        apply dsum_congr
        intro i hi
        rw [val_map_range _ _ _ hi, val]
      have hod : ∀ j, j < 2 ^ m → val os j
          = dsum inv (2 ^ m) (fun i => val xs (2 * i + 1)) j * cscale inv m := by
        intro j hj
        rw [hosv j hj]
        congr 1
        apply dsum_congr
        intro i hi
        rw [val_map_range _ _ _ hi, val]
      rw [val, hzsv k, cscale_succ]
      by_cases c : k < 2 ^ m
      · rw [if_pos c, toC_scale, toC_add, toC_mul, toC_rot _ _ _ _ (hang k), h2,
          dsum_ct_low inv _ hpos.ne']
        simp only [val] at *
        rw [hev k c, hod k c]
        ring
      · have c2 : k < 2 * 2 ^ m := by omega
        have hk' : k - 2 ^ m < 2 ^ m := by omega
        have e : k = (k - 2 ^ m) + 2 ^ m := by omega
        rw [if_neg c, if_pos c2, toC_scale, toC_sub, toC_mul, toC_rot _ _ _ _ (hang (k - 2 ^ m)), h2]
        conv_rhs => rw [e, dsum_ct_high inv _ hpos.ne']
        simp only [val] at *
        rw [hev _ hk', hod _ hk']
        ring

/-! ## The power-of-two test -/

theorem and_pred_eq_zero_iff (n : Nat) (hn : 0 < n) :
    n &&& (n - 1) = 0 ↔ ∃ m, n = 2 ^ m := by
  induction n using Nat.strong_induction_on with
  | _ n ih =>
    have hmod : (n &&& (n - 1)) % 2 = 0 := by
      have h := @Nat.and_mod_two_eq_one n (n - 1)
      have : ¬ (n % 2 = 1 ∧ (n - 1) % 2 = 1) := by omega
      have h2 : ¬ ((n &&& (n - 1)) % 2 = 1) := fun e => this (h.mp e)
      omega
    have hdiv : (n &&& (n - 1)) / 2 = n / 2 &&& (n - 1) / 2 := Nat.and_div_two
    have hz : n &&& (n - 1) = 0 ↔ n / 2 &&& (n - 1) / 2 = 0 := by
      rw [← hdiv]
      omega
    rw [hz]
    rcases Nat.even_or_odd' n with ⟨k, rfl | rfl⟩
    · have hk : 0 < k := by omega
      have e1 : 2 * k / 2 = k := by omega
      have e2 : (2 * k - 1) / 2 = k - 1 := by omega
      rw [e1, e2, ih k (by omega) hk]
      constructor
      · rintro ⟨m, rfl⟩
        exact ⟨m + 1, by rw [pow_succ]; ring⟩
      · rintro ⟨m, hm⟩
        cases m with
        | zero => rw [pow_zero] at hm; omega
        | succ m =>
          refine ⟨m, ?_⟩
          rw [pow_succ] at hm
          omega
    · have e1 : (2 * k + 1) / 2 = k := by omega
      have e2 : (2 * k + 1 - 1) / 2 = k := by omega
      rw [e1, e2, Nat.and_self]
      constructor
      · rintro rfl
        exact ⟨0, by simp⟩
      · rintro ⟨m, hm⟩
        cases m with
        | zero => rw [pow_zero] at hm; omega
        | succ m =>
          rw [pow_succ] at hm
          omega

theorem not_pow2_zero : not_pow2 0 = false := by
  simp [not_pow2]

theorem not_pow2_eq_false_iff (n : Nat) (hn : 0 < n) (hlt : n < UINT32) :
    not_pow2 n = false ↔ ∃ m, n = 2 ^ m := by
  have e : (n + (UINT32 - 1)) % UINT32 = n - 1 := by
    have : n + (UINT32 - 1) = (n - 1) + UINT32 := by omega
    rw [this, Nat.add_mod_right, Nat.mod_eq_of_lt (by omega)]
  rw [← and_pred_eq_zero_iff n hn]
  simp [not_pow2, e]

theorem two_pow_lt_UINT32 (m : Nat) (hm : m < 32) : 2 ^ m < UINT32 := by
  unfold UINT32
  exact Nat.pow_lt_pow_right (by norm_num) hm

theorem not_pow2_two_pow (m : Nat) (hm : m < 32) : not_pow2 (2 ^ m) = false :=
  (not_pow2_eq_false_iff _ (Nat.two_pow_pos m) (two_pow_lt_UINT32 m hm)).mpr ⟨m, rfl⟩

/-! ## The recursive transform against the naive transform -/

theorem eq_of_val_eq (xs ys : List (cmplx ℝ)) (hl : xs.length = ys.length)
    (h : ∀ k, k < xs.length → val xs k = val ys k) : xs = ys := by
  apply List.ext_getElem hl
  intro k h1 h2
  have := toC_injective (h k h1)
  simpa [List.getD_eq_getElem?_getD, List.getElem?_eq_getElem h1,
    List.getElem?_eq_getElem h2] using this

theorem cscale_eq_nscale (inv : Bool) (m : Nat) : cscale inv m = nscale inv (2 ^ m) := by
  cases inv <;> simp [cscale, nscale]

theorem dft_ct_eq_compute {T : Type} [Field T] [Trig T] (inv : Bool) (fuel m : Nat)
    (hm : m < 32) (xs : List (cmplx T)) (hlen : xs.length = 2 ^ m) :
    dft_ct inv fuel xs = dft_ct._compute inv fuel xs (2 ^ m) := by
  have hpos : 0 < 2 ^ m := Nat.two_pow_pos m
  have hmod : xs.length % UINT32 = 2 ^ m := by
    rw [hlen]; exact Nat.mod_eq_of_lt (two_pow_lt_UINT32 m hm)
  have hne : ¬ xs.length ≤ 0 := by omega
  simp only [dft_ct, hne, if_false, hmod, not_pow2_two_pow m hm]
  simp

theorem dft_ct_eq_naive (inv : Bool) (m : Nat) (hm : m < 32) (xs : List (cmplx ℝ))
    (hlen : xs.length = 2 ^ m) (fuel : Nat) (hf : m < fuel) :
    dft_ct inv fuel xs = some (dft_naive inv xs) := by
  obtain ⟨ys, hys, hysl, hv⟩ := compute_spec inv m xs fuel hlen hf
  rw [dft_ct_eq_compute inv fuel m hm xs hlen, hys]
  congr 1
  apply eq_of_val_eq
  · rw [hysl, dft_naive_length, hlen]
  · intro k hk
    have hmod : xs.length % UINT32 = 2 ^ m := by
      rw [hlen]; exact Nat.mod_eq_of_lt (two_pow_lt_UINT32 m hm)
    rw [hysl] at hk
    rw [hv k hk, val_dft_naive, hmod, if_pos hk, cscale_eq_nscale]

theorem compute_zero {T : Type} [Field T] [Trig T] (inv : Bool) (fuel : Nat) :
    ∀ xs : List (cmplx T), dft_ct._compute inv fuel xs 0 = none := by
  induction fuel with
  | zero => intro xs; rfl
  | succ f ih =>
    intro xs
    rw [dft_ct._compute]
    simp [split_even_odd, ih]

theorem dft_ct_of_length_eq_UINT32 {T : Type} [Field T] [Trig T] (inv : Bool) (fuel : Nat)
    (xs : List (cmplx T)) (h : xs.length = UINT32) : dft_ct inv fuel xs = none := by
  have hpos : ¬ UINT32 ≤ 0 := by simp [UINT32]
  simp only [dft_ct, h, hpos, if_false, Nat.mod_self, not_pow2_zero]
  exact compute_zero inv fuel xs

/-! ## C2 -/

/-- C2 as stated fails at `m = 32`: on a sequence of `2^32` samples (`UINT32`) the length
is reduced to the `uint32` value `0`, which passes the power-of-two test, and
`_compute` recurses with `n = 0` without reaching `n == 1`: `dft_ct` returns for no
amount of fuel, while `dft_naive` returns the sequence unchanged. -/
theorem dft_ct_claimed_fails :
    ¬ ∃ fuel, dft_ct false fuel (List.replicate UINT32 (⟨1, 0⟩ : cmplx ℝ))
        = some (dft_naive false (List.replicate UINT32 (⟨1, 0⟩ : cmplx ℝ))) := by
  rintro ⟨fuel, h⟩
  rw [dft_ct_of_length_eq_UINT32 _ _ _ (by simp)] at h
  exact Option.noConfusion h

/-- C2 (amended): for `m < 32` and a sequence of `n = 2^m` samples, `dft_ct` returns (with
fuel for the `m + 1` nested calls of `_compute`) exactly the sequence that `dft_naive`
yields with the same flag; the factor `1/2` of the `m` recursion levels accumulates to
`1/n`. -/
theorem dft_ct_refines_naive (inv : Bool) (m : Nat) (xs : List (cmplx ℝ)) (fuel : Nat)
    (hm : m < 32) (hlen : xs.length = 2 ^ m) (hf : m < fuel) :
    dft_ct inv fuel xs = some (dft_naive inv xs)
      ∧ cscale true m = 1 / ((2 ^ m : ℕ) : ℂ) :=
  ⟨dft_ct_eq_naive inv m hm xs hlen fuel hf, by simp [cscale]⟩

/-- Witness of C2: the inverse transform of `[1, 2]` (`m = 1`) with fuel 2. -/
theorem dft_ct_refines_naive_witness :
    dft_ct true 2 ([⟨1, 0⟩, ⟨2, 0⟩] : List (cmplx ℝ))
        = some (dft_naive true [⟨1, 0⟩, ⟨2, 0⟩])
      ∧ cscale true 1 = 1 / ((2 ^ 1 : ℕ) : ℂ) :=
  dft_ct_refines_naive true 1 [⟨1, 0⟩, ⟨2, 0⟩] 2 (by norm_num) (by simp) (by norm_num)

/-! ## Bit operations on powers of two -/

theorem and_two_pow_eq_zero_of_lt (j p : Nat) (h : j < 2 ^ p) : j &&& 2 ^ p = 0 := by
  apply Nat.eq_of_testBit_eq
  intro i
  simp only [Nat.testBit_and, Nat.zero_testBit]
  by_cases hi : p = i
  · subst hi
    simp [Nat.testBit_lt_two_pow h]
  · simp [Nat.testBit_two_pow_of_ne hi]

theorem and_two_pow_ne_zero_of_ge (j p : Nat) (h1 : 2 ^ p ≤ j) (h2 : j < 2 ^ (p + 1)) :
    j &&& 2 ^ p ≠ 0 := by
  intro h
  have hb : (j &&& 2 ^ p).testBit p = false := by rw [h]; simp
  have e : j = 2 ^ p + (j - 2 ^ p) := by omega
  have hlt : j - 2 ^ p < 2 ^ p := by rw [pow_succ] at h2; omega
  rw [Nat.testBit_and, Nat.testBit_two_pow_self, e, Nat.testBit_two_pow_add_eq,
    Nat.testBit_lt_two_pow hlt] at hb
  simp at hb

theorem xor_two_pow_of_lt (j p : Nat) (h : j < 2 ^ p) : j ^^^ 2 ^ p = j + 2 ^ p := by
  apply Nat.eq_of_testBit_eq
  intro i
  rw [Nat.testBit_xor, Nat.add_comm]
  by_cases hi : p = i
  · subst hi
    rw [Nat.testBit_two_pow_add_eq, Nat.testBit_two_pow_self, Nat.testBit_lt_two_pow h]
    rfl
  · rw [Nat.testBit_two_pow_of_ne hi]
    rcases Nat.lt_or_gt_of_ne hi with h' | h'
    · have hj : j.testBit i = false :=
        Nat.testBit_lt_two_pow (lt_of_lt_of_le h (Nat.pow_le_pow_right (by norm_num) h'.le))
      have hs : (2 ^ p + j).testBit i = false :=
        Nat.testBit_lt_two_pow (by
          have : 2 ^ (p + 1) ≤ 2 ^ i := Nat.pow_le_pow_right (by norm_num) h'
          rw [pow_succ] at this
          omega)
      simp [hj, hs]
    · rw [Nat.testBit_two_pow_add_gt h']
      simp

theorem xor_two_pow_of_ge (j p : Nat) (h1 : 2 ^ p ≤ j) (h2 : j < 2 ^ (p + 1)) :
    j ^^^ 2 ^ p = j - 2 ^ p := by
  have hlt : j - 2 ^ p < 2 ^ p := by rw [pow_succ] at h2; omega
  have e := xor_two_pow_of_lt (j - 2 ^ p) p hlt
  have e' : j - 2 ^ p + 2 ^ p = j := by omega
  rw [e'] at e
  calc j ^^^ 2 ^ p = ((j - 2 ^ p) ^^^ 2 ^ p) ^^^ 2 ^ p := by rw [e]
    _ = j - 2 ^ p := by rw [Nat.xor_assoc, Nat.xor_self, Nat.xor_zero]

theorem two_pow_succ_shiftRight_one (p : Nat) : 2 ^ (p + 1) >>> 1 = 2 ^ p := by
  rw [Nat.shiftRight_eq_div_pow, pow_succ]
  omega

/-! ## Bit reversal -/

theorem bitrev_lt (m : Nat) : ∀ i, bitrev m i < 2 ^ m := by
  induction m with
  | zero => intro i; simp [bitrev]
  | succ m ih =>
    intro i
    have := ih (i / 2)
    have h2 : i % 2 < 2 := Nat.mod_lt _ (by norm_num)
    rw [bitrev, pow_succ]
    rcases Nat.lt_succ_iff.mp h2 with h
    interval_cases (i % 2) <;> omega

/-- The second recursion of bit reversal: the top bit of `i` becomes the lowest. -/
theorem bitrev_succ' (m : Nat) : ∀ i, i < 2 ^ (m + 1) →
    bitrev (m + 1) i = 2 * bitrev m (i % 2 ^ m) + i / 2 ^ m := by
  induction m with
  | zero =>
    intro i hi
    simp [bitrev, Nat.mod_one]
    omega
  | succ m ih =>
    intro i hi
    have hpos : 0 < 2 ^ m := Nat.two_pow_pos m
    have hi2 : i / 2 < 2 ^ (m + 1) := by
      rw [pow_succ] at hi; omega
    have e1 : i % 2 ^ (m + 1) % 2 = i % 2 := by
      rw [pow_succ, Nat.mul_comm]
      exact Nat.mod_mul_right_mod i 2 (2 ^ m)
    have e2 : i % 2 ^ (m + 1) / 2 = i / 2 % 2 ^ m := by
      rw [pow_succ, Nat.mul_comm]
      exact Nat.mod_mul_right_div_self i 2 (2 ^ m)
    have e3 : i / 2 / 2 ^ m = i / 2 ^ (m + 1) := by
      rw [Nat.div_div_eq_div_mul, pow_succ, Nat.mul_comm]
    rw [bitrev, ih (i / 2) hi2]
    conv_rhs => rw [bitrev, e1, e2]
    rw [e3, pow_succ]
    ring

theorem bitrev_bitrev (m : Nat) : ∀ i, i < 2 ^ m → bitrev m (bitrev m i) = i := by
  induction m with
  | zero =>
    intro i hi
    simp at hi
    simp [bitrev, hi]
  | succ m ih =>
    intro i hi
    have hpos : 0 < 2 ^ m := Nat.two_pow_pos m
    have hi2 : i / 2 < 2 ^ m := by
      rw [pow_succ] at hi; omega
    have hb := bitrev_lt m (i / 2)
    have h2 : i % 2 < 2 := Nat.mod_lt _ (by norm_num)
    rw [bitrev_succ' m _ (bitrev_lt (m + 1) i)]
    conv_lhs => rw [bitrev]
    have e1 : (i % 2 * 2 ^ m + bitrev m (i / 2)) % 2 ^ m = bitrev m (i / 2) := by
      rw [Nat.add_comm, Nat.add_mul_mod_self_right, Nat.mod_eq_of_lt hb]
    have e2 : (i % 2 * 2 ^ m + bitrev m (i / 2)) / 2 ^ m = i % 2 := by
      rw [Nat.add_comm, Nat.add_mul_div_right _ _ hpos, Nat.div_eq_of_lt hb]
      simp
    rw [e1, e2, ih _ hi2]
    omega

theorem bitrev_zero_right (m : Nat) : bitrev m 0 = 0 := by
  induction m with
  | zero => rfl
  | succ m ih => simp [bitrev, ih]

theorem bitrev_double (m b : Nat) : bitrev (m + 1) (2 * b) = bitrev m b := by
  rw [bitrev]
  have e1 : 2 * b % 2 = 0 := by omega
  have e2 : 2 * b / 2 = b := by omega
  rw [e1, e2]
  simp

theorem bitrev_double_succ (m b : Nat) : bitrev (m + 1) (2 * b + 1) = 2 ^ m + bitrev m b := by
  rw [bitrev]
  have e1 : (2 * b + 1) % 2 = 1 := by omega
  have e2 : (2 * b + 1) / 2 = b := by omega
  rw [e1, e2]
  simp

/-! ## The reversed counter of the permutation loop -/

theorem rev_carry_zero (j : Nat) : rev_carry j 0 = (j, 0) := by
  rw [rev_carry]
  simp

theorem rev_carry_of_lt (j p : Nat) (h : j < 2 ^ p) : rev_carry j (2 ^ p) = (j, 2 ^ p) := by
  rw [rev_carry]
  simp [and_two_pow_eq_zero_of_lt j p h]

theorem rev_carry_of_ge (j p : Nat) (h1 : 2 ^ p ≤ j) (h2 : j < 2 ^ (p + 1)) :
    rev_carry j (2 ^ p) = rev_carry (j - 2 ^ p) (2 ^ p >>> 1) := by
  rw [rev_carry]
  simp [and_two_pow_ne_zero_of_ge j p h1 h2, xor_two_pow_of_ge j p h1 h2]

/-- The counter `j` of the permutation loop steps through the bit-reversed indices. -/
theorem rev_carry_bitrev (m : Nat) : ∀ i,
    (rev_carry (bitrev (m + 1) i) (2 ^ m)).1 ^^^ (rev_carry (bitrev (m + 1) i) (2 ^ m)).2
      = bitrev (m + 1) (i + 1) := by
  induction m with
  | zero =>
    intro i
    rcases Nat.mod_two_eq_zero_or_one i with h | h
    · have e : bitrev 1 i = 0 := by simp [bitrev, h]
      have e' : bitrev 1 (i + 1) = 1 := by
        simp only [bitrev, pow_zero, mul_one, add_zero]
        omega
      have := rev_carry_of_lt 0 0 (by norm_num)
      simp only [pow_zero] at this
      rw [e, e', pow_zero, this]
      rfl
    · have e : bitrev 1 i = 1 := by simp [bitrev, h]
      have e' : bitrev 1 (i + 1) = 0 := by
        simp only [bitrev, pow_zero, mul_one, add_zero]
        omega
      have := rev_carry_of_ge 1 0 (by norm_num) (by norm_num)
      simp only [pow_zero] at this
      rw [e, e', pow_zero, this]
      simp [rev_carry_zero]
  | succ m ih =>
    intro i
    have hb := bitrev_lt (m + 1) (i / 2)
    rcases Nat.mod_two_eq_zero_or_one i with h | h
    · have e : bitrev (m + 2) i = bitrev (m + 1) (i / 2) := by
        rw [bitrev, h]; simp
      have e' : bitrev (m + 2) (i + 1) = 2 ^ (m + 1) + bitrev (m + 1) (i / 2) := by
        have h1 : (i + 1) % 2 = 1 := by omega
        have h2 : (i + 1) / 2 = i / 2 := by omega
        rw [bitrev, h1, h2]; simp
      rw [e, e', rev_carry_of_lt _ _ hb]
      simp only
      rw [xor_two_pow_of_lt _ _ hb, Nat.add_comm]
    · have e : bitrev (m + 2) i = 2 ^ (m + 1) + bitrev (m + 1) (i / 2) := by
        rw [bitrev, h]; simp
      have e' : bitrev (m + 2) (i + 1) = bitrev (m + 1) (i / 2 + 1) := by
        have h1 : (i + 1) % 2 = 0 := by omega
        have h2 : (i + 1) / 2 = i / 2 + 1 := by omega
        rw [bitrev, h1, h2]; simp
      have hlt : 2 ^ (m + 1) + bitrev (m + 1) (i / 2) < 2 ^ (m + 1 + 1) := by
        rw [pow_succ 2 (m + 1)]; omega
      rw [e, e', rev_carry_of_ge _ _ (by omega) hlt, two_pow_succ_shiftRight_one,
        Nat.add_sub_cancel_left]
      exact ih (i / 2)

/-! ## The permutation loop -/

theorem swap_eq_some {α : Type} (xs : List α) (i j : Nat) (d : α) (hi : i < xs.length)
    (hj : j < xs.length) :
    swap xs i j = some ((xs.set i (xs.getD j d)).set j (xs.getD i d)) := by
  simp only [swap, getElem?_eq_some_getD xs i d hi, getElem?_eq_some_getD xs j d hj,
    Option.bind_eq_bind, Option.some_bind]
  rw [write_eq_some _ _ _ hi]
  simp only [Option.some_bind]
  rw [write_eq_some _ _ _ (by simpa using hj)]

theorem bitrev_eq_iff (m p i : Nat) (hp : p < 2 ^ m) (hi : i < 2 ^ m) :
    bitrev m p = i ↔ p = bitrev m i := by
  constructor
  · intro h; rw [← h, bitrev_bitrev m p hp]
  · intro h; rw [h, bitrev_bitrev m i hi]

theorem perm_loop_prefix {T : Type} [Field T] (m : Nat) (xs : List (cmplx T))
    (hlen : xs.length = 2 ^ m) : ∀ c, c + 1 ≤ 2 ^ m →
    ∃ ys, (List.range' 1 c).foldlM (perm_step (2 ^ m)) (0, xs) = some (bitrev m c, ys)
      ∧ ys.length = xs.length
      ∧ ∀ p, p < 2 ^ m → ys.getD p 0
          = if p ≤ c ∨ bitrev m p ≤ c then xs.getD (bitrev m p) 0 else xs.getD p 0 := by
  intro c
  induction c with
  | zero =>
    intro _
    refine ⟨xs, by simp [bitrev_zero_right], rfl, ?_⟩
    intro p hp
    split
    · next h =>
      have : p = 0 := by
        rcases h with h | h
        · omega
        · have := (bitrev_eq_iff m p 0 hp (Nat.two_pow_pos m)).mp (by omega)
          rw [this, bitrev_zero_right]
      subst this
      rw [bitrev_zero_right]
    · rfl
  | succ c ih =>
    intro hc
    obtain ⟨ys, hys, hysl, hv⟩ := ih (by omega)
    obtain ⟨m', rfl⟩ : ∃ m', m = m' + 1 := by
      cases m with
      | zero => simp at hc
      | succ m' => exact ⟨m', rfl⟩
    have hi : c + 1 < 2 ^ (m' + 1) := by omega
    have hj : bitrev (m' + 1) (c + 1) < 2 ^ (m' + 1) := bitrev_lt _ _
    have hjj : bitrev (m' + 1) (bitrev (m' + 1) (c + 1)) = c + 1 := bitrev_bitrev _ _ hi
    have hstep : perm_step (2 ^ (m' + 1)) (bitrev (m' + 1) c, ys) (1 + c)
        = some (bitrev (m' + 1) (c + 1),
            if c + 1 < bitrev (m' + 1) (c + 1) then
              (ys.set (c + 1) (ys.getD (bitrev (m' + 1) (c + 1)) 0)).set
                (bitrev (m' + 1) (c + 1)) (ys.getD (c + 1) 0)
            else ys) := by
      simp only [perm_step, two_pow_succ_shiftRight_one, rev_carry_bitrev, Nat.add_comm 1 c]
      split
      · rw [swap_eq_some ys _ _ 0 (by omega) (by omega)]
        rfl
      · rfl
    refine ⟨if c + 1 < bitrev (m' + 1) (c + 1) then
              (ys.set (c + 1) (ys.getD (bitrev (m' + 1) (c + 1)) 0)).set
                (bitrev (m' + 1) (c + 1)) (ys.getD (c + 1) 0)
            else ys, ?_, ?_, ?_⟩
    · rw [List.range'_concat, List.foldlM_append, hys]
      simp only [Option.bind_eq_bind, Option.some_bind, List.foldlM_cons, List.foldlM_nil,
        one_mul, hstep, Option.pure_def]
    · split <;> simp [hysl]
    · intro p hp
      have hinj := bitrev_eq_iff (m' + 1) p (c + 1) hp hi
      have hvp := hv p hp
      have hvi := hv (c + 1) hi
      have hvj := hv _ hj
      rw [hjj] at hvj
      by_cases hswap : c + 1 < bitrev (m' + 1) (c + 1)
      · rw [if_pos hswap, getD_set_eq, getD_set_eq]
        simp only [List.length_set, hysl, hlen]
        rw [if_neg (by omega)] at hvi
        rw [if_neg (by omega)] at hvj
        by_cases c1 : p = bitrev (m' + 1) (c + 1)
        · rw [if_pos ⟨c1, hj⟩, hvi, c1, hjj, if_pos (Or.inr le_rfl)]
        · rw [if_neg (fun h => c1 h.1)]
          by_cases c2 : p = c + 1
          · rw [if_pos ⟨c2, hi⟩, hvj, c2, if_pos (Or.inl le_rfl)]
          · rw [if_neg (fun h => c2 h.1), hvp]
            have c3 : bitrev (m' + 1) p ≠ c + 1 := fun h => c1 (hinj.mp h)
            have : (p ≤ c ∨ bitrev (m' + 1) p ≤ c) ↔ (p ≤ c + 1 ∨ bitrev (m' + 1) p ≤ c + 1) := by
              omega
            simp only [this]
      · rw [if_neg hswap, hvp]
        by_cases c2 : p = c + 1
        · subst c2
          rw [if_pos (Or.inl le_rfl)]
          split
          · rfl
          · next h =>
            have : bitrev (m' + 1) (c + 1) = c + 1 := by omega
            rw [this]
        · by_cases c1 : p = bitrev (m' + 1) (c + 1)
          · rw [if_pos (Or.inl (by omega)), if_pos (Or.inl (by omega))]
          · have c3 : bitrev (m' + 1) p ≠ c + 1 := fun h => c1 (hinj.mp h)
            have : (p ≤ c ∨ bitrev (m' + 1) p ≤ c) ↔ (p ≤ c + 1 ∨ bitrev (m' + 1) p ≤ c + 1) := by
              omega
            simp only [this]

theorem perm_loop_spec {T : Type} [Field T] (m : Nat) (xs : List (cmplx T))
    (hlen : xs.length = 2 ^ m) :
    ∃ ys, perm_loop (2 ^ m) xs = some (bitrev m (2 ^ m - 1), ys)
      ∧ ys.length = xs.length
      ∧ ∀ p, p < 2 ^ m → ys.getD p 0 = xs.getD (bitrev m p) 0 := by
  have hpos : 0 < 2 ^ m := Nat.two_pow_pos m
  obtain ⟨ys, h1, h2, h3⟩ := perm_loop_prefix m xs hlen (2 ^ m - 1) (by omega)
  refine ⟨ys, h1, h2, ?_⟩
  intro p hp
  rw [h3 p hp, if_pos (Or.inl (by omega))]

/-! ## One block of butterflies -/

theorem butterfly_block_spec {T : Type} [Field T] (rot : cmplx T) (half i : Nat)
    (xs : List (cmplx T)) (h : i + 2 * half ≤ xs.length) :
    ∃ zs, butterfly_block rot half i xs = some (cmplx.rotpow rot half, zs)
      ∧ zs.length = xs.length
      ∧ ∀ p, zs.getD p 0 =
          if i ≤ p ∧ p < i + half then
            xs.getD p 0 + xs.getD (p + half) 0 * cmplx.rotpow rot (p - i)
          else if i + half ≤ p ∧ p < i + 2 * half then
            xs.getD (p - half) 0 - xs.getD p 0 * cmplx.rotpow rot (p - half - i)
          else xs.getD p 0 := by
  let g : cmplx T × List (cmplx T) → Nat → cmplx T × List (cmplx T) := fun st j =>
    (st.1 * rot,
      (st.2.set (i + j) (st.2.getD (i + j) 0 + st.2.getD (i + j + half) 0 * st.1)).set
        (i + j + half) (st.2.getD (i + j) 0 - st.2.getD (i + j + half) 0 * st.1))
  have key := foldlM_range_eq_foldl
    (fun (st : cmplx T × List (cmplx T)) j => do
      let u ← st.2[i + j]?
      let x ← st.2[i + j + half]?
      let v := x * st.1
      let s ← write st.2 (i + j) (u + v)
      let s ← write s (i + j + half) (u - v)
      pure (st.1 * rot, s))
    g (fun st => st.2.length = xs.length) half (⟨1, 0⟩, xs) rfl
    (by
      intro st k hk hlen
      have h1 := getElem?_eq_some_getD st.2 (i + k) 0 (by omega)
      have h2 := getElem?_eq_some_getD st.2 (i + k + half) 0 (by omega)
      refine ⟨?_, by simp [g, hlen]⟩
      simp only [h1, h2, Option.bind_eq_bind, Option.some_bind]
      rw [write_eq_some _ _ _ (by omega)]
      simp only [Option.some_bind]
      rw [write_eq_some _ _ _ (by simp; omega)]
      rfl)
  have inv : ∀ j, j ≤ half →
      ((List.range j).foldl g (⟨1, 0⟩, xs)).1 = cmplx.rotpow rot j
      ∧ ((List.range j).foldl g (⟨1, 0⟩, xs)).2.length = xs.length
      ∧ ∀ p, ((List.range j).foldl g (⟨1, 0⟩, xs)).2.getD p 0 =
        if i ≤ p ∧ p < i + j then
          xs.getD p 0 + xs.getD (p + half) 0 * cmplx.rotpow rot (p - i)
        else if i + half ≤ p ∧ p < i + half + j then
          xs.getD (p - half) 0 - xs.getD p 0 * cmplx.rotpow rot (p - half - i)
        else xs.getD p 0 := by
    intro j
    induction j with
    | zero =>
      intro _
      refine ⟨rfl, rfl, ?_⟩
      intro p
      have h1 : ¬ (i ≤ p ∧ p < i + 0) := by omega
      have h2 : ¬ (i + half ≤ p ∧ p < i + half + 0) := by omega
      simp only [List.range_zero, List.foldl_nil, if_neg h1, if_neg h2]
    | succ j ih =>
      intro hj
      obtain ⟨ihw, ihl, ihv⟩ := ih (by omega)
      simp only [List.range_succ, List.foldl_append, List.foldl_cons, List.foldl_nil]
      refine ⟨?_, ?_, ?_⟩
      · simp only [g, ihw, cmplx.rotpow]
      · simp only [g, List.length_set, ihl]
      · intro p
        have ea : ((List.range j).foldl g (⟨1, 0⟩, xs)).2.getD (i + j) 0 = xs.getD (i + j) 0 := by
          rw [ihv, if_neg (by omega), if_neg (by omega)]
        have eb : ((List.range j).foldl g (⟨1, 0⟩, xs)).2.getD (i + j + half) 0
            = xs.getD (i + j + half) 0 := by
          rw [ihv, if_neg (by omega), if_neg (by omega)]
        simp only [g]
        rw [getD_set_eq, getD_set_eq, ihv p, ea, eb, ihw]
        simp only [List.length_set, ihl]
        split_ifs <;> first
          | rfl
          | (exfalso; omega)
          | (have e : p = i + j := by omega
             subst e
             rw [Nat.add_sub_cancel_left])
          | (have e : p = i + j + half := by omega
             subst e
             have e1 : i + j + half - half = i + j := by omega
             have e2 : i + j - i = j := by omega
             rw [e1, e2])
  obtain ⟨hw, hl, hv⟩ := inv half le_rfl
  refine ⟨((List.range half).foldl g (⟨1, 0⟩, xs)).2, ?_, hl, ?_⟩
  · unfold butterfly_block
    rw [key.1, ← hw]
  · intro p
    rw [hv p]
    have : (i + half ≤ p ∧ p < i + half + half) ↔ (i + half ≤ p ∧ p < i + 2 * half) := by omega
    simp only [this]

/-! ## One stage: the loop over the blocks -/

theorem block_loop_spec {T : Type} [Field T] (rot : cmplx T) (half len B : Nat)
    (hlen2 : len = 2 * half) (hhalf : 0 < half) (hn : B * len < UINT32) :
    ∀ k b (xs : List (cmplx T)) (fuel : Nat), b + k = B → B * len ≤ xs.length → k < fuel →
    ∃ zs, block_loop rot (B * len) len fuel (b * len) xs = some zs
      ∧ zs.length = xs.length
      ∧ (∀ p, p < b * len ∨ B * len ≤ p → zs.getD p 0 = xs.getD p 0)
      ∧ (∀ b' q, b ≤ b' → b' < B → q < half →
          zs.getD (b' * len + q) 0
            = xs.getD (b' * len + q) 0 + xs.getD (b' * len + q + half) 0 * cmplx.rotpow rot q
          ∧ zs.getD (b' * len + q + half) 0
            = xs.getD (b' * len + q) 0 - xs.getD (b' * len + q + half) 0 * cmplx.rotpow rot q) := by
  intro k
  induction k with
  | zero =>
    intro b xs fuel hb hxs hf
    obtain ⟨f, rfl⟩ : ∃ f, fuel = f + 1 := ⟨fuel - 1, by omega⟩
    have : b = B := by omega
    subst this
    refine ⟨xs, by simp [block_loop], rfl, fun _ _ => rfl, ?_⟩
    intro b' q h1 h2
    omega
  | succ k ih =>
    intro b xs fuel hb hxs hf
    obtain ⟨f, rfl⟩ : ∃ f, fuel = f + 1 := ⟨fuel - 1, by omega⟩
    have hbB : b + 1 ≤ B := by omega
    have hmul : (b + 1) * len ≤ B * len := Nat.mul_le_mul_right len hbB
    have hsucc : (b + 1) * len = b * len + len := Nat.succ_mul b len
    have hi : b * len < B * len := by omega
    obtain ⟨s1, hs1, hs1l, hs1v⟩ := butterfly_block_spec rot half (b * len) xs (by omega)
    obtain ⟨zs, hzs, hzsl, hzu, hzb⟩ := ih (b + 1) s1 f (by omega) (by omega) (by omega)
    have hmod : (b * len + len) % UINT32 = (b + 1) * len := by
      rw [← hsucc]
      exact Nat.mod_eq_of_lt (by omega)
    have hdiv : len / 2 = half := by omega
    refine ⟨zs, ?_, by rw [hzsl, hs1l], ?_, ?_⟩
    · rw [block_loop]
      simp only [hi, if_true, hdiv, hs1, Option.bind_eq_bind, Option.some_bind, hmod]
      exact hzs
    · intro p hp
      rw [hzu p (by omega), hs1v p, if_neg (by omega), if_neg (by omega)]
    · intro b' q h1 h2 hq
      have hb'1 : (b' + 1) * len ≤ B * len := Nat.mul_le_mul_right len (by omega)
      have hb's : (b' + 1) * len = b' * len + len := Nat.succ_mul b' len
      rcases Nat.eq_or_lt_of_le h1 with e | hlt
      · subst e
        rw [hzu _ (Or.inl (by omega)), hzu _ (Or.inl (by omega)), hs1v, hs1v,
          if_pos (by omega), if_neg (by omega), if_pos (by omega)]
        have e1 : b * len + q - b * len = q := by omega
        have e2 : b * len + q + half - half = b * len + q := by omega
        rw [e1, e2, e1]
        exact ⟨rfl, rfl⟩
      · have hge : (b + 1) * len ≤ b' * len := Nat.mul_le_mul_right len hlt
        obtain ⟨z1, z2⟩ := hzb b' q (by omega) h2 hq
        rw [z1, z2, hs1v, hs1v, if_neg (by omega), if_neg (by omega), if_neg (by omega),
          if_neg (by omega)]
        exact ⟨rfl, rfl⟩

/-! ## The stage loop -/

theorem toC_rotpow (rot : cmplx ℝ) (k : Nat) : toC (cmplx.rotpow rot k) = toC rot ^ k := by
  induction k with
  | zero => simp [cmplx.rotpow, toC_mk_one]
  | succ k ih => rw [cmplx.rotpow, toC_mul, ih, pow_succ]

theorem toC_stage_rot (inv : Bool) (len k : Nat) :
    toC (cmplx.rotpow
      (⟨Trig.cos (2 * Trig.PI / (len : ℝ) * (if inv then 1 else -1)),
        Trig.sin (2 * Trig.PI / (len : ℝ) * (if inv then 1 else -1))⟩ : cmplx ℝ) k)
      = turn len (sgn inv * k) := by
  rw [toC_rotpow, toC_rot len (sgn inv) 1, mul_one, turn_mul_nat]
  cases inv <;> simp [sgn, Trig.PI]

theorem stage_loop_spec (inv : Bool) (m : Nat) (hm : m ≤ 30) (x : Nat → ℂ) :
    ∀ r t (ys : List (cmplx ℝ)) (fuel : Nat), t + r = m → ys.length = 2 ^ m →
      2 ^ r + r < fuel →
      (∀ b k, b < 2 ^ r → k < 2 ^ t →
        val ys (b * 2 ^ t + k) = dsum inv (2 ^ t) (fun i => x (i * 2 ^ r + bitrev r b)) k) →
      ∃ zs, stage_loop inv (2 ^ m) fuel (2 ^ (t + 1)) ys = some zs ∧ zs.length = 2 ^ m
        ∧ ∀ k, k < 2 ^ m → val zs k = dsum inv (2 ^ m) x k := by
  intro r
  induction r with
  | zero =>
    intro t ys fuel htr hlen hf hI
    obtain ⟨f, rfl⟩ : ∃ f, fuel = f + 1 := ⟨fuel - 1, by omega⟩
    have : t = m := by omega
    subst this
    have hgt : ¬ 2 ^ (t + 1) ≤ 2 ^ t := by
      rw [pow_succ]
      have := Nat.two_pow_pos t
      omega
    refine ⟨ys, by simp [stage_loop, hgt], hlen, ?_⟩
    intro k hk
    have := hI 0 k (by norm_num) hk
    simp only [zero_mul, zero_add, pow_zero, mul_one, bitrev, add_zero] at this
    exact this
  | succ r ih =>
    intro t ys fuel htr hlen hf hI
    have hposr : 0 < 2 ^ r := Nat.two_pow_pos r
    obtain ⟨f, rfl⟩ : ∃ f, fuel = f + 1 := ⟨fuel - 1, by omega⟩
    have hpost : 0 < 2 ^ t := Nat.two_pow_pos t
    have hlen' : 2 ^ (t + 1) = 2 * 2 ^ t := by rw [pow_succ]; ring
    have hn : 2 ^ m = 2 ^ r * 2 ^ (t + 1) := by
      have : m = r + (t + 1) := by omega
      rw [this, pow_add]
    have hle : 2 ^ (t + 1) ≤ 2 ^ m := Nat.pow_le_pow_right (by norm_num) (by omega)
    have hr2 : 2 ^ (r + 1) = 2 * 2 ^ r := by rw [pow_succ]; ring
    have hnlt : 2 ^ r * 2 ^ (t + 1) < UINT32 := by
      rw [← hn]; exact two_pow_lt_UINT32 m (by omega)
    obtain ⟨s, hs, hsl, -, hsb⟩ := block_loop_spec
      (⟨Trig.cos (2 * Trig.PI / ((2 ^ (t + 1) : ℕ) : ℝ) * (if inv then 1 else -1)),
        Trig.sin (2 * Trig.PI / ((2 ^ (t + 1) : ℕ) : ℝ) * (if inv then 1 else -1))⟩ : cmplx ℝ)
      (2 ^ t) (2 ^ (t + 1)) (2 ^ r) hlen' hpost hnlt (2 ^ r) 0 ys f (by omega)
      (by rw [hlen, hn]) (by omega)
    have hnext : (2 ^ (t + 1) <<< 1) % UINT32 = 2 ^ (t + 1 + 1) := by
      rw [Nat.shiftLeft_eq, pow_one, ← pow_succ]
      exact Nat.mod_eq_of_lt (two_pow_lt_UINT32 _ (by omega))
    have hI' : ∀ b k, b < 2 ^ r → k < 2 ^ (t + 1) →
        val s (b * 2 ^ (t + 1) + k)
          = dsum inv (2 ^ (t + 1)) (fun i => x (i * 2 ^ r + bitrev r b)) k := by
      intro b k hb hk
      have d0 : ∀ q, dsum inv (2 ^ t) (fun i => x (i * 2 ^ (r + 1) + bitrev r b)) q
          = dsum inv (2 ^ t) (fun i => (fun i => x (i * 2 ^ r + bitrev r b)) (2 * i)) q := by
        intro q
        apply dsum_congr
        intro i _
        simp only
        congr 1
        rw [hr2]; ring
      have d1 : ∀ q, dsum inv (2 ^ t) (fun i => x (i * 2 ^ (r + 1) + (2 ^ r + bitrev r b))) q
          = dsum inv (2 ^ t) (fun i => (fun i => x (i * 2 ^ r + bitrev r b)) (2 * i + 1)) q := by
        intro q
        apply dsum_congr
        intro i _
        simp only
        congr 1
        rw [hr2]; ring
      rw [hlen']
      by_cases c : k < 2 ^ t
      · obtain ⟨z1, -⟩ := hsb b k (Nat.zero_le _) hb c
        have e0 := hI (2 * b) k (by omega) c
        have e1 := hI (2 * b + 1) k (by omega) c
        have p0 : 2 * b * 2 ^ t + k = b * 2 ^ (t + 1) + k := by rw [hlen']; ring
        have p1 : (2 * b + 1) * 2 ^ t + k = b * 2 ^ (t + 1) + k + 2 ^ t := by rw [hlen']; ring
        rw [p0] at e0
        rw [p1] at e1
        rw [← hlen', val, z1, toC_add, toC_mul, toC_stage_rot, ← val, ← val, e0, e1,
          bitrev_double, bitrev_double_succ, hlen', dsum_ct_low inv _ hpost.ne', d0, d1]
        ring
      · have hq : k - 2 ^ t < 2 ^ t := by omega
        obtain ⟨-, z2⟩ := hsb b (k - 2 ^ t) (Nat.zero_le _) hb hq
        have e0 := hI (2 * b) (k - 2 ^ t) (by omega) hq
        have e1 := hI (2 * b + 1) (k - 2 ^ t) (by omega) hq
        have p0 : 2 * b * 2 ^ t + (k - 2 ^ t) = b * 2 ^ (t + 1) + (k - 2 ^ t) := by
          rw [hlen']; ring
        have p1 : (2 * b + 1) * 2 ^ t + (k - 2 ^ t)
            = b * 2 ^ (t + 1) + (k - 2 ^ t) + 2 ^ t := by rw [hlen']; ring
        have pk : b * (2 * 2 ^ t) + k = b * 2 ^ (t + 1) + (k - 2 ^ t) + 2 ^ t := by
          rw [hlen']; omega
        have ek : k = (k - 2 ^ t) + 2 ^ t := by omega
        rw [p0] at e0
        rw [p1] at e1
        rw [pk, val, z2, toC_sub, toC_mul, toC_stage_rot, ← val, ← val, e0, e1,
          bitrev_double, bitrev_double_succ, hlen']
        conv_rhs => rw [ek, dsum_ct_high inv _ hpost.ne']
        rw [d0, d1]
        ring
    obtain ⟨zs, hzs, hzsl, hzv⟩ := ih (t + 1) s f (by omega) (by rw [hsl, hlen]) (by omega) hI'
    refine ⟨zs, ?_, hzsl, hzv⟩
    rw [stage_loop]
    simp only [hle, if_true, hnext, Option.bind_eq_bind]
    rw [hn]
    simp only [zero_mul] at hs
    rw [hs]
    simp only [Option.some_bind]
    rw [← hn]
    exact hzs

/-! ## The in-place transform against the naive transform -/

theorem val_map_divide (s : List (cmplx ℝ)) (c : ℝ) (k : Nat) (hk : k < s.length) :
    val (s.map (fun z => z.divide c)) k = val s k / (c : ℂ) := by
  simp only [val, List.getD_eq_getElem?_getD, List.getElem?_map, List.getElem?_eq_getElem hk,
    Option.map_some', Option.getD_some, toC_divide]

theorem dft_inplace_spec (inv : Bool) (m : Nat) (hm : m ≤ 30) (xs : List (cmplx ℝ))
    (hlen : xs.length = 2 ^ m) (fuel : Nat) (hf : 2 ^ m + m < fuel) :
    ∃ zs, dft_inplace inv fuel xs = some zs ∧ zs.length = 2 ^ m
      ∧ ∀ k, k < 2 ^ m → val zs k = dsum inv (2 ^ m) (val xs) k * nscale inv (2 ^ m) := by
  have hpos : 0 < 2 ^ m := Nat.two_pow_pos m
  have hmod : xs.length % UINT32 = 2 ^ m := by
    rw [hlen]; exact Nat.mod_eq_of_lt (two_pow_lt_UINT32 m (by omega))
  have hne : ¬ xs.length ≤ 0 := by omega
  obtain ⟨ys, hys, hysl, hyv⟩ := perm_loop_spec m xs hlen
  obtain ⟨zs, hzs, hzsl, hzv⟩ := stage_loop_spec inv m hm (val xs) m 0 ys fuel (by omega)
    (by rw [hysl, hlen]) hf (by
      intro b k hb hk
      have hk0 : k = 0 := by simpa using hk
      subst hk0
      simp only [pow_zero, mul_one, add_zero, dsum_one, zero_mul, zero_add]
      rw [val, hyv b hb, val])
  have hrun : dft_inplace inv fuel xs
      = if inv then some (zs.map (fun c => c.divide ((2 ^ m : ℕ) : ℝ))) else some zs := by
    simp only [dft_inplace, hne, if_false, hmod, not_pow2_two_pow m (by omega : m < 32), hys,
      Option.bind_eq_bind, Option.some_bind]
    simp only [zero_add, pow_one] at hzs
    simp [hzs]
  cases inv with
  | false =>
    refine ⟨zs, by simpa using hrun, hzsl, ?_⟩
    intro k hk
    rw [hzv k hk]
    simp [nscale]
  | true =>
    refine ⟨zs.map (fun c => c.divide ((2 ^ m : ℕ) : ℝ)), by simpa using hrun, by simp [hzsl], ?_⟩
    intro k hk
    rw [val_map_divide _ _ _ (by omega), hzv k hk]
    simp [nscale, div_eq_mul_inv]

theorem dft_inplace_eq_naive (inv : Bool) (m : Nat) (hm : m ≤ 30) (xs : List (cmplx ℝ))
    (hlen : xs.length = 2 ^ m) (fuel : Nat) (hf : 2 ^ m + m < fuel) :
    dft_inplace inv fuel xs = some (dft_naive inv xs) := by
  obtain ⟨zs, hzs, hzsl, hv⟩ := dft_inplace_spec inv m hm xs hlen fuel hf
  rw [hzs]
  congr 1
  apply eq_of_val_eq
  · rw [hzsl, dft_naive_length, hlen]
  · intro k hk
    have hmod : xs.length % UINT32 = 2 ^ m := by
      rw [hlen]; exact Nat.mod_eq_of_lt (two_pow_lt_UINT32 m (by omega))
    rw [hzsl] at hk
    rw [hv k hk, val_dft_naive, hmod, if_pos hk]

/-! ## The stage loop at `n = 2^31` -/

theorem block_loop_len_zero {T : Type} [Field T] (rot : cmplx T) (n : Nat) (hn : 0 < n) (fuel : Nat) :
    ∀ xs : List (cmplx T), block_loop rot n 0 fuel 0 xs = none := by
  induction fuel with
  | zero => intro xs; rfl
  | succ f ih =>
    intro xs
    rw [block_loop]
    simp [hn, butterfly_block, ih]

theorem stage_loop_len_zero {T : Type} [Field T] [Trig T] (inv : Bool) (n : Nat) (hn : 0 < n) (fuel : Nat)
    (xs : List (cmplx T)) : stage_loop inv n fuel 0 xs = none := by
  cases fuel with
  | zero => rfl
  | succ f =>
    rw [stage_loop]
    simp [block_loop_len_zero _ n hn]

theorem stage_loop_two_pow_31 {T : Type} [Field T] [Trig T] (inv : Bool) :
    ∀ d k, k + d = 32 → ∀ (fuel : Nat)
    (xs : List (cmplx T)), stage_loop inv (2 ^ 31) fuel (2 ^ k % UINT32) xs = none := by
  intro d
  induction d with
  | zero =>
    intro k hk fuel xs
    have : k = 32 := by omega
    subst this
    have : 2 ^ 32 % UINT32 = 0 := by simp [UINT32]
    rw [this]
    exact stage_loop_len_zero inv _ (Nat.two_pow_pos 31) fuel xs
  | succ d ih =>
    intro k hk fuel xs
    have hk32 : k < 32 := by omega
    have hmod : 2 ^ k % UINT32 = 2 ^ k := Nat.mod_eq_of_lt (two_pow_lt_UINT32 k hk32)
    have hnext : (2 ^ k <<< 1) % UINT32 = 2 ^ (k + 1) % UINT32 := by
      rw [Nat.shiftLeft_eq, pow_one, ← pow_succ]
    rw [hmod]
    cases fuel with
    | zero => rfl
    | succ f =>
      rw [stage_loop]
      split
      · simp only [hnext, Option.bind_eq_bind]
        cases block_loop _ (2 ^ 31) (2 ^ k) f 0 xs with
        | none => rfl
        | some s => exact ih (k + 1) (by omega) f s
      · next h =>
        exact absurd (Nat.pow_le_pow_right (by norm_num) (by omega : k ≤ 31)) h

/-- On `2^31` samples the stage loop never ends: after the stage `len = 2^31` the
doubled `len` is `0` in `uint32`, `0 <= n` holds, and the block loop `i += 0` does not
advance. -/
theorem dft_inplace_two_pow_31 {T : Type} [Field T] [Trig T] (inv : Bool) (fuel : Nat)
    (xs : List (cmplx T))
    (hlen : xs.length = 2 ^ 31) : dft_inplace inv fuel xs = none := by
  have hmod : xs.length % UINT32 = 2 ^ 31 := by
    rw [hlen]; exact Nat.mod_eq_of_lt (two_pow_lt_UINT32 31 (by norm_num))
  have hne : ¬ xs.length ≤ 0 := by
    have := Nat.two_pow_pos 31
    omega
  have h2 : 2 ^ 1 % UINT32 = 2 := by simp [UINT32]
  have hst : ∀ s : List (cmplx T), stage_loop inv (2 ^ 31) fuel 2 s = none := by
    intro s
    have := stage_loop_two_pow_31 inv 31 1 (by norm_num) fuel s
    rwa [h2] at this
  simp only [dft_inplace, hne, if_false, hmod, not_pow2_two_pow 31 (by norm_num),
    Option.bind_eq_bind]
  cases perm_loop (2 ^ 31) xs with
  | none => rfl
  | some p => simp only [Bool.false_eq_true, if_false, Option.some_bind, hst, Option.none_bind]

theorem dft_inplace_of_length_eq_UINT32 {T : Type} [Field T] [Trig T] (inv : Bool)
    (fuel : Nat) (xs : List (cmplx T)) (h : xs.length = UINT32) :
    dft_inplace inv (fuel + 1) xs
      = if inv then some (xs.map (fun c => c.divide ((0 : ℕ) : T))) else some xs := by
  have hpos : ¬ UINT32 ≤ 0 := by simp [UINT32]
  simp only [dft_inplace, h, hpos, if_false, Nat.mod_self, not_pow2_zero]
  simp [perm_loop, stage_loop]

theorem replicate_ne_of_ne {α : Type} (n : Nat) (hn : 0 < n) (a b : α) (h : a ≠ b) :
    List.replicate n a ≠ List.replicate n b := by
  intro e
  have := congrArg (fun l => l[0]?) e
  simp [List.getElem?_replicate, hn] at this
  exact h this

/-! ## C3 -/

/-- C3 as stated fails at `m = 32` and at `m = 31`.  On `2^32` samples (`UINT32`) the
length is reduced to the `uint32` value `0`: with `inverted = true` every element is
divided by `n = 0`, while `dft_naive` leaves the sequence unchanged.  On `2^31` samples
the stage loop never ends, so `dft_inplace` returns for no amount of fuel. -/
theorem dft_inplace_claimed_fails :
    (¬ ∃ fuel, dft_inplace true fuel (List.replicate UINT32 (⟨1, 0⟩ : cmplx ℝ))
        = some (dft_naive true (List.replicate UINT32 (⟨1, 0⟩ : cmplx ℝ))))
    ∧ (¬ ∃ fuel, dft_inplace false fuel (List.replicate (2 ^ 31) (⟨1, 0⟩ : cmplx ℝ))
        = some (dft_naive false (List.replicate (2 ^ 31) (⟨1, 0⟩ : cmplx ℝ)))) := by
  constructor
  · rintro ⟨fuel, h⟩
    have hpos : 0 < UINT32 := by simp [UINT32]
    rw [dft_naive_of_length_eq_UINT32 _ _ (List.length_replicate _ _)] at h
    cases fuel with
    | zero =>
      have hne : ¬ UINT32 ≤ 0 := by omega
      simp [dft_inplace, hne, not_pow2_zero, perm_loop, stage_loop] at h
    | succ f =>
      rw [dft_inplace_of_length_eq_UINT32 _ _ _ (List.length_replicate _ _), if_pos rfl,
        List.map_replicate] at h
      refine replicate_ne_of_ne UINT32 hpos _ _ ?_ (Option.some.inj h)
      intro e
      have := congrArg cmplx.re e
      simp [cmplx.divide] at this
  · rintro ⟨fuel, h⟩
    rw [dft_inplace_two_pow_31 _ _ _ (List.length_replicate _ _)] at h
    exact Option.noConfusion h

/-- C3 (amended): for `m ≤ 30` and a sequence of `n = 2^m` samples, `dft_inplace`
(bit-reversal permutation, butterfly passes for `len = 2, 4, ..., n`, division by `n`
when inverted) returns, with fuel for its loops, exactly the sequence that `dft_naive`
yields with the same flag. -/
theorem dft_inplace_refines_naive (inv : Bool) (m : Nat) (xs : List (cmplx ℝ)) (fuel : Nat)
    (hm : m ≤ 30) (hlen : xs.length = 2 ^ m) (hf : 2 ^ m + m < fuel) :
    dft_inplace inv fuel xs = some (dft_naive inv xs) :=
  dft_inplace_eq_naive inv m hm xs hlen fuel hf

/-- Witness of C3: the inverse transform of `[1, 2]` (`m = 1`) with fuel 4. -/
theorem dft_inplace_refines_naive_witness :
    dft_inplace true 4 ([⟨1, 0⟩, ⟨2, 0⟩] : List (cmplx ℝ))
      = some (dft_naive true [⟨1, 0⟩, ⟨2, 0⟩]) :=
  dft_inplace_refines_naive true 1 [⟨1, 0⟩, ⟨2, 0⟩] 4 (by norm_num) (by simp) (by norm_num)

/-! ## Orthogonality of the rotations and the round trip of the naive transform -/

theorem turn_eq_one_iff (n : Nat) (hn : n ≠ 0) (d : ℤ) : turn n d = 1 ↔ (n : ℤ) ∣ d := by
  have hn' : (n : ℂ) ≠ 0 := Nat.cast_ne_zero.mpr hn
  have hpi : (2 * (Real.pi : ℂ) * Complex.I) ≠ 0 := by
    simp [Real.pi_ne_zero, Complex.I_ne_zero]
  rw [turn, Complex.exp_eq_one_iff]
  constructor
  · rintro ⟨q, hq⟩
    refine ⟨q, ?_⟩
    have h1 : (d : ℂ) = (n : ℂ) * (q : ℂ) := by
      have h2 : (d : ℂ) * (2 * (Real.pi : ℂ) * Complex.I)
          = (n : ℂ) * (q : ℂ) * (2 * (Real.pi : ℂ) * Complex.I) := by
        field_simp at hq
        linear_combination hq
      exact mul_right_cancel₀ hpi h2
    exact_mod_cast h1
  · rintro ⟨q, rfl⟩
    refine ⟨q, ?_⟩
    push_cast
    field_simp
    ring

theorem sum_turn_of_not_dvd (n : Nat) (hn : n ≠ 0) (d : ℤ) (hd : ¬ (n : ℤ) ∣ d) :
    ∑ i in range n, turn n (d * (i : ℤ)) = 0 := by
  have h1 : turn n d ≠ 1 := fun h => hd ((turn_eq_one_iff n hn d).mp h)
  have h2 : turn n d ^ n = 1 := by
    rw [← turn_mul_nat, mul_comm, turn_self_mul n hn]
  have h3 := geom_sum_mul (turn n d) n
  rw [h2, sub_self] at h3
  have h4 : ∑ i in range n, turn n (d * (i : ℤ)) = ∑ i in range n, turn n d ^ i := by
    apply Finset.sum_congr rfl
    intro i _
    rw [turn_mul_nat]
  rw [h4]
  rcases mul_eq_zero.mp h3 with h | h
  · exact h
  · exact absurd (sub_eq_zero.mp h) h1

theorem sgn_not (inv : Bool) : sgn (!inv) = - sgn inv := by
  cases inv <;> simp [sgn]

theorem dsum_dsum (inv : Bool) (n : Nat) (x : Nat → ℂ) (c : ℂ) (k : Nat) (hk : k < n) :
    dsum (!inv) n (fun i => dsum inv n x i * c) k = c * (n : ℂ) * x k := by
  have hn : n ≠ 0 := by omega
  simp only [dsum]
  have h1 : ∀ i ∈ range n,
      (∑ j in range n, x j * turn n (sgn inv * (i : ℤ) * (j : ℤ))) * c
          * turn n (sgn (!inv) * (k : ℤ) * (i : ℤ))
        = ∑ j in range n, c * x j * turn n (sgn inv * ((j : ℤ) - (k : ℤ)) * (i : ℤ)) := by
    intro i _
    rw [Finset.sum_mul, Finset.sum_mul]
    apply Finset.sum_congr rfl
    intro j _
    have : sgn inv * ((j : ℤ) - (k : ℤ)) * (i : ℤ)
        = sgn inv * (i : ℤ) * (j : ℤ) + sgn (!inv) * (k : ℤ) * (i : ℤ) := by
      rw [sgn_not]; ring
    rw [this, turn_add]
    ring
  rw [Finset.sum_congr rfl h1, Finset.sum_comm]
  have h2 : ∀ j ∈ range n, j ≠ k →
      ∑ i in range n, c * x j * turn n (sgn inv * ((j : ℤ) - (k : ℤ)) * (i : ℤ)) = 0 := by
    intro j hj hjk
    have hj' : j < n := Finset.mem_range.mp hj
    rw [← Finset.mul_sum, sum_turn_of_not_dvd n hn, mul_zero]
    intro hdvd
    have hdvd' : (n : ℤ) ∣ (j : ℤ) - (k : ℤ) := by
      cases inv
      · have : sgn false * ((j : ℤ) - (k : ℤ)) = -((j : ℤ) - (k : ℤ)) := by simp [sgn]
        rw [this] at hdvd
        exact (Int.dvd_neg).mp hdvd
      · have : sgn true * ((j : ℤ) - (k : ℤ)) = (j : ℤ) - (k : ℤ) := by simp [sgn]
        rw [this] at hdvd
        exact hdvd
    obtain ⟨q, hq⟩ := hdvd'
    have hq1 : q = 0 := by
      by_contra hne
      rcases lt_or_gt_of_ne hne with h | h
      · have : (n : ℤ) * q ≤ (n : ℤ) * (-1) := by
          apply mul_le_mul_of_nonneg_left <;> omega
        omega
      · have : (n : ℤ) * 1 ≤ (n : ℤ) * q := by
          apply mul_le_mul_of_nonneg_left <;> omega
        omega
    rw [hq1, mul_zero] at hq
    omega
  rw [Finset.sum_eq_single k h2 (fun h => absurd (Finset.mem_range.mpr hk) h)]
  simp [turn_zero]
  ring

theorem nscale_mul_not (inv : Bool) (n : Nat) (hn : n ≠ 0) :
    nscale inv n * (n : ℂ) * nscale (!inv) n = 1 := by
  have hn' : (n : ℂ) ≠ 0 := Nat.cast_ne_zero.mpr hn
  cases inv <;> simp [nscale, hn']

theorem dft_naive_not_dft_naive (inv : Bool) (xs : List (cmplx ℝ)) :
    dft_naive (!inv) (dft_naive inv xs) = xs := by
  apply eq_of_val_eq
  · rw [dft_naive_length, dft_naive_length]
  · intro k _
    rw [val_dft_naive, dft_naive_length]
    split
    · next hk =>
      have hn : xs.length % UINT32 ≠ 0 := by omega
      have hc : ∀ i, i < xs.length % UINT32 → val (dft_naive inv xs) i
          = dsum inv (xs.length % UINT32) (val xs) i * nscale inv (xs.length % UINT32) := by
        intro i hi
        rw [val_dft_naive, if_pos hi]
      have h1 := nscale_mul_not inv _ hn
      rw [dsum_congr _ _ _ _ _ hc, dsum_dsum _ _ _ _ _ hk]
      linear_combination (val xs k) * h1
    · next hk =>
      rw [val_dft_naive, if_neg hk]

/-! ## C4 -/

/-- C4: for every length `n ≥ 0` and every sequence `x` of `n` samples, `dft_naive` with
`inverted = false` followed by `dft_naive` with `inverted = true` returns exactly `x`. -/
theorem dft_naive_round_trip (xs : List (cmplx ℝ)) :
    dft_naive true (dft_naive false xs) = xs :=
  dft_naive_not_dft_naive false xs

/-! ## C5 -/

/-- C5 as stated fails at `m = 32` and, for `dft_inplace`, at `m = 31`.  On `2^32` samples
(`UINT32`) `dft_ct` never returns, and `dft_inplace` returns the sequence unchanged for
`inverted = false` and divided by `n = 0` for `inverted = true`; on `2^31` samples
`dft_inplace` never returns. -/
theorem round_trip_claimed_fails :
    (¬ ∃ fuel, (dft_ct false fuel (List.replicate UINT32 (⟨1, 0⟩ : cmplx ℝ))).bind
        (dft_ct true fuel) = some (List.replicate UINT32 (⟨1, 0⟩ : cmplx ℝ)))
    ∧ (¬ ∃ fuel, (dft_inplace false fuel (List.replicate UINT32 (⟨1, 0⟩ : cmplx ℝ))).bind
        (dft_inplace true fuel) = some (List.replicate UINT32 (⟨1, 0⟩ : cmplx ℝ)))
    ∧ (¬ ∃ fuel, (dft_inplace false fuel (List.replicate (2 ^ 31) (⟨1, 0⟩ : cmplx ℝ))).bind
        (dft_inplace true fuel) = some (List.replicate (2 ^ 31) (⟨1, 0⟩ : cmplx ℝ))) := by
  refine ⟨?_, ?_, ?_⟩
  · rintro ⟨fuel, h⟩
    rw [dft_ct_of_length_eq_UINT32 _ _ _ (List.length_replicate _ _)] at h
    exact Option.noConfusion h
  · rintro ⟨fuel, h⟩
    have hpos : 0 < UINT32 := by simp [UINT32]
    cases fuel with
    | zero =>
      have hne : ¬ UINT32 ≤ 0 := by omega
      simp [dft_inplace, hne, not_pow2_zero, perm_loop, stage_loop] at h
    | succ f =>
      rw [dft_inplace_of_length_eq_UINT32 _ _ _ (List.length_replicate _ _), if_neg (by simp),
        Option.some_bind,
        dft_inplace_of_length_eq_UINT32 _ _ _ (List.length_replicate _ _), if_pos rfl,
        List.map_replicate] at h
      refine replicate_ne_of_ne UINT32 hpos _ _ ?_ (Option.some.inj h)
      intro e
      have := congrArg cmplx.re e
      simp [cmplx.divide] at this
  · rintro ⟨fuel, h⟩
    rw [dft_inplace_two_pow_31 _ _ _ (List.length_replicate _ _)] at h
    exact Option.noConfusion h

/-- C5 (amended): for a sequence `x` of `n = 2^m` samples, `dft_ct` (for `m < 32`) and
`dft_inplace` (for `m ≤ 30`) with `inverted = false` followed by the same algorithm with
`inverted = true` return exactly `x`, given fuel for their recursion and loops. -/
theorem fast_round_trip (m : Nat) (xs : List (cmplx ℝ)) (fuel : Nat)
    (hlen : xs.length = 2 ^ m) :
    (m < 32 → m < fuel → (dft_ct false fuel xs).bind (dft_ct true fuel) = some xs)
    ∧ (m ≤ 30 → 2 ^ m + m < fuel →
        (dft_inplace false fuel xs).bind (dft_inplace true fuel) = some xs) := by
  have hl : (dft_naive false xs).length = 2 ^ m := by rw [dft_naive_length, hlen]
  constructor
  · intro hm hf
    rw [dft_ct_eq_naive false m hm xs hlen fuel hf, Option.some_bind,
      dft_ct_eq_naive true m hm _ hl fuel hf]
    exact congrArg some (dft_naive_not_dft_naive false xs)
  · intro hm hf
    rw [dft_inplace_eq_naive false m hm xs hlen fuel hf, Option.some_bind,
      dft_inplace_eq_naive true m hm _ hl fuel hf]
    exact congrArg some (dft_naive_not_dft_naive false xs)

/-- Witness of C5: both round trips on `[1, 2]` (`m = 1`) with fuel 4. -/
theorem fast_round_trip_witness :
    (dft_ct false 4 ([⟨1, 0⟩, ⟨2, 0⟩] : List (cmplx ℝ))).bind (dft_ct true 4)
        = some [⟨1, 0⟩, ⟨2, 0⟩]
    ∧ (dft_inplace false 4 ([⟨1, 0⟩, ⟨2, 0⟩] : List (cmplx ℝ))).bind (dft_inplace true 4)
        = some [⟨1, 0⟩, ⟨2, 0⟩] :=
  ⟨(fast_round_trip 1 [⟨1, 0⟩, ⟨2, 0⟩] 4 (by simp)).1 (by norm_num) (by norm_num),
    (fast_round_trip 1 [⟨1, 0⟩, ⟨2, 0⟩] 4 (by simp)).2 (by norm_num) (by norm_num)⟩

/-! ## Lengths that are not powers of two -/

theorem dft_ct_of_not_pow2 {T : Type} [Field T] [Trig T] (inv : Bool) (fuel : Nat)
    (xs : List (cmplx T)) (h : not_pow2 (xs.length % UINT32) = true) :
    dft_ct inv fuel xs = some xs := by
  simp only [dft_ct, h, if_true]
  split <;> rfl

theorem dft_inplace_of_not_pow2 {T : Type} [Field T] [Trig T] (inv : Bool) (fuel : Nat)
    (xs : List (cmplx T)) (h : not_pow2 (xs.length % UINT32) = true) :
    dft_inplace inv fuel xs = some xs := by
  simp only [dft_inplace, h, if_true]
  split <;> rfl

theorem not_pow2_of_not_two_pow (n : Nat) (h1 : 1 ≤ n) (hlt : n < 2 ^ 32)
    (hnp : ¬ ∃ m, n = 2 ^ m) : not_pow2 (n % UINT32) = true := by
  have hlt' : n < UINT32 := hlt
  rw [Nat.mod_eq_of_lt hlt']
  cases h : not_pow2 n with
  | true => rfl
  | false => exact absurd ((not_pow2_eq_false_iff n h1 hlt').mp h) hnp

theorem compute_two {T : Type} [Field T] [Trig T] (inv : Bool) (f : Nat) (xs : List (cmplx T))
    (h : 2 ≤ xs.length) :
    ∃ zs, dft_ct._compute inv (f + 2) xs 2 = some zs
      ∧ zs.getD 0 0 = ((xs.getD 0 0
          + (⟨Trig.cos (((0 : ℕ) : T) * (2 * Trig.PI / ((2 : ℕ) : T) * (if inv then 1 else -1))),
              Trig.sin (((0 : ℕ) : T) * (2 * Trig.PI / ((2 : ℕ) : T) * (if inv then 1 else -1)))⟩
              : cmplx T)
            * xs.getD 1 0).scale (if inv then 1 / 2 else 1)) := by
  obtain ⟨zs, hzs, -, hzv⟩ := combine_eq [xs.getD 0 0] [xs.getD 1 0]
    (2 * Trig.PI / ((2 : ℕ) : T) * (if inv then 1 else -1)) (if inv then 1 / 2 else 1) 1 xs
    rfl rfl (by omega)
  refine ⟨zs, ?_, ?_⟩
  · rw [dft_ct._compute]
    simp only [show (2 : Nat) ≠ 1 by norm_num, if_false, show 2 / 2 = 1 by norm_num]
    rw [split_even_odd_eq xs 1 (by omega)]
    simp only [show List.range 1 = [0] from rfl, List.map_cons, List.map_nil, Option.bind_eq_bind,
      Option.some_bind, mul_zero, zero_add]
    have e : ∀ l : List (cmplx T), dft_ct._compute inv (f + 1) l 1 = some l := by
      intro l
      rw [dft_ct._compute]
      simp
    rw [e, e]
    simp only [Option.some_bind]
    exact hzs
  · rw [hzv 0, if_pos (by norm_num)]
    rfl

/-! ## C7 -/

theorem UINT32_add_two_not_two_pow : ¬ ∃ m, UINT32 + 2 = 2 ^ m := by
  rintro ⟨m, hm⟩
  have hU : UINT32 = 2 ^ 32 := rfl
  rcases Nat.lt_or_ge m 33 with h | h
  · have : 2 ^ m ≤ 2 ^ 32 := Nat.pow_le_pow_right (by norm_num) (by omega)
    omega
  · have e : 2 ^ m = 2 ^ (m - 2) * 4 := by
      rw [show (4 : Nat) = 2 ^ 2 by norm_num, ← pow_add]
      congr 1
      omega
    have h1 : (UINT32 + 2) % 4 = 2 := by
      rw [hU]
      norm_num
    rw [hm, e, Nat.mul_mod_left] at h1
    omega

theorem dft_ct_of_length_eq_UINT32_add_two {T : Type} [Field T] [Trig T] (inv : Bool)
    (fuel : Nat) (xs : List (cmplx T)) (hlen : xs.length = UINT32 + 2) :
    dft_ct inv fuel xs = dft_ct._compute inv fuel xs 2 := by
  have hU : 2 < UINT32 := by simp [UINT32]
  have hmod : (UINT32 + 2) % UINT32 = 2 := by
    rw [Nat.add_mod_left, Nat.mod_eq_of_lt hU]
  have hnp : not_pow2 2 = false := not_pow2_two_pow 1 (by norm_num)
  have hne : ¬ UINT32 + 2 ≤ 0 := by omega
  simp only [dft_ct, hlen, hne, if_false, hmod, hnp]
  simp

theorem compute_two_ne (fuel : Nat) (xs : List (cmplx ℝ)) (hlen : 2 ≤ xs.length)
    (h0 : xs.getD 0 0 = ⟨1, 0⟩) (h1 : xs.getD 1 0 = ⟨1, 0⟩) :
    dft_ct._compute false fuel xs 2 ≠ some xs := by
  intro h
  match fuel, h with
  | 0, h => exact Option.noConfusion h
  | 1, h =>
    rw [dft_ct._compute] at h
    simp only [show (2 : Nat) ≠ 1 by norm_num, if_false, show 2 / 2 = 1 by norm_num] at h
    rw [split_even_odd_eq xs 1 (by omega)] at h
    simp [dft_ct._compute] at h
  | f + 2, h =>
    obtain ⟨zs, hzs, hz0⟩ := compute_two false f xs hlen
    rw [hzs] at h
    have hz := Option.some.inj h
    rw [hz, h0, h1] at hz0
    have := congrArg cmplx.re hz0
    simp only [cmplx.scale, Trig.cos, Trig.sin, Nat.cast_zero, zero_mul, Real.cos_zero,
      Real.sin_zero, Bool.false_eq_true, if_false, mul_one] at this
    have h2 : (⟨1, 0⟩ + ⟨1, 0⟩ * ⟨1, 0⟩ : cmplx ℝ).re = 2 := by
      show (1 : ℝ) + (1 * 1 - 0 * 0) = 2
      norm_num
    rw [h2] at this
    norm_num at this

/-- C7 as stated fails for lengths from `2^32` on: the sequence `1, 1, 0, ..., 0` of
`2^32 + 2` samples (not a power of two) has the `uint32` length `2`, which passes the
power-of-two test, and `dft_ct` transforms its first two elements: for no amount of fuel
does it return the sequence unchanged. -/
theorem invalid_length_claimed_fails :
    (¬ ∃ m, ((⟨1, 0⟩ : cmplx ℝ) :: ⟨1, 0⟩ :: List.replicate UINT32 ⟨0, 0⟩).length = 2 ^ m)
    ∧ ¬ ∃ fuel, dft_ct false fuel ((⟨1, 0⟩ : cmplx ℝ) :: ⟨1, 0⟩ :: List.replicate UINT32 ⟨0, 0⟩)
        = some (⟨1, 0⟩ :: ⟨1, 0⟩ :: List.replicate UINT32 ⟨0, 0⟩) := by
  have hlen : ((⟨1, 0⟩ : cmplx ℝ) :: ⟨1, 0⟩ :: List.replicate UINT32 ⟨0, 0⟩).length
      = UINT32 + 2 := by
    have e : UINT32 + 1 + 1 = UINT32 + 2 := by omega
    rw [List.length_cons, List.length_cons, List.length_replicate, e]
  constructor
  · rw [hlen]
    exact UINT32_add_two_not_two_pow
  · rintro ⟨fuel, h⟩
    rw [dft_ct_of_length_eq_UINT32_add_two _ _ _ hlen] at h
    exact compute_two_ne fuel _ (by rw [hlen]; omega) (by rw [List.getD_cons_zero])
      (by rw [List.getD_cons_succ, List.getD_cons_zero]) h

/-- C7 (amended): for `dft_ct` and `dft_inplace`, either flag, and every sequence whose
length `n` with `1 ≤ n < 2^32` is not a power of two, the call returns (for any fuel) and
leaves the sequence unchanged. -/
theorem invalid_length_noop (inv : Bool) (fuel : Nat) (xs : List (cmplx ℝ))
    (h1 : 1 ≤ xs.length) (hlt : xs.length < 2 ^ 32) (hnp : ¬ ∃ m, xs.length = 2 ^ m) :
    dft_ct inv fuel xs = some xs ∧ dft_inplace inv fuel xs = some xs :=
  ⟨dft_ct_of_not_pow2 inv fuel xs (not_pow2_of_not_two_pow _ h1 hlt hnp),
    dft_inplace_of_not_pow2 inv fuel xs (not_pow2_of_not_two_pow _ h1 hlt hnp)⟩

theorem three_not_two_pow : ¬ ∃ m, 3 = 2 ^ m := by
  rintro ⟨m, hm⟩
  match m, hm with
  | 0, hm => norm_num at hm
  | 1, hm => norm_num at hm
  | m + 2, hm =>
    rw [pow_succ, pow_succ] at hm
    omega

/-- Witness of C7: a sequence of length 3. -/
theorem invalid_length_noop_witness :
    dft_ct true 0 ([⟨1, 0⟩, ⟨2, 0⟩, ⟨3, 0⟩] : List (cmplx ℝ)) = some [⟨1, 0⟩, ⟨2, 0⟩, ⟨3, 0⟩]
    ∧ dft_inplace true 0 ([⟨1, 0⟩, ⟨2, 0⟩, ⟨3, 0⟩] : List (cmplx ℝ))
        = some [⟨1, 0⟩, ⟨2, 0⟩, ⟨3, 0⟩] :=
  invalid_length_noop true 0 [⟨1, 0⟩, ⟨2, 0⟩, ⟨3, 0⟩] (by simp) (by simp)
    (by simpa using three_not_two_pow)

/-! ## C8 -/

/-- With fuel for the block loops, the stage loop on `2^m` samples (`m ≤ 31`) passes
through its stages without leaving the sequence and arrives at the stage length
`2^(m+1)` reduced to `uint32`. -/
theorem stage_loop_reaches {T : Type} [Field T] [Trig T] (inv : Bool) (m : Nat)
    (hm : m ≤ 31) :
    ∀ r t (ys : List (cmplx T)) (F : Nat), t + r = m → ys.length = 2 ^ m → 2 ^ m < F →
      ∃ s, s.length = 2 ^ m
        ∧ stage_loop inv (2 ^ m) (F + r) (2 ^ (t + 1) % UINT32) ys
            = stage_loop inv (2 ^ m) F (2 ^ (m + 1) % UINT32) s := by
  intro r
  induction r with
  | zero =>
    intro t ys F htr hlen _
    have : t = m := by omega
    subst this
    exact ⟨ys, hlen, rfl⟩
  | succ r ih =>
    intro t ys F htr hlen hF
    have hposr : 0 < 2 ^ r := Nat.two_pow_pos r
    have hpost : 0 < 2 ^ t := Nat.two_pow_pos t
    have hlen' : 2 ^ (t + 1) = 2 * 2 ^ t := by rw [pow_succ]; ring
    have hn : 2 ^ m = 2 ^ r * 2 ^ (t + 1) := by
      have : m = r + (t + 1) := by omega
      rw [this, pow_add]
    have hle : 2 ^ (t + 1) ≤ 2 ^ m := Nat.pow_le_pow_right (by norm_num) (by omega)
    have hnlt : 2 ^ r * 2 ^ (t + 1) < UINT32 := by
      rw [← hn]; exact two_pow_lt_UINT32 m (by omega)
    have hmod : 2 ^ (t + 1) % UINT32 = 2 ^ (t + 1) :=
      Nat.mod_eq_of_lt (two_pow_lt_UINT32 _ (by omega))
    have hrle : 2 ^ r ≤ 2 ^ m := Nat.pow_le_pow_right (by norm_num) (by omega)
    obtain ⟨s1, hs1, hs1l, -, -⟩ := block_loop_spec
      (⟨Trig.cos (2 * Trig.PI / ((2 ^ (t + 1) : ℕ) : T) * (if inv then 1 else -1)),
        Trig.sin (2 * Trig.PI / ((2 ^ (t + 1) : ℕ) : T) * (if inv then 1 else -1))⟩ : cmplx T)
      (2 ^ t) (2 ^ (t + 1)) (2 ^ r) hlen' hpost hnlt (2 ^ r) 0 ys (F + r) (by omega)
      (by rw [hlen, hn]) (by omega)
    have hnext : (2 ^ (t + 1) <<< 1) % UINT32 = 2 ^ (t + 1 + 1) % UINT32 := by
      rw [Nat.shiftLeft_eq, pow_one, ← pow_succ]
    obtain ⟨s, hsl, hs⟩ := ih (t + 1) s1 F (by omega) (by rw [hs1l, hlen]) hF
    refine ⟨s, hsl, ?_⟩
    rw [hmod, show F + (r + 1) = (F + r) + 1 by omega, stage_loop]
    simp only [hle, if_true, hnext, Option.bind_eq_bind]
    rw [hn]
    simp only [zero_mul] at hs1
    rw [hs1]
    simp only [Option.some_bind]
    rw [← hn]
    exact hs

/-- C8, the code at `n = 2^31`: after the stage `len = 2^31` the doubled `len` is `0` in
`uint32` and `0 <= n` holds; given fuel, the stage loop started at `len = 2` goes
through its 31 stages and continues with `len = 0`; the block loop with `len = 0` never
ends, and so neither the stage loop nor `dft_inplace` returns, whatever the fuel. -/
theorem dft_inplace_stage_loop_overflow (inv : Bool) (fuel : Nat) :
    ((2 ^ 31 <<< 1) % UINT32 = 0 ∧ 0 ≤ 2 ^ 31)
    ∧ (∀ xs : List (cmplx ℝ), xs.length = 2 ^ 31 →
        ∃ s, stage_loop inv (2 ^ 31) (2 ^ 31 + 1 + fuel + 31) 2 xs
          = stage_loop inv (2 ^ 31) (2 ^ 31 + 1 + fuel) 0 s)
    ∧ (∀ (rot : cmplx ℝ) (xs : List (cmplx ℝ)), block_loop rot (2 ^ 31) 0 fuel 0 xs = none)
    ∧ (∀ xs : List (cmplx ℝ), stage_loop inv (2 ^ 31) fuel 0 xs = none)
    ∧ (∀ xs : List (cmplx ℝ), stage_loop inv (2 ^ 31) fuel 2 xs = none)
    ∧ dft_inplace inv fuel (List.replicate (2 ^ 31) (⟨0, 0⟩ : cmplx ℝ)) = none := by
  refine ⟨⟨by simp [UINT32, Nat.shiftLeft_eq], Nat.zero_le _⟩, ?_, ?_, ?_, ?_, ?_⟩
  · intro xs hlen
    obtain ⟨s, -, hs⟩ := stage_loop_reaches inv 31 le_rfl 31 0 xs (2 ^ 31 + 1 + fuel)
      (by norm_num) hlen (by omega)
    have h2 : 2 ^ (0 + 1) % UINT32 = 2 := by simp [UINT32]
    have h0 : 2 ^ (31 + 1) % UINT32 = 0 := by simp [UINT32]
    rw [h2, h0] at hs
    exact ⟨s, hs⟩
  · intro rot xs
    exact block_loop_len_zero rot _ (Nat.two_pow_pos 31) fuel xs
  · intro xs
    exact stage_loop_len_zero inv _ (Nat.two_pow_pos 31) fuel xs
  · intro xs
    have h2 : 2 ^ 1 % UINT32 = 2 := by simp [UINT32]
    have := stage_loop_two_pow_31 inv 31 1 (by norm_num) fuel xs
    rwa [h2] at this
  · exact dft_inplace_two_pow_31 inv fuel _ (List.length_replicate _ _)

/-! ## Linearity -/

theorem lincomb_length {T : Type} [Field T] (a b : cmplx T) (xs ys : List (cmplx T))
    (hl : xs.length = ys.length) : (lincomb a b xs ys).length = xs.length := by
  rw [lincomb, List.length_zipWith, hl, Nat.min_self]

theorem val_lincomb (a b : cmplx ℝ) (xs ys : List (cmplx ℝ)) (hl : xs.length = ys.length)
    (k : Nat) : val (lincomb a b xs ys) k = toC a * val xs k + toC b * val ys k := by
  simp only [val, lincomb, List.getD_eq_getElem?_getD, List.getElem?_zipWith]
  by_cases hk : k < xs.length
  · have hk' : k < ys.length := by omega
    simp [List.getElem?_eq_getElem hk, List.getElem?_eq_getElem hk', toC_add, toC_mul]
  · have h1 : xs[k]? = none := List.getElem?_eq_none (by omega)
    have h2 : ys[k]? = none := List.getElem?_eq_none (by omega)
    simp [h1, h2, toC_zero]

theorem dsum_lincomb (inv : Bool) (n : Nat) (a b : ℂ) (x y : Nat → ℂ) (k : Nat) :
    dsum inv n (fun i => a * x i + b * y i) k = a * dsum inv n x k + b * dsum inv n y k := by
  simp only [dsum, Finset.mul_sum, ← Finset.sum_add_distrib]
  apply Finset.sum_congr rfl
  intro i _
  ring

theorem dft_naive_lincomb (inv : Bool) (a b : cmplx ℝ) (xs ys : List (cmplx ℝ))
    (hl : xs.length = ys.length) :
    dft_naive inv (lincomb a b xs ys) = lincomb a b (dft_naive inv xs) (dft_naive inv ys) := by
  have hl' : (dft_naive inv xs).length = (dft_naive inv ys).length := by
    rw [dft_naive_length, dft_naive_length, hl]
  apply eq_of_val_eq
  · rw [dft_naive_length, lincomb_length _ _ _ _ hl, lincomb_length _ _ _ _ hl',
      dft_naive_length]
  · intro k _
    rw [val_lincomb _ _ _ _ hl', val_dft_naive, val_dft_naive, val_dft_naive,
      lincomb_length _ _ _ _ hl, ← hl]
    split
    · rw [dsum_congr _ _ _ _ _ (fun i _ => val_lincomb a b xs ys hl i), dsum_lincomb]
      ring
    · rw [val_lincomb _ _ _ _ hl]

theorem dft_ct_total (inv : Bool) (fuel : Nat) (xs : List (cmplx ℝ))
    (hlt : xs.length < UINT32) (hf : xs.length ≤ fuel) :
    dft_ct inv fuel xs = some (if not_pow2 xs.length then xs else dft_naive inv xs) := by
  rcases Nat.eq_zero_or_pos xs.length with h0 | hpos
  · have : xs = [] := List.length_eq_zero.mp h0
    subst this
    simp [dft_ct, dft_naive, not_pow2_zero]
  · cases h : not_pow2 xs.length with
    | true =>
      rw [if_pos rfl]
      exact dft_ct_of_not_pow2 inv fuel xs (by rw [Nat.mod_eq_of_lt hlt]; exact h)
    | false =>
      obtain ⟨m, hm⟩ := (not_pow2_eq_false_iff _ hpos hlt).mp h
      have hm32 : m < 32 := by
        by_contra hc
        have : 2 ^ 32 ≤ 2 ^ m := Nat.pow_le_pow_right (by norm_num) (by omega)
        have hU : UINT32 = 2 ^ 32 := rfl
        omega
      have hmf : m < fuel := by
        have := Nat.lt_two_pow m
        omega
      rw [if_neg (by simp)]
      exact dft_ct_eq_naive inv m hm32 xs hm fuel hmf

theorem dft_inplace_total (inv : Bool) (fuel : Nat) (xs : List (cmplx ℝ))
    (hlt : xs.length < UINT32) (hne : xs.length ≠ 2 ^ 31) (hf : 2 * xs.length ≤ fuel) :
    dft_inplace inv fuel xs = some (if not_pow2 xs.length then xs else dft_naive inv xs) := by
  rcases Nat.eq_zero_or_pos xs.length with h0 | hpos
  · have : xs = [] := List.length_eq_zero.mp h0
    subst this
    simp [dft_inplace, dft_naive, not_pow2_zero]
  · cases h : not_pow2 xs.length with
    | true =>
      rw [if_pos rfl]
      exact dft_inplace_of_not_pow2 inv fuel xs (by rw [Nat.mod_eq_of_lt hlt]; exact h)
    | false =>
      obtain ⟨m, hm⟩ := (not_pow2_eq_false_iff _ hpos hlt).mp h
      have hm30 : m ≤ 30 := by
        by_contra hc
        rcases Nat.eq_or_lt_of_le (by omega : 31 ≤ m) with e | hgt
        · exact hne (by rw [hm, ← e])
        · have : 2 ^ 32 ≤ 2 ^ m := Nat.pow_le_pow_right (by norm_num) (by omega)
          have hU : UINT32 = 2 ^ 32 := rfl
          omega
      have hmf : 2 ^ m + m < fuel := by
        have := Nat.lt_two_pow m
        omega
      rw [if_neg (by simp)]
      exact dft_inplace_eq_naive inv m hm30 xs hm fuel hmf

/-! ## C6 -/

/-- C6 as stated fails for `dft_ct` on `2^32` samples (`UINT32`), where the call does not
return for any fuel, and for `dft_inplace` on `2^31` samples, where the stage loop does
not end: the transforms of `x`, `y` and `a*x + b*y` do not exist there. -/
theorem linearity_claimed_fails :
    (¬ ∃ fuel rx ry,
        dft_ct false fuel (List.replicate UINT32 (⟨1, 0⟩ : cmplx ℝ)) = some rx
        ∧ dft_ct false fuel (List.replicate UINT32 (⟨1, 0⟩ : cmplx ℝ)) = some ry
        ∧ dft_ct false fuel (lincomb ⟨1, 0⟩ ⟨1, 0⟩ (List.replicate UINT32 (⟨1, 0⟩ : cmplx ℝ))
            (List.replicate UINT32 (⟨1, 0⟩ : cmplx ℝ))) = some (lincomb ⟨1, 0⟩ ⟨1, 0⟩ rx ry))
    ∧ (¬ ∃ fuel rx ry,
        dft_inplace false fuel (List.replicate (2 ^ 31) (⟨1, 0⟩ : cmplx ℝ)) = some rx
        ∧ dft_inplace false fuel (List.replicate (2 ^ 31) (⟨1, 0⟩ : cmplx ℝ)) = some ry
        ∧ dft_inplace false fuel (lincomb ⟨1, 0⟩ ⟨1, 0⟩
            (List.replicate (2 ^ 31) (⟨1, 0⟩ : cmplx ℝ))
            (List.replicate (2 ^ 31) (⟨1, 0⟩ : cmplx ℝ))) = some (lincomb ⟨1, 0⟩ ⟨1, 0⟩ rx ry)) := by
  constructor
  · rintro ⟨fuel, rx, ry, h, -, -⟩
    rw [dft_ct_of_length_eq_UINT32 _ _ _ (List.length_replicate _ _)] at h
    exact Option.noConfusion h
  · rintro ⟨fuel, rx, ry, h, -, -⟩
    rw [dft_inplace_two_pow_31 _ _ _ (List.length_replicate _ _)] at h
    exact Option.noConfusion h

/-- C6 (amended): for either flag, complex scalars `a`, `b` and sequences `x`, `y` of the
same length `n`, the transform of `a*x + b*y` is `a*T(x) + b*T(y)` element-wise: for
`dft_naive` at every length, for `dft_ct` at every `n < 2^32`, and for `dft_inplace` at
every `n < 2^32` other than `2^31`, the two fast transforms returning on all three inputs
given fuel for their recursion and loops. -/
theorem transforms_linear (inv : Bool) (a b : cmplx ℝ) (xs ys : List (cmplx ℝ)) (fuel : Nat)
    (hl : xs.length = ys.length) :
    dft_naive inv (lincomb a b xs ys) = lincomb a b (dft_naive inv xs) (dft_naive inv ys)
    ∧ (xs.length < 2 ^ 32 → xs.length ≤ fuel →
        ∃ rx ry, dft_ct inv fuel xs = some rx ∧ dft_ct inv fuel ys = some ry
          ∧ dft_ct inv fuel (lincomb a b xs ys) = some (lincomb a b rx ry))
    ∧ (xs.length < 2 ^ 32 → xs.length ≠ 2 ^ 31 → 2 * xs.length ≤ fuel →
        ∃ rx ry, dft_inplace inv fuel xs = some rx ∧ dft_inplace inv fuel ys = some ry
          ∧ dft_inplace inv fuel (lincomb a b xs ys) = some (lincomb a b rx ry)) := by
  have hll := lincomb_length a b xs ys hl
  refine ⟨dft_naive_lincomb inv a b xs ys hl, ?_, ?_⟩
  · intro hlt hf
    refine ⟨_, _, dft_ct_total inv fuel xs hlt hf,
      dft_ct_total inv fuel ys (by rw [← hl]; exact hlt) (by rw [← hl]; exact hf), ?_⟩
    rw [dft_ct_total inv fuel _ (by rw [hll]; exact hlt) (by rw [hll]; exact hf), hll, ← hl]
    cases not_pow2 xs.length with
    | true => rfl
    | false => exact congrArg some (dft_naive_lincomb inv a b xs ys hl)
  · intro hlt hne hf
    refine ⟨_, _, dft_inplace_total inv fuel xs hlt hne hf,
      dft_inplace_total inv fuel ys (by rw [← hl]; exact hlt) (by rw [← hl]; exact hne)
        (by rw [← hl]; exact hf), ?_⟩
    rw [dft_inplace_total inv fuel _ (by rw [hll]; exact hlt) (by rw [hll]; exact hne)
      (by rw [hll]; exact hf), hll, ← hl]
    cases not_pow2 xs.length with
    | true => rfl
    | false => exact congrArg some (dft_naive_lincomb inv a b xs ys hl)

/-- Witness of C6: the combination `(2 + i) * [1, 2] + 3i * [i, 5]` under the three inverse
transforms, with fuel 4. -/
theorem transforms_linear_witness :
    dft_naive true (lincomb (⟨2, 1⟩ : cmplx ℝ) ⟨0, 3⟩ [⟨1, 0⟩, ⟨2, 0⟩] [⟨0, 1⟩, ⟨5, 0⟩])
      = lincomb (⟨2, 1⟩ : cmplx ℝ) ⟨0, 3⟩ (dft_naive true [⟨1, 0⟩, ⟨2, 0⟩]) (dft_naive true [⟨0, 1⟩, ⟨5, 0⟩])
    ∧ (∃ rx ry, dft_ct true 4 ([⟨1, 0⟩, ⟨2, 0⟩] : List (cmplx ℝ)) = some rx
          ∧ dft_ct true 4 [⟨0, 1⟩, ⟨5, 0⟩] = some ry
          ∧ dft_ct true 4 (lincomb (⟨2, 1⟩ : cmplx ℝ) ⟨0, 3⟩ [⟨1, 0⟩, ⟨2, 0⟩] [⟨0, 1⟩, ⟨5, 0⟩])
              = some (lincomb (⟨2, 1⟩ : cmplx ℝ) ⟨0, 3⟩ rx ry))
    ∧ (∃ rx ry, dft_inplace true 4 ([⟨1, 0⟩, ⟨2, 0⟩] : List (cmplx ℝ)) = some rx
          ∧ dft_inplace true 4 [⟨0, 1⟩, ⟨5, 0⟩] = some ry
          ∧ dft_inplace true 4 (lincomb (⟨2, 1⟩ : cmplx ℝ) ⟨0, 3⟩ [⟨1, 0⟩, ⟨2, 0⟩] [⟨0, 1⟩, ⟨5, 0⟩])
              = some (lincomb (⟨2, 1⟩ : cmplx ℝ) ⟨0, 3⟩ rx ry)) :=
  ⟨(transforms_linear true (⟨2, 1⟩ : cmplx ℝ) ⟨0, 3⟩ [⟨1, 0⟩, ⟨2, 0⟩] [⟨0, 1⟩, ⟨5, 0⟩] 4 rfl).1,
    (transforms_linear true (⟨2, 1⟩ : cmplx ℝ) ⟨0, 3⟩ [⟨1, 0⟩, ⟨2, 0⟩] [⟨0, 1⟩, ⟨5, 0⟩] 4 rfl).2.1
      (by simp) (by simp),
    (transforms_linear true (⟨2, 1⟩ : cmplx ℝ) ⟨0, 3⟩ [⟨1, 0⟩, ⟨2, 0⟩] [⟨0, 1⟩, ⟨5, 0⟩] 4 rfl).2.2
      (by simp) (by simp) (by simp)⟩

/-! ## Known transforms: the impulse and the alternating sequence -/

theorem val_replicate (n : Nat) (z : cmplx ℝ) (k : Nat) (hk : k < n) :
    val (List.replicate n z) k = toC z := by
  simp [val, List.getD_eq_getElem?_getD, List.getElem?_replicate, hk]

theorem val_impulse (n i : Nat) (hi : i < n) :
    val (impulse n) i = if i = 0 then 1 else 0 := by
  rw [impulse, val_map_range _ _ _ hi]
  split
  · exact toC_mk_one
  · exact toC_mk_zero

theorem dft_naive_impulse (n : Nat) (hlt : n < UINT32) :
    dft_naive false (impulse n : List (cmplx ℝ)) = List.replicate n ⟨1, 0⟩ := by
  have hlen : (impulse n : List (cmplx ℝ)).length = n := by simp [impulse]
  apply eq_of_val_eq
  · rw [dft_naive_length, hlen, List.length_replicate]
  · intro k hk
    rw [dft_naive_length, hlen] at hk
    rw [val_dft_naive, hlen, Nat.mod_eq_of_lt hlt, if_pos hk, val_replicate _ _ _ hk,
      toC_mk_one, dsum, nscale]
    rw [Finset.sum_eq_single 0]
    · rw [val_impulse n 0 (by omega)]
      simp [turn_zero]
    · intro i hi hne
      rw [val_impulse n i (Finset.mem_range.mp hi), if_neg hne, zero_mul]
    · intro h
      exact absurd (Finset.mem_range.mpr (by omega)) h

theorem val_alternating (n i : Nat) (hi : i < n) :
    val (alternating n) i = (-1) ^ i := by
  rw [alternating, val_map_range _ _ _ hi]
  rcases Nat.even_or_odd i with h | h
  · rw [if_pos (Nat.even_iff.mp h), h.neg_one_pow]
    exact toC_mk_one
  · rw [if_neg (by rw [Nat.odd_iff.mp h]; norm_num), h.neg_one_pow]
    apply Complex.ext <;> simp [toC]

theorem val_nyquist (n k : Nat) (hk : k < n) :
    val (nyquist n) k = if k = n / 2 then (n : ℂ) else 0 := by
  rw [nyquist, val_map_range _ _ _ hk]
  split
  · apply Complex.ext <;> simp [toC]
  · exact toC_mk_zero

theorem sum_turn_zero (n : Nat) : ∑ i in range n, turn n (0 * (i : ℤ)) = n := by
  simp [turn_zero]

theorem dft_naive_alternating (h : Nat) (hh : 1 ≤ h) (hlt : 2 * h < UINT32) :
    dft_naive false (alternating (2 * h) : List (cmplx ℝ)) = nyquist (2 * h) := by
  have hlen : (alternating (2 * h) : List (cmplx ℝ)).length = 2 * h := by simp [alternating]
  have hn : 2 * h ≠ 0 := by omega
  apply eq_of_val_eq
  · rw [dft_naive_length, hlen]
    simp [nyquist]
  · intro k hk
    rw [dft_naive_length, hlen] at hk
    rw [val_dft_naive, hlen, Nat.mod_eq_of_lt hlt, if_pos hk, val_nyquist _ _ hk, dsum, nscale]
    have hterm : ∀ i ∈ range (2 * h),
        val (alternating (2 * h)) i * turn (2 * h) (sgn false * (k : ℤ) * (i : ℤ))
          = turn (2 * h) (((h : ℤ) - (k : ℤ)) * (i : ℤ)) := by
      intro i hi
      rw [val_alternating _ _ (Finset.mem_range.mp hi), ← turn_half h (by omega),
        ← turn_mul_nat, ← turn_add]
      congr 1
      simp [sgn]
      ring
    rw [Finset.sum_congr rfl hterm]
    have hdiv : 2 * h / 2 = h := by omega
    rw [hdiv]
    by_cases hkh : k = h
    · subst hkh
      rw [if_pos rfl, sub_self, sum_turn_zero]
      simp
    · rw [if_neg hkh, sum_turn_of_not_dvd _ hn]
      · simp
      · rintro ⟨q, hq⟩
        have hq1 : q = 0 := by
          by_contra hne
          rcases lt_or_gt_of_ne hne with hlt' | hgt
          · have : ((2 * h : ℕ) : ℤ) * q ≤ ((2 * h : ℕ) : ℤ) * (-1) := by
              apply mul_le_mul_of_nonneg_left <;> omega
            omega
          · have : ((2 * h : ℕ) : ℤ) * 1 ≤ ((2 * h : ℕ) : ℤ) * q := by
              apply mul_le_mul_of_nonneg_left <;> omega
            omega
        rw [hq1, mul_zero] at hq
        omega

theorem impulse_length {T : Type} [Field T] (n : Nat) :
    (impulse n : List (cmplx T)).length = n := by
  rw [impulse, List.length_map, List.length_range]

theorem alternating_length {T : Type} [Field T] (n : Nat) :
    (alternating n : List (cmplx T)).length = n := by
  rw [alternating, List.length_map, List.length_range]

theorem one_lt_UINT32 : 1 < UINT32 := by simp [UINT32]

/-! ## C9 -/

/-- C9 as stated fails for `dft_naive` at `n = 2^32` (`UINT32`): the length is reduced to
the `uint32` value `0` and the impulse is returned unchanged; its element 1 is `0`. -/
theorem impulse_claimed_fails :
    dft_naive false (impulse UINT32 : List (cmplx ℝ)) ≠ List.replicate UINT32 ⟨1, 0⟩ := by
  intro h
  rw [dft_naive_of_length_eq_UINT32 _ _ (impulse_length _)] at h
  have h1 := congrArg (fun l => l[1]?) h
  simp only [impulse, List.getElem?_map, List.getElem?_range one_lt_UINT32,
    List.getElem?_replicate, if_pos one_lt_UINT32, Option.map_some'] at h1
  have h2 := congrArg cmplx.re (Option.some.inj h1)
  simp at h2

/-- C9 (amended): with `inverted = false` the transform of the unit impulse
`(1, 0, ..., 0)` of length `n` is the all-ones sequence: for `dft_naive` at every
`1 ≤ n < 2^32`, for `dft_ct` at `n = 2^m` with `m < 32`, for `dft_inplace` at `n = 2^m`
with `m ≤ 30`. -/
theorem impulse_transform (n m fuel : Nat) :
    (1 ≤ n → n < 2 ^ 32 →
      dft_naive false (impulse n : List (cmplx ℝ)) = List.replicate n ⟨1, 0⟩)
    ∧ (m < 32 → m < fuel →
      dft_ct false fuel (impulse (2 ^ m) : List (cmplx ℝ))
        = some (List.replicate (2 ^ m) ⟨1, 0⟩))
    ∧ (m ≤ 30 → 2 ^ m + m < fuel →
      dft_inplace false fuel (impulse (2 ^ m) : List (cmplx ℝ))
        = some (List.replicate (2 ^ m) ⟨1, 0⟩)) := by
  refine ⟨fun _ hlt => dft_naive_impulse n hlt, ?_, ?_⟩
  · intro hm hf
    rw [dft_ct_eq_naive false m hm _ (impulse_length _) fuel hf,
      dft_naive_impulse _ (two_pow_lt_UINT32 m hm)]
  · intro hm hf
    rw [dft_inplace_eq_naive false m hm _ (impulse_length _) fuel hf,
      dft_naive_impulse _ (two_pow_lt_UINT32 m (by omega))]

/-- Witness of C9: `[1, 0, 0, 0]` gives `[1, 1, 1, 1]` under the three transforms. -/
theorem impulse_transform_witness :
    dft_naive false ([⟨1, 0⟩, ⟨0, 0⟩, ⟨0, 0⟩, ⟨0, 0⟩] : List (cmplx ℝ))
      = [⟨1, 0⟩, ⟨1, 0⟩, ⟨1, 0⟩, ⟨1, 0⟩]
    ∧ dft_ct false 7 ([⟨1, 0⟩, ⟨0, 0⟩, ⟨0, 0⟩, ⟨0, 0⟩] : List (cmplx ℝ))
      = some [⟨1, 0⟩, ⟨1, 0⟩, ⟨1, 0⟩, ⟨1, 0⟩]
    ∧ dft_inplace false 7 ([⟨1, 0⟩, ⟨0, 0⟩, ⟨0, 0⟩, ⟨0, 0⟩] : List (cmplx ℝ))
      = some [⟨1, 0⟩, ⟨1, 0⟩, ⟨1, 0⟩, ⟨1, 0⟩] :=
  ⟨(impulse_transform 4 2 7).1 (by norm_num) (by norm_num),
    (impulse_transform 4 2 7).2.1 (by norm_num) (by norm_num),
    (impulse_transform 4 2 7).2.2 (by norm_num) (by norm_num)⟩

/-! ## C10 -/

/-- C10 as stated fails for `dft_naive` at the even length `n = 2^32` (`UINT32`): the
alternating sequence is returned unchanged, with first element `1`, where the claim has
`0` (index `0` is not `n/2`). -/
theorem alternating_claimed_fails :
    dft_naive false (alternating UINT32 : List (cmplx ℝ)) ≠ nyquist UINT32 := by
  intro h
  have h0 : 0 < UINT32 := by simp [UINT32]
  have hhalf : (0 : Nat) ≠ UINT32 / 2 := by simp [UINT32]
  rw [dft_naive_of_length_eq_UINT32 _ _ (alternating_length _)] at h
  have h1 := congrArg (fun l => l[0]?) h
  simp only [alternating, nyquist, List.getElem?_map, List.getElem?_range h0,
    Option.map_some', if_neg hhalf] at h1
  have h2 := congrArg cmplx.re (Option.some.inj h1)
  simp at h2

/-- C10 (amended): with `inverted = false` the transform of the alternating sequence
`x[i] = (-1)^i` of even length `n` is `n` at index `n/2` and `0` at every other index:
for `dft_naive` at every even `2 ≤ n < 2^32`, for `dft_ct` at `n = 2^m` with
`1 ≤ m < 32`, for `dft_inplace` at `n = 2^m` with `1 ≤ m ≤ 30`. -/
theorem alternating_transform (n m fuel : Nat) :
    (2 ≤ n → n % 2 = 0 → n < 2 ^ 32 →
      dft_naive false (alternating n : List (cmplx ℝ)) = nyquist n)
    ∧ (1 ≤ m → m < 32 → m < fuel →
      dft_ct false fuel (alternating (2 ^ m) : List (cmplx ℝ)) = some (nyquist (2 ^ m)))
    ∧ (1 ≤ m → m ≤ 30 → 2 ^ m + m < fuel →
      dft_inplace false fuel (alternating (2 ^ m) : List (cmplx ℝ))
        = some (nyquist (2 ^ m))) := by
  have hpow : ∀ m, 1 ≤ m → m < 32 →
      dft_naive false (alternating (2 ^ m) : List (cmplx ℝ)) = nyquist (2 ^ m) := by
    intro m h1 hm
    obtain ⟨m', rfl⟩ : ∃ m', m = m' + 1 := ⟨m - 1, by omega⟩
    have e : 2 ^ (m' + 1) = 2 * 2 ^ m' := by rw [pow_succ]; ring
    have := two_pow_lt_UINT32 (m' + 1) hm
    rw [e] at this ⊢
    exact dft_naive_alternating _ (Nat.two_pow_pos m') this
  refine ⟨?_, ?_, ?_⟩
  · intro h2 hev hlt
    have e : n = 2 * (n / 2) := by omega
    rw [e]
    exact dft_naive_alternating _ (by omega) (by rw [← e]; exact hlt)
  · intro h1 hm hf
    rw [dft_ct_eq_naive false m hm _ (alternating_length _) fuel hf, hpow m h1 hm]
  · intro h1 hm hf
    rw [dft_inplace_eq_naive false m hm _ (alternating_length _) fuel hf,
      hpow m h1 (by omega)]

theorem nyquist_four :
    (nyquist 4 : List (cmplx ℝ)) = [⟨0, 0⟩, ⟨0, 0⟩, ⟨4, 0⟩, ⟨0, 0⟩] := by
  simp [nyquist, List.range_succ]

/-- Witness of C10: `[1, -1, 1, -1]` gives `[0, 0, 4, 0]` under the three transforms. -/
theorem alternating_transform_witness :
    dft_naive false ([⟨1, 0⟩, ⟨-1, 0⟩, ⟨1, 0⟩, ⟨-1, 0⟩] : List (cmplx ℝ))
      = [⟨0, 0⟩, ⟨0, 0⟩, ⟨4, 0⟩, ⟨0, 0⟩]
    ∧ dft_ct false 7 ([⟨1, 0⟩, ⟨-1, 0⟩, ⟨1, 0⟩, ⟨-1, 0⟩] : List (cmplx ℝ))
      = some [⟨0, 0⟩, ⟨0, 0⟩, ⟨4, 0⟩, ⟨0, 0⟩]
    ∧ dft_inplace false 7 ([⟨1, 0⟩, ⟨-1, 0⟩, ⟨1, 0⟩, ⟨-1, 0⟩] : List (cmplx ℝ))
      = some [⟨0, 0⟩, ⟨0, 0⟩, ⟨4, 0⟩, ⟨0, 0⟩] := by
  rw [← nyquist_four]
  exact ⟨(alternating_transform 4 2 7).1 (by norm_num) (by norm_num) (by norm_num),
    (alternating_transform 4 2 7).2.1 (by norm_num) (by norm_num) (by norm_num),
    (alternating_transform 4 2 7).2.2 (by norm_num) (by norm_num) (by norm_num)⟩

/-! ## Known transforms: the constant sequence -/

theorem dc_bin_length {T : Type} [Field T] (n : Nat) (c : cmplx T) :
    (dc_bin n c).length = n := by
  rw [dc_bin, List.length_map, List.length_range]

theorem val_dc_bin (n : Nat) (c : cmplx ℝ) (k : Nat) (hk : k < n) :
    val (dc_bin n c) k = if k = 0 then toC c * (n : ℂ) else 0 := by
  rw [dc_bin, val_map_range _ _ _ hk]
  split
  · rw [toC_scale]
    simp
  · exact toC_mk_zero

theorem dft_naive_replicate (n : Nat) (c : cmplx ℝ) (hlt : n < UINT32) :
    dft_naive false (List.replicate n c) = dc_bin n c := by
  apply eq_of_val_eq
  · rw [dft_naive_length, List.length_replicate, dc_bin_length]
  · intro k hk
    rw [dft_naive_length, List.length_replicate] at hk
    have hn : n ≠ 0 := by omega
    rw [val_dft_naive, List.length_replicate, Nat.mod_eq_of_lt hlt, if_pos hk,
      val_dc_bin _ _ _ hk, dsum, nscale]
    have hterm : ∀ i ∈ range n,
        val (List.replicate n c) i * turn n (sgn false * (k : ℤ) * (i : ℤ))
          = toC c * turn n ((-(k : ℤ)) * (i : ℤ)) := by
      intro i hi
      rw [val_replicate _ _ _ (Finset.mem_range.mp hi)]
      congr 2
      simp [sgn]
    rw [Finset.sum_congr rfl hterm, ← Finset.mul_sum]
    by_cases hk0 : k = 0
    · subst hk0
      rw [if_pos rfl]
      simp [turn_zero]
    · rw [if_neg hk0, sum_turn_of_not_dvd _ hn]
      · simp
      · rintro ⟨q, hq⟩
        have hq1 : q = 0 := by
          by_contra hne
          rcases lt_or_gt_of_ne hne with hlt' | hgt
          · have : (n : ℤ) * q ≤ (n : ℤ) * (-1) := by
              apply mul_le_mul_of_nonneg_left <;> omega
            omega
          · have : (n : ℤ) * 1 ≤ (n : ℤ) * q := by
              apply mul_le_mul_of_nonneg_left <;> omega
            omega
        rw [hq1, mul_zero] at hq
        omega

/-! ## C11 -/

/-- C11 as stated fails for `dft_naive` at `n = 2^32` (`UINT32`): the length is reduced to
the `uint32` value `0` and the constant sequence of ones is returned unchanged; its
element 1 is `1`, where the claim has `0`. -/
theorem constant_claimed_fails :
    dft_naive false (List.replicate UINT32 (⟨1, 0⟩ : cmplx ℝ)) ≠ dc_bin UINT32 ⟨1, 0⟩ := by
  intro h
  rw [dft_naive_of_length_eq_UINT32 _ _ (List.length_replicate _ _)] at h
  have h1 := congrArg (fun l => l[1]?) h
  simp only [dc_bin, List.getElem?_map, List.getElem?_range one_lt_UINT32,
    List.getElem?_replicate, if_pos one_lt_UINT32, Option.map_some'] at h1
  have h2 := congrArg cmplx.re (Option.some.inj h1)
  simp at h2

/-- C11 (amended): with `inverted = false` the transform of the constant sequence
`(c, ..., c)` of length `n` is `n * c` at index `0` and `0` at every other index: for
`dft_naive` at every `1 ≤ n < 2^32`, for `dft_ct` at `n = 2^m` with `m < 32`, for
`dft_inplace` at `n = 2^m` with `m ≤ 30`. -/
theorem constant_transform (n m fuel : Nat) (c : cmplx ℝ) :
    (1 ≤ n → n < 2 ^ 32 → dft_naive false (List.replicate n c) = dc_bin n c)
    ∧ (m < 32 → m < fuel →
      dft_ct false fuel (List.replicate (2 ^ m) c) = some (dc_bin (2 ^ m) c))
    ∧ (m ≤ 30 → 2 ^ m + m < fuel →
      dft_inplace false fuel (List.replicate (2 ^ m) c) = some (dc_bin (2 ^ m) c)) := by
  refine ⟨fun _ hlt => dft_naive_replicate n c hlt, ?_, ?_⟩
  · intro hm hf
    rw [dft_ct_eq_naive false m hm _ (List.length_replicate _ _) fuel hf,
      dft_naive_replicate _ _ (two_pow_lt_UINT32 m hm)]
  · intro hm hf
    rw [dft_inplace_eq_naive false m hm _ (List.length_replicate _ _) fuel hf,
      dft_naive_replicate _ _ (two_pow_lt_UINT32 m (by omega))]

theorem dc_bin_four (c : cmplx ℝ) :
    dc_bin 4 c = [c.scale 4, ⟨0, 0⟩, ⟨0, 0⟩, ⟨0, 0⟩] := by
  simp [dc_bin, List.range_succ]

/-- Witness of C11: `[c, c, c, c]` with `c = 3 + 2i` gives `[4c, 0, 0, 0]` under the three
transforms. -/
theorem constant_transform_witness :
    dft_naive false ([⟨3, 2⟩, ⟨3, 2⟩, ⟨3, 2⟩, ⟨3, 2⟩] : List (cmplx ℝ))
      = [cmplx.scale ⟨3, 2⟩ 4, ⟨0, 0⟩, ⟨0, 0⟩, ⟨0, 0⟩]
    ∧ dft_ct false 7 ([⟨3, 2⟩, ⟨3, 2⟩, ⟨3, 2⟩, ⟨3, 2⟩] : List (cmplx ℝ))
      = some [cmplx.scale ⟨3, 2⟩ 4, ⟨0, 0⟩, ⟨0, 0⟩, ⟨0, 0⟩]
    ∧ dft_inplace false 7 ([⟨3, 2⟩, ⟨3, 2⟩, ⟨3, 2⟩, ⟨3, 2⟩] : List (cmplx ℝ))
      = some [cmplx.scale ⟨3, 2⟩ 4, ⟨0, 0⟩, ⟨0, 0⟩, ⟨0, 0⟩] := by
  rw [← dc_bin_four]
  exact ⟨(constant_transform 4 2 7 ⟨3, 2⟩).1 (by norm_num) (by norm_num),
    (constant_transform 4 2 7 ⟨3, 2⟩).2.1 (by norm_num) (by norm_num),
    (constant_transform 4 2 7 ⟨3, 2⟩).2.2 (by norm_num) (by norm_num)⟩

/-! ## C13 -/

/-- C13: on the empty sequence each of the three transforms returns at once (for
`dft_ct` and `dft_inplace` with any fuel, `0` included) and leaves the sequence empty,
for every floating type: the test `n_it <= 0` precedes the computation of `omega`,
`scale`, every loop and every element access. -/
theorem empty_noop {T : Type} [Field T] [Trig T] (inv : Bool) (fuel : Nat) :
    dft_naive inv ([] : List (cmplx T)) = []
    ∧ dft_ct inv fuel ([] : List (cmplx T)) = some []
    ∧ dft_inplace inv fuel ([] : List (cmplx T)) = some [] :=
  ⟨rfl, rfl, rfl⟩

/-! ## C14 -/

theorem dft_ct_singleton {T : Type} [Field T] [Trig T] (inv : Bool) (f : Nat) (z : cmplx T) :
    dft_ct inv (f + 1) [z] = some [z] := by
  have h1 : (1 : Nat) % UINT32 = 1 := Nat.mod_eq_of_lt one_lt_UINT32
  have hnp : not_pow2 1 = false := not_pow2_two_pow 0 (by norm_num)
  simp [dft_ct, h1, hnp, dft_ct._compute]

theorem dft_inplace_singleton {T : Type} [Field T] [Trig T] (inv : Bool) (f : Nat)
    (z : cmplx T) : dft_inplace inv (f + 1) [z] = some [z] := by
  have h1 : (1 : Nat) % UINT32 = 1 := Nat.mod_eq_of_lt one_lt_UINT32
  have hnp : not_pow2 1 = false := not_pow2_two_pow 0 (by norm_num)
  cases inv <;> simp [dft_inplace, h1, hnp, perm_loop, stage_loop, cmplx.divide]

theorem dft_naive_singleton (inv : Bool) (z : cmplx ℝ) : dft_naive inv [z] = [z] := by
  have h1 : (1 : Nat) % UINT32 = 1 := Nat.mod_eq_of_lt one_lt_UINT32
  apply eq_of_val_eq
  · rw [dft_naive_length]
  · intro k hk
    rw [dft_naive_length, List.length_singleton] at hk
    have hk0 : k = 0 := by omega
    subst hk0
    rw [val_dft_naive, List.length_singleton, h1, if_pos (by norm_num), dsum_one]
    cases inv <;> simp [nscale]

/-- C14: on a one-element sequence `[z]` each of the three transforms, with either flag,
returns `[z]` (in exact arithmetic; `dft_ct` and `dft_inplace` with fuel for one call). -/
theorem singleton_identity (inv : Bool) (fuel : Nat) (z : cmplx ℝ) (hf : 1 ≤ fuel) :
    dft_naive inv [z] = [z] ∧ dft_ct inv fuel [z] = some [z]
      ∧ dft_inplace inv fuel [z] = some [z] := by
  obtain ⟨f, rfl⟩ : ∃ f, fuel = f + 1 := ⟨fuel - 1, by omega⟩
  exact ⟨dft_naive_singleton inv z, dft_ct_singleton inv f z, dft_inplace_singleton inv f z⟩

/-- Witness of C14: the inverse transforms of `[3 + 2i]` with fuel 1. -/
theorem singleton_identity_witness :
    dft_naive true ([⟨3, 2⟩] : List (cmplx ℝ)) = [⟨3, 2⟩]
      ∧ dft_ct true 1 ([⟨3, 2⟩] : List (cmplx ℝ)) = some [⟨3, 2⟩]
      ∧ dft_inplace true 1 ([⟨3, 2⟩] : List (cmplx ℝ)) = some [⟨3, 2⟩] :=
  singleton_identity true 1 ⟨3, 2⟩ (by norm_num)

/-! ## C17 -/

theorem turn_eq_cos_sub_sin (n : Nat) (k i : Nat) :
    turn n (sgn false * (k : ℤ) * (i : ℤ))
      = Complex.cos (2 * (Real.pi : ℂ) * (k : ℂ) * (i : ℂ) / (n : ℂ))
        - Complex.I * Complex.sin (2 * (Real.pi : ℂ) * (k : ℂ) * (i : ℂ) / (n : ℂ)) := by
  have e : ((sgn false * (k : ℤ) * (i : ℤ) : ℤ) : ℂ) * (2 * (Real.pi : ℂ) * Complex.I / (n : ℂ))
      = (-(2 * (Real.pi : ℂ) * (k : ℂ) * (i : ℂ) / (n : ℂ))) * Complex.I := by
    simp only [sgn]
    push_cast
    simp
    ring
  rw [turn, e, Complex.exp_mul_I, Complex.cos_neg, Complex.sin_neg]
  ring

theorem turn_eq_exp_neg (n : Nat) (k i : Nat) :
    turn n (sgn false * (k : ℤ) * (i : ℤ))
      = Complex.exp (-2 * (Real.pi : ℂ) * Complex.I * (k : ℂ) * (i : ℂ) / (n : ℂ)) := by
  rw [turn]
  congr 1
  simp only [sgn]
  push_cast
  simp
  ring

theorem turn_eq_exp_pos (n : Nat) (k i : Nat) :
    turn n (sgn true * (k : ℤ) * (i : ℤ))
      = Complex.exp (2 * (Real.pi : ℂ) * Complex.I * (k : ℂ) * (i : ℂ) / (n : ℂ)) := by
  rw [turn]
  congr 1
  simp only [sgn]
  push_cast
  simp
  ring

/-- C17 as stated fails for sequences of `2^32` samples (`UINT32`) and more: the length
is reduced to the `uint32` value `0` and the sequence of ones is returned unchanged, so
element 0 is `1`, while the stated forward sum is `2^32`. -/
theorem dft_naive_cos_sin_claimed_fails :
    ((dft_naive false (List.replicate UINT32 (⟨1, 0⟩ : cmplx ℝ)))[0]?).map toC = some 1
    ∧ (∑ i in range UINT32, val (List.replicate UINT32 (⟨1, 0⟩ : cmplx ℝ)) i *
          (Complex.cos (2 * (Real.pi : ℂ) * ((0 : ℕ) : ℂ) * (i : ℂ) / (UINT32 : ℂ))
            - Complex.I * Complex.sin (2 * (Real.pi : ℂ) * ((0 : ℕ) : ℂ) * (i : ℂ) / (UINT32 : ℂ))))
        = (UINT32 : ℂ)
    ∧ (UINT32 : ℂ) ≠ 1 := by
  have hpos : 0 < UINT32 := by simp [UINT32]
  refine ⟨?_, ?_, ?_⟩
  · rw [dft_naive_of_length_eq_UINT32 _ _ (List.length_replicate _ _),
      map_toC_getElem? _ _ (by rw [List.length_replicate]; exact hpos),
      val_replicate _ _ _ hpos, toC_mk_one]
  · have : ∀ i ∈ range UINT32, val (List.replicate UINT32 (⟨1, 0⟩ : cmplx ℝ)) i *
          (Complex.cos (2 * (Real.pi : ℂ) * ((0 : ℕ) : ℂ) * (i : ℂ) / (UINT32 : ℂ))
            - Complex.I * Complex.sin (2 * (Real.pi : ℂ) * ((0 : ℕ) : ℂ) * (i : ℂ) / (UINT32 : ℂ)))
        = 1 := by
      intro i hi
      rw [val_replicate _ _ _ (Finset.mem_range.mp hi), toC_mk_one]
      simp
    rw [Finset.sum_congr rfl this]
    simp
  · have : (UINT32 : ℂ) = 4294967296 := by
      simp [UINT32]
    rw [this]
    norm_num

/-- C17 (amended): for a sequence `x` of `n < 2^32` samples and `k < n`, `dft_naive`
with `inverted = false` sets element `k` to
`sum_{i<n} x[i] * (cos(2*pi*k*i/n) - I*sin(2*pi*k*i/n)) = sum_{i<n} x[i] * exp(-2*pi*I*k*i/n)`,
and with `inverted = true` to `(1/n) * sum_{i<n} x[i] * exp(+2*pi*I*k*i/n)`. -/
theorem dft_naive_cos_sin (xs : List (cmplx ℝ)) (k : Nat)
    (hlt : xs.length < 2 ^ 32) (hk : k < xs.length) :
    ((dft_naive false xs)[k]?).map toC
        = some (∑ i in range xs.length, val xs i *
            (Complex.cos (2 * (Real.pi : ℂ) * (k : ℂ) * (i : ℂ) / (xs.length : ℂ))
              - Complex.I * Complex.sin (2 * (Real.pi : ℂ) * (k : ℂ) * (i : ℂ) / (xs.length : ℂ))))
    ∧ (∑ i in range xs.length, val xs i *
            (Complex.cos (2 * (Real.pi : ℂ) * (k : ℂ) * (i : ℂ) / (xs.length : ℂ))
              - Complex.I * Complex.sin (2 * (Real.pi : ℂ) * (k : ℂ) * (i : ℂ) / (xs.length : ℂ))))
        = ∑ i in range xs.length, val xs i *
            Complex.exp (-2 * (Real.pi : ℂ) * Complex.I * (k : ℂ) * (i : ℂ) / (xs.length : ℂ))
    ∧ ((dft_naive true xs)[k]?).map toC
        = some (1 / (xs.length : ℂ) * ∑ i in range xs.length, val xs i *
            Complex.exp (2 * (Real.pi : ℂ) * Complex.I * (k : ℂ) * (i : ℂ) / (xs.length : ℂ))) := by
  have hmod : xs.length % UINT32 = xs.length := Nat.mod_eq_of_lt hlt
  refine ⟨?_, ?_, ?_⟩
  · rw [map_toC_getElem? _ _ (by rw [dft_naive_length]; exact hk), val_dft_naive, hmod,
      if_pos hk, dsum, nscale]
    simp only [Bool.false_eq_true, if_false, mul_one]
    congr 1
    apply Finset.sum_congr rfl
    intro i _
    rw [turn_eq_cos_sub_sin]
  · apply Finset.sum_congr rfl
    intro i _
    rw [← turn_eq_cos_sub_sin, turn_eq_exp_neg]
  · rw [map_toC_getElem? _ _ (by rw [dft_naive_length]; exact hk), val_dft_naive, hmod,
      if_pos hk, dsum, nscale]
    simp only [if_true]
    rw [mul_comm]
    congr 2
    apply Finset.sum_congr rfl
    intro i _
    rw [turn_eq_exp_pos]

/-- Witness of C17: element 1 of the transforms of `[1, 2]`. -/
theorem dft_naive_cos_sin_witness :
    ((dft_naive false ([⟨1, 0⟩, ⟨2, 0⟩] : List (cmplx ℝ)))[1]?).map toC
        = some (∑ i in range 2, val [⟨1, 0⟩, ⟨2, 0⟩] i *
            (Complex.cos (2 * (Real.pi : ℂ) * ((1 : ℕ) : ℂ) * (i : ℂ) / ((2 : ℕ) : ℂ))
              - Complex.I * Complex.sin (2 * (Real.pi : ℂ) * ((1 : ℕ) : ℂ) * (i : ℂ) / ((2 : ℕ) : ℂ))))
    ∧ (∑ i in range 2, val [⟨1, 0⟩, ⟨2, 0⟩] i *
            (Complex.cos (2 * (Real.pi : ℂ) * ((1 : ℕ) : ℂ) * (i : ℂ) / ((2 : ℕ) : ℂ))
              - Complex.I * Complex.sin (2 * (Real.pi : ℂ) * ((1 : ℕ) : ℂ) * (i : ℂ) / ((2 : ℕ) : ℂ))))
        = ∑ i in range 2, val [⟨1, 0⟩, ⟨2, 0⟩] i *
            Complex.exp (-2 * (Real.pi : ℂ) * Complex.I * ((1 : ℕ) : ℂ) * (i : ℂ) / ((2 : ℕ) : ℂ))
    ∧ ((dft_naive true ([⟨1, 0⟩, ⟨2, 0⟩] : List (cmplx ℝ)))[1]?).map toC
        = some (1 / ((2 : ℕ) : ℂ) * ∑ i in range 2, val [⟨1, 0⟩, ⟨2, 0⟩] i *
            Complex.exp (2 * (Real.pi : ℂ) * Complex.I * ((1 : ℕ) : ℂ) * (i : ℂ) / ((2 : ℕ) : ℂ))) :=
  dft_naive_cos_sin [⟨1, 0⟩, ⟨2, 0⟩] 1 (by simp) (by simp)

/-! ## C20 -/

/-- C20 as stated fails at `m = 32` and, for `dft_inplace`, at `m = 31`.  On `2^32` samples
(`UINT32`) `dft_ct` never returns, and `dft_inplace` with `inverted = true` divides
every element by `n = 0`, which the forward pass (a no-op there) does not undo; on `2^31`
samples `dft_inplace` never returns. -/
theorem inverse_first_claimed_fails :
    (¬ ∃ fuel, (dft_ct true fuel (List.replicate UINT32 (⟨1, 0⟩ : cmplx ℝ))).bind
        (dft_ct false fuel) = some (List.replicate UINT32 (⟨1, 0⟩ : cmplx ℝ)))
    ∧ (¬ ∃ fuel, (dft_inplace true fuel (List.replicate UINT32 (⟨1, 0⟩ : cmplx ℝ))).bind
        (dft_inplace false fuel) = some (List.replicate UINT32 (⟨1, 0⟩ : cmplx ℝ)))
    ∧ (¬ ∃ fuel, (dft_inplace true fuel (List.replicate (2 ^ 31) (⟨1, 0⟩ : cmplx ℝ))).bind
        (dft_inplace false fuel) = some (List.replicate (2 ^ 31) (⟨1, 0⟩ : cmplx ℝ))) := by
  refine ⟨?_, ?_, ?_⟩
  · rintro ⟨fuel, h⟩
    rw [dft_ct_of_length_eq_UINT32 _ _ _ (List.length_replicate _ _)] at h
    exact Option.noConfusion h
  · rintro ⟨fuel, h⟩
    have hpos : 0 < UINT32 := by simp [UINT32]
    cases fuel with
    | zero =>
      have hne : ¬ UINT32 ≤ 0 := by omega
      simp [dft_inplace, hne, not_pow2_zero, perm_loop, stage_loop] at h
    | succ f =>
      rw [dft_inplace_of_length_eq_UINT32 _ _ _ (List.length_replicate _ _), if_pos rfl,
        Option.some_bind, List.map_replicate,
        dft_inplace_of_length_eq_UINT32 _ _ _ (List.length_replicate _ _),
        if_neg (by simp)] at h
      refine replicate_ne_of_ne UINT32 hpos _ _ ?_ (Option.some.inj h)
      intro e
      have := congrArg cmplx.re e
      simp [cmplx.divide] at this
  · rintro ⟨fuel, h⟩
    rw [dft_inplace_two_pow_31 _ _ _ (List.length_replicate _ _)] at h
    exact Option.noConfusion h

/-- C20 (amended): applying a transform with `inverted = true` and then the same algorithm
with `inverted = false` returns exactly the original sequence, and so does the opposite
order: for `dft_naive` at every length, for `dft_ct` at `n = 2^m` with `m < 32`, for
`dft_inplace` at `n = 2^m` with `m ≤ 30`, given fuel for their recursion and loops. -/
theorem inverse_then_forward (m : Nat) (xs : List (cmplx ℝ)) (fuel : Nat) :
    (dft_naive false (dft_naive true xs) = xs ∧ dft_naive true (dft_naive false xs) = xs)
    ∧ (xs.length = 2 ^ m → m < 32 → m < fuel →
        (dft_ct true fuel xs).bind (dft_ct false fuel) = some xs
        ∧ (dft_ct false fuel xs).bind (dft_ct true fuel) = some xs)
    ∧ (xs.length = 2 ^ m → m ≤ 30 → 2 ^ m + m < fuel →
        (dft_inplace true fuel xs).bind (dft_inplace false fuel) = some xs
        ∧ (dft_inplace false fuel xs).bind (dft_inplace true fuel) = some xs) := by
  refine ⟨⟨dft_naive_not_dft_naive true xs, dft_naive_not_dft_naive false xs⟩, ?_, ?_⟩
  · intro hlen hm hf
    have hl : ∀ inv, (dft_naive inv xs).length = 2 ^ m := by
      intro inv; rw [dft_naive_length, hlen]
    constructor
    · rw [dft_ct_eq_naive true m hm xs hlen fuel hf, Option.some_bind,
        dft_ct_eq_naive false m hm _ (hl true) fuel hf]
      exact congrArg some (dft_naive_not_dft_naive true xs)
    · rw [dft_ct_eq_naive false m hm xs hlen fuel hf, Option.some_bind,
        dft_ct_eq_naive true m hm _ (hl false) fuel hf]
      exact congrArg some (dft_naive_not_dft_naive false xs)
  · intro hlen hm hf
    have hl : ∀ inv, (dft_naive inv xs).length = 2 ^ m := by
      intro inv; rw [dft_naive_length, hlen]
    constructor
    · rw [dft_inplace_eq_naive true m hm xs hlen fuel hf, Option.some_bind,
        dft_inplace_eq_naive false m hm _ (hl true) fuel hf]
      exact congrArg some (dft_naive_not_dft_naive true xs)
    · rw [dft_inplace_eq_naive false m hm xs hlen fuel hf, Option.some_bind,
        dft_inplace_eq_naive true m hm _ (hl false) fuel hf]
      exact congrArg some (dft_naive_not_dft_naive false xs)

/-- Witness of C20: the round trips on `[1, 2]` (`m = 1`) with fuel 4, inverse first. -/
theorem inverse_then_forward_witness :
    dft_naive false (dft_naive true ([⟨1, 0⟩, ⟨2, 0⟩] : List (cmplx ℝ))) = [⟨1, 0⟩, ⟨2, 0⟩]
    ∧ (dft_ct true 4 ([⟨1, 0⟩, ⟨2, 0⟩] : List (cmplx ℝ))).bind (dft_ct false 4)
        = some [⟨1, 0⟩, ⟨2, 0⟩]
    ∧ (dft_inplace true 4 ([⟨1, 0⟩, ⟨2, 0⟩] : List (cmplx ℝ))).bind (dft_inplace false 4)
        = some [⟨1, 0⟩, ⟨2, 0⟩] :=
  ⟨(inverse_then_forward 1 [⟨1, 0⟩, ⟨2, 0⟩] 4).1.1,
    ((inverse_then_forward 1 [⟨1, 0⟩, ⟨2, 0⟩] 4).2.1 (by simp) (by norm_num) (by norm_num)).1,
    ((inverse_then_forward 1 [⟨1, 0⟩, ⟨2, 0⟩] 4).2.2 (by simp) (by norm_num) (by norm_num)).1⟩

/-! ## Lengths -/

theorem write_length {α : Type} (xs ys : List α) (i : Nat) (v : α)
    (h : write xs i v = some ys) : ys.length = xs.length := by
  unfold write at h
  split at h
  · rw [← Option.some.inj h, List.length_set]
  · exact Option.noConfusion h

theorem foldlM_some_invariant {σ β : Type} (f : σ → β → Option σ) (P : σ → Prop)
    (hstep : ∀ s b s', f s b = some s' → P s → P s') :
    ∀ (l : List β) (s0 s : σ), P s0 → l.foldlM f s0 = some s → P s := by
  intro l
  induction l with
  | nil =>
    intro s0 s h0 h
    simp only [List.foldlM_nil, Option.pure_def, Option.some.injEq] at h
    rw [← h]; exact h0
  | cons b l ih =>
    intro s0 s h0 h
    simp only [List.foldlM_cons, Option.bind_eq_bind] at h
    cases hb : f s0 b with
    | none => rw [hb] at h; exact Option.noConfusion h
    | some s1 =>
      rw [hb, Option.some_bind] at h
      exact ih s1 s (hstep s0 b s1 hb h0) h

theorem swap_length {α : Type} (xs ys : List α) (i j : Nat) (h : swap xs i j = some ys) :
    ys.length = xs.length := by
  unfold swap at h
  cases ha : xs[i]? with
  | none => simp [ha] at h
  | some a =>
    cases hb : xs[j]? with
    | none => simp [ha, hb] at h
    | some b =>
      simp only [ha, hb, Option.bind_eq_bind, Option.some_bind] at h
      cases hw : write xs i b with
      | none => simp [hw] at h
      | some s =>
        rw [hw, Option.some_bind] at h
        rw [write_length _ _ _ _ h, write_length _ _ _ _ hw]

section Lengths

variable {T : Type} [Field T] [Trig T]

theorem combine_length (evens odds : List (cmplx T)) (angle scale : T) (half : Nat)
    (samples zs : List (cmplx T)) (h : combine evens odds angle scale half samples = some zs) :
    zs.length = samples.length := by
  unfold combine at h
  refine foldlM_some_invariant _ (fun s => s.length = samples.length) ?_ _ _ _ rfl h
  intro s k s' hs hP
  cases he : evens[k]? with
  | none => simp [he] at hs
  | some e =>
    cases ho : odds[k]? with
    | none => simp [he, ho] at hs
    | some o =>
      simp only [he, ho, Option.bind_eq_bind, Option.some_bind] at hs
      cases hw : write s k ((e + (⟨Trig.cos ((k : T) * angle), Trig.sin ((k : T) * angle)⟩ : cmplx T) * o).scale scale) with
      | none => simp [hw] at hs
      | some s1 =>
        rw [hw, Option.some_bind] at hs
        rw [write_length _ _ _ _ hs, write_length _ _ _ _ hw, hP]

theorem compute_length (inv : Bool) (fuel : Nat) (samples ys : List (cmplx T)) (n : Nat)
    (h : dft_ct._compute inv fuel samples n = some ys) : ys.length = samples.length := by
  cases fuel with
  | zero => exact Option.noConfusion h
  | succ f =>
    rw [dft_ct._compute] at h
    split at h
    · rw [← Option.some.inj h]
    · simp only [Option.bind_eq_bind] at h
      cases h1 : split_even_odd samples (n / 2) with
      | none => simp [h1] at h
      | some eo =>
        rw [h1, Option.some_bind] at h
        cases h2 : dft_ct._compute inv f eo.2 (n / 2) with
        | none => simp [h2] at h
        | some os =>
          rw [h2, Option.some_bind] at h
          cases h3 : dft_ct._compute inv f eo.1 (n / 2) with
          | none => simp [h3] at h
          | some es =>
            rw [h3, Option.some_bind] at h
            exact combine_length _ _ _ _ _ _ _ h

theorem dft_ct_length (inv : Bool) (fuel : Nat) (xs ys : List (cmplx T))
    (h : dft_ct inv fuel xs = some ys) : ys.length = xs.length := by
  unfold dft_ct at h
  simp only at h
  split at h
  · rw [← Option.some.inj h]
  · split at h
    · rw [← Option.some.inj h]
    · exact compute_length inv fuel xs ys _ h

end Lengths

theorem perm_loop_length {T : Type} [Field T] (n : Nat) (xs : List (cmplx T))
    (p : Nat × List (cmplx T)) (h : perm_loop n xs = some p) : p.2.length = xs.length := by
  unfold perm_loop at h
  refine foldlM_some_invariant _ (fun s => s.2.length = xs.length) ?_ _ _ _ rfl h
  intro s i s' hs hP
  unfold perm_step at hs
  simp only at hs
  split at hs
  · cases hw : swap s.2 i ((rev_carry s.1 (n >>> 1)).1 ^^^ (rev_carry s.1 (n >>> 1)).2) with
    | none => simp [hw] at hs
    | some t =>
      rw [hw, Option.map_some'] at hs
      rw [← Option.some.inj hs]
      simp only
      rw [swap_length _ _ _ _ hw, hP]
  · rw [← Option.some.inj hs]
    exact hP

theorem butterfly_block_length {T : Type} [Field T] (rot : cmplx T) (half i : Nat)
    (xs : List (cmplx T)) (st : cmplx T × List (cmplx T))
    (h : butterfly_block rot half i xs = some st) : st.2.length = xs.length := by
  unfold butterfly_block at h
  refine foldlM_some_invariant _ (fun s => s.2.length = xs.length) ?_ _ _ _ rfl h
  intro s j s' hs hP
  cases hu : s.2[i + j]? with
  | none => simp [hu] at hs
  | some u =>
    cases hx : s.2[i + j + half]? with
    | none => simp [hu, hx] at hs
    | some x =>
      simp only [hu, hx, Option.bind_eq_bind, Option.some_bind] at hs
      cases hw : write s.2 (i + j) (u + x * s.1) with
      | none => simp [hw] at hs
      | some s1 =>
        rw [hw, Option.some_bind] at hs
        cases hw2 : write s1 (i + j + half) (u - x * s.1) with
        | none => simp [hw2] at hs
        | some s2 =>
          rw [hw2, Option.some_bind] at hs
          simp only [Option.pure_def, Option.some.injEq] at hs
          rw [← hs]
          simp only
          rw [write_length _ _ _ _ hw2, write_length _ _ _ _ hw, hP]

theorem block_loop_length {T : Type} [Field T] (rot : cmplx T) (n len : Nat) (fuel : Nat) :
    ∀ (i : Nat) (xs ys : List (cmplx T)), block_loop rot n len fuel i xs = some ys →
      ys.length = xs.length := by
  induction fuel with
  | zero => intro i xs ys h; exact Option.noConfusion h
  | succ f ih =>
    intro i xs ys h
    rw [block_loop] at h
    split at h
    · simp only [Option.bind_eq_bind] at h
      cases hb : butterfly_block rot (len / 2) i xs with
      | none => simp [hb] at h
      | some st =>
        rw [hb, Option.some_bind] at h
        rw [ih _ _ _ h, butterfly_block_length _ _ _ _ _ hb]
    · rw [← Option.some.inj h]

theorem stage_loop_length {T : Type} [Field T] [Trig T] (inv : Bool) (n : Nat) (fuel : Nat) :
    ∀ (len : Nat) (xs ys : List (cmplx T)), stage_loop inv n fuel len xs = some ys →
      ys.length = xs.length := by
  induction fuel with
  | zero => intro len xs ys h; exact Option.noConfusion h
  | succ f ih =>
    intro len xs ys h
    rw [stage_loop] at h
    split at h
    · simp only [Option.bind_eq_bind] at h
      obtain ⟨s, hb, hs⟩ := Option.bind_eq_some.mp h
      rw [ih _ _ _ hs, block_loop_length _ _ _ _ _ _ _ hb]
    · rw [← Option.some.inj h]

theorem dft_inplace_length {T : Type} [Field T] [Trig T] (inv : Bool) (fuel : Nat)
    (xs ys : List (cmplx T)) (h : dft_inplace inv fuel xs = some ys) :
    ys.length = xs.length := by
  unfold dft_inplace at h
  simp only at h
  split at h
  · rw [← Option.some.inj h]
  · split at h
    · rw [← Option.some.inj h]
    · simp only [Option.bind_eq_bind] at h
      cases hp : perm_loop (xs.length % UINT32) xs with
      | none => simp [hp] at h
      | some p =>
        rw [hp, Option.some_bind] at h
        cases hs : stage_loop inv (xs.length % UINT32) fuel 2 p.2 with
        | none => simp [hs] at h
        | some s =>
          rw [hs, Option.some_bind] at h
          have hl : s.length = xs.length := by
            rw [stage_loop_length _ _ _ _ _ _ hs, perm_loop_length _ _ _ hp]
          split at h
          · rw [← Option.some.inj h, List.length_map, hl]
          · rw [← Option.some.inj h, hl]

/-! ## C12 -/

/-- C12: no transform changes the length of the sequence.  `dft_naive` returns a sequence
of the length of its input; whenever `dft_ct` or `dft_inplace` returns, for any input,
flag and fuel, the result has the length of the input; and they do return, given fuel,
on every sequence of fewer than `2^32` samples (`dft_inplace`: other than `2^31`). -/
theorem length_preserved (inv : Bool) (fuel : Nat) (xs : List (cmplx ℝ)) :
    (dft_naive inv xs).length = xs.length
    ∧ (∀ ys, dft_ct inv fuel xs = some ys → ys.length = xs.length)
    ∧ (∀ ys, dft_inplace inv fuel xs = some ys → ys.length = xs.length)
    ∧ (xs.length < 2 ^ 32 → xs.length ≤ fuel →
        ∃ ys, dft_ct inv fuel xs = some ys ∧ ys.length = xs.length)
    ∧ (xs.length < 2 ^ 32 → xs.length ≠ 2 ^ 31 → 2 * xs.length ≤ fuel →
        ∃ ys, dft_inplace inv fuel xs = some ys ∧ ys.length = xs.length) := by
  refine ⟨dft_naive_length inv xs, fun ys h => dft_ct_length inv fuel xs ys h,
    fun ys h => dft_inplace_length inv fuel xs ys h, ?_, ?_⟩
  · intro hlt hf
    have h := dft_ct_total inv fuel xs hlt hf
    exact ⟨_, h, dft_ct_length inv fuel xs _ h⟩
  · intro hlt hne hf
    have h := dft_inplace_total inv fuel xs hlt hne hf
    exact ⟨_, h, dft_inplace_length inv fuel xs _ h⟩

/-- Witness of C12: the three inverse transforms of a sequence of length 3 (not a power of
two) with fuel 6. -/
theorem length_preserved_witness :
    (dft_naive true ([⟨1, 0⟩, ⟨2, 0⟩, ⟨3, 0⟩] : List (cmplx ℝ))).length = 3
    ∧ (∃ ys, dft_ct true 6 ([⟨1, 0⟩, ⟨2, 0⟩, ⟨3, 0⟩] : List (cmplx ℝ)) = some ys
        ∧ ys.length = 3)
    ∧ (∃ ys, dft_inplace true 6 ([⟨1, 0⟩, ⟨2, 0⟩, ⟨3, 0⟩] : List (cmplx ℝ)) = some ys
        ∧ ys.length = 3) :=
  ⟨(length_preserved true 6 [⟨1, 0⟩, ⟨2, 0⟩, ⟨3, 0⟩]).1,
    (length_preserved true 6 [⟨1, 0⟩, ⟨2, 0⟩, ⟨3, 0⟩]).2.2.2.1 (by simp) (by simp),
    (length_preserved true 6 [⟨1, 0⟩, ⟨2, 0⟩, ⟨3, 0⟩]).2.2.2.2 (by simp) (by simp) (by simp)⟩

/-! ## C15 -/

/-- Bit `b` of `bitrev m i` is bit `m - 1 - b` of `i`. -/
theorem testBit_bitrev (m : Nat) : ∀ (i b : Nat), b < m →
    (bitrev m i).testBit b = i.testBit (m - 1 - b) := by
  induction m with
  | zero => intro i b hb; omega
  | succ m ih =>
    intro i b hb
    have hr := bitrev_lt m (i / 2)
    rw [bitrev]
    rcases Nat.eq_or_lt_of_le (Nat.lt_succ_iff.mp hb) with e | hlt
    · subst e
      have e0 : b + 1 - 1 - b = 0 := by omega
      rw [e0, Nat.mul_comm, Nat.testBit_mul_two_pow_add_eq, Nat.testBit_lt_two_pow hr,
        Nat.testBit_zero]
      simp
    · have hmod : (i % 2 * 2 ^ m + bitrev m (i / 2)) % 2 ^ m = bitrev m (i / 2) := by
        rw [Nat.add_comm, Nat.add_mul_mod_self_right, Nat.mod_eq_of_lt hr]
      have h1 := Nat.testBit_mod_two_pow (i % 2 * 2 ^ m + bitrev m (i / 2)) m b
      rw [hmod] at h1
      simp only [hlt, decide_True, Bool.true_and] at h1
      rw [← h1, ih (i / 2) b hlt, Nat.testBit_div_two]
      congr 1
      omega

theorem getElem?_eq_of_getD_eq {α : Type} (xs ys : List α) (i j : Nat) (d : α)
    (hi : i < xs.length) (hj : j < ys.length) (h : xs.getD i d = ys.getD j d) :
    xs[i]? = ys[j]? := by
  rw [getElem?_eq_some_getD xs i d hi, getElem?_eq_some_getD ys j d hj, h]

/-- The permutation loop with bound `2^m` on a sequence of at least `2^m` samples: the
state after the iterations `1, ..., c`. -/
theorem perm_loop_prefix_le {T : Type} [Field T] (m : Nat) (xs : List (cmplx T))
    (hlen : 2 ^ m ≤ xs.length) : ∀ c, c + 1 ≤ 2 ^ m →
    ∃ ys, (List.range' 1 c).foldlM (perm_step (2 ^ m)) (0, xs) = some (bitrev m c, ys)
      ∧ ys.length = xs.length
      ∧ (∀ p, p < 2 ^ m → ys.getD p 0
          = if p ≤ c ∨ bitrev m p ≤ c then xs.getD (bitrev m p) 0 else xs.getD p 0)
      ∧ (∀ p, 2 ^ m ≤ p → ys.getD p 0 = xs.getD p 0) := by
  intro c
  induction c with
  | zero =>
    intro _
    refine ⟨xs, by simp [bitrev_zero_right], rfl, ?_, fun _ _ => rfl⟩
    intro p hp
    split
    · next h =>
      have : p = 0 := by
        rcases h with h | h
        · omega
        · have := (bitrev_eq_iff m p 0 hp (Nat.two_pow_pos m)).mp (by omega)
          rw [this, bitrev_zero_right]
      subst this
      rw [bitrev_zero_right]
    · rfl
  | succ c ih =>
    intro hc
    obtain ⟨ys, hys, hysl, hv, hu⟩ := ih (by omega)
    obtain ⟨m', rfl⟩ : ∃ m', m = m' + 1 := by
      cases m with
      | zero => simp at hc
      | succ m' => exact ⟨m', rfl⟩
    have hi : c + 1 < 2 ^ (m' + 1) := by omega
    have hj : bitrev (m' + 1) (c + 1) < 2 ^ (m' + 1) := bitrev_lt _ _
    have hix : c + 1 < xs.length := by omega
    have hjx : bitrev (m' + 1) (c + 1) < xs.length := by omega
    have hjj : bitrev (m' + 1) (bitrev (m' + 1) (c + 1)) = c + 1 := bitrev_bitrev _ _ hi
    have hstep : perm_step (2 ^ (m' + 1)) (bitrev (m' + 1) c, ys) (1 + c)
        = some (bitrev (m' + 1) (c + 1),
            if c + 1 < bitrev (m' + 1) (c + 1) then
              (ys.set (c + 1) (ys.getD (bitrev (m' + 1) (c + 1)) 0)).set
                (bitrev (m' + 1) (c + 1)) (ys.getD (c + 1) 0)
            else ys) := by
      simp only [perm_step, two_pow_succ_shiftRight_one, rev_carry_bitrev, Nat.add_comm 1 c]
      split
      · rw [swap_eq_some ys _ _ 0 (by omega) (by omega)]
        rfl
      · rfl
    refine ⟨if c + 1 < bitrev (m' + 1) (c + 1) then
              (ys.set (c + 1) (ys.getD (bitrev (m' + 1) (c + 1)) 0)).set
                (bitrev (m' + 1) (c + 1)) (ys.getD (c + 1) 0)
            else ys, ?_, ?_, ?_, ?_⟩
    · rw [List.range'_concat, List.foldlM_append, hys]
      simp only [Option.bind_eq_bind, Option.some_bind, List.foldlM_cons, List.foldlM_nil,
        one_mul, hstep, Option.pure_def]
    · split <;> simp [hysl]
    · intro p hp
      have hinj := bitrev_eq_iff (m' + 1) p (c + 1) hp hi
      have hvp := hv p hp
      have hvi := hv (c + 1) hi
      have hvj := hv _ hj
      rw [hjj] at hvj
      by_cases hswap : c + 1 < bitrev (m' + 1) (c + 1)
      · rw [if_pos hswap, getD_set_eq, getD_set_eq]
        simp only [List.length_set, hysl]
        rw [if_neg (by omega)] at hvi
        rw [if_neg (by omega)] at hvj
        by_cases c1 : p = bitrev (m' + 1) (c + 1)
        · rw [if_pos ⟨c1, hjx⟩, hvi, c1, hjj, if_pos (Or.inr le_rfl)]
        · rw [if_neg (fun h => c1 h.1)]
          by_cases c2 : p = c + 1
          · rw [if_pos ⟨c2, hix⟩, hvj, c2, if_pos (Or.inl le_rfl)]
          · rw [if_neg (fun h => c2 h.1), hvp]
            have c3 : bitrev (m' + 1) p ≠ c + 1 := fun h => c1 (hinj.mp h)
            have : (p ≤ c ∨ bitrev (m' + 1) p ≤ c) ↔ (p ≤ c + 1 ∨ bitrev (m' + 1) p ≤ c + 1) := by
              omega
            simp only [this]
      · rw [if_neg hswap, hvp]
        by_cases c2 : p = c + 1
        · subst c2
          rw [if_pos (Or.inl le_rfl)]
          split
          · rfl
          · next h =>
            have : bitrev (m' + 1) (c + 1) = c + 1 := by omega
            rw [this]
        · by_cases c1 : p = bitrev (m' + 1) (c + 1)
          · rw [if_pos (Or.inl (by omega)), if_pos (Or.inl (by omega))]
          · have c3 : bitrev (m' + 1) p ≠ c + 1 := fun h => c1 (hinj.mp h)
            have : (p ≤ c ∨ bitrev (m' + 1) p ≤ c) ↔ (p ≤ c + 1 ∨ bitrev (m' + 1) p ≤ c + 1) := by
              omega
            simp only [this]
    · intro p hp
      split
      · rw [getD_set_eq, getD_set_eq, if_neg (by omega), if_neg (by omega), hu p hp]
      · exact hu p hp

/-- C15: when the loop bound `n` of `dft_inplace` is `2^m`, after the permutation loop the
element originally at index `i` is at position `rev_m(i)` for every `i < n` (and the
elements from index `n` on, if any, are where they were), where bit `b` of `rev_m(i)` is
bit `m - 1 - b` of `i`; at the swap test of iteration `i` the running index `j` is
`rev_m(i)`, the swap is made exactly when `i < rev_m(i)`, and of the two iterations `i`
and `rev_m(i)` of a pair with `i ≠ rev_m(i)` exactly one passes that test. -/
theorem perm_loop_bit_reversal {T : Type} [Field T] (m : Nat) (xs : List (cmplx T))
    (hn : xs.length % UINT32 = 2 ^ m) :
    (∀ i, bitrev m i < 2 ^ m ∧ ∀ b, b < m → (bitrev m i).testBit b = i.testBit (m - 1 - b))
    ∧ (∃ ys, perm_loop (xs.length % UINT32) xs = some (bitrev m (2 ^ m - 1), ys)
        ∧ ys.length = xs.length
        ∧ (∀ i, i < 2 ^ m → ys[bitrev m i]? = xs[i]?)
        ∧ (∀ p, 2 ^ m ≤ p → ys[p]? = xs[p]?))
    ∧ (∀ i, 1 ≤ i → i < 2 ^ m →
        ∃ ys, (List.range' 1 (i - 1)).foldlM (perm_step (xs.length % UINT32)) (0, xs)
            = some (bitrev m (i - 1), ys)
          ∧ ys.length = xs.length
          ∧ (rev_carry (bitrev m (i - 1)) ((xs.length % UINT32) >>> 1)).1
              ^^^ (rev_carry (bitrev m (i - 1)) ((xs.length % UINT32) >>> 1)).2 = bitrev m i
          ∧ perm_step (xs.length % UINT32) (bitrev m (i - 1), ys) i
              = if i < bitrev m i then
                  (swap ys i (bitrev m i)).map (fun s => (bitrev m i, s))
                else some (bitrev m i, ys))
    ∧ (∀ i, i < 2 ^ m → i ≠ bitrev m i →
        (i < bitrev m i ↔ ¬ bitrev m i < bitrev m (bitrev m i))) := by
  have hle : 2 ^ m ≤ xs.length := by
    rw [← hn]; exact Nat.mod_le _ _
  have hpos : 0 < 2 ^ m := Nat.two_pow_pos m
  rw [hn]
  refine ⟨fun i => ⟨bitrev_lt m i, fun b hb => testBit_bitrev m i b hb⟩, ?_, ?_, ?_⟩
  · obtain ⟨ys, h1, h2, h3, h4⟩ := perm_loop_prefix_le m xs hle (2 ^ m - 1) (by omega)
    refine ⟨ys, h1, h2, ?_, ?_⟩
    · intro i hi
      have hb := bitrev_lt m i
      apply getElem?_eq_of_getD_eq _ _ _ _ 0 (by omega) (by omega)
      rw [h3 _ hb, if_pos (Or.inl (by omega)), bitrev_bitrev m i hi]
    · intro p hp
      by_cases hpx : p < xs.length
      · exact getElem?_eq_of_getD_eq _ _ _ _ 0 (by omega) hpx (h4 p hp)
      · rw [List.getElem?_eq_none (by omega), List.getElem?_eq_none (by omega)]
  · intro i h1 hi
    obtain ⟨ys, hys, hysl, -, -⟩ := perm_loop_prefix_le m xs hle (i - 1) (by omega)
    obtain ⟨m', rfl⟩ : ∃ m', m = m' + 1 := by
      cases m with
      | zero => simp at hi; omega
      | succ m' => exact ⟨m', rfl⟩
    have hj : (rev_carry (bitrev (m' + 1) (i - 1)) (2 ^ (m' + 1) >>> 1)).1
        ^^^ (rev_carry (bitrev (m' + 1) (i - 1)) (2 ^ (m' + 1) >>> 1)).2
          = bitrev (m' + 1) i := by
      rw [two_pow_succ_shiftRight_one, rev_carry_bitrev]
      congr 1
      omega
    refine ⟨ys, hys, hysl, hj, ?_⟩
    simp only [perm_step, hj]
  · intro i hi hne
    rw [bitrev_bitrev m i hi]
    omega

/-- Witness of C15: the permutation loop on `[1, 2, 3, 4]` (`n = 4`, `m = 2`). -/
theorem perm_loop_bit_reversal_witness :
    ∃ ys, perm_loop (([⟨1, 0⟩, ⟨2, 0⟩, ⟨3, 0⟩, ⟨4, 0⟩] : List (cmplx ℝ)).length % UINT32)
          ([⟨1, 0⟩, ⟨2, 0⟩, ⟨3, 0⟩, ⟨4, 0⟩] : List (cmplx ℝ))
        = some (bitrev 2 (2 ^ 2 - 1), ys)
      ∧ ys.length = ([⟨1, 0⟩, ⟨2, 0⟩, ⟨3, 0⟩, ⟨4, 0⟩] : List (cmplx ℝ)).length
      ∧ (∀ i, i < 2 ^ 2 →
          ys[bitrev 2 i]? = ([⟨1, 0⟩, ⟨2, 0⟩, ⟨3, 0⟩, ⟨4, 0⟩] : List (cmplx ℝ))[i]?)
      ∧ (∀ p, 2 ^ 2 ≤ p →
          ys[p]? = ([⟨1, 0⟩, ⟨2, 0⟩, ⟨3, 0⟩, ⟨4, 0⟩] : List (cmplx ℝ))[p]?) :=
  (perm_loop_bit_reversal 2 [⟨1, 0⟩, ⟨2, 0⟩, ⟨3, 0⟩, ⟨4, 0⟩] (by simp [UINT32])).2.1

/-! ## The accumulated twiddle -/

theorem butterfly_block_eq_foldlM {T : Type} [Field T] (rot : cmplx T) (half i : Nat)
    (xs : List (cmplx T)) :
    butterfly_block rot half i xs
      = (List.range half).foldlM (butterfly_step rot half i) (⟨1, 0⟩, xs) := rfl

theorem butterfly_step_eq {T : Type} [Field T] (rot : cmplx T) (half i j : Nat)
    (st : cmplx T × List (cmplx T)) (h : i + j + half < st.2.length) :
    butterfly_step rot half i st j
      = some (st.1 * rot,
          (st.2.set (i + j) (st.2.getD (i + j) 0 + st.2.getD (i + j + half) 0 * st.1)).set
            (i + j + half) (st.2.getD (i + j) 0 - st.2.getD (i + j + half) 0 * st.1)) := by
  have h1 := getElem?_eq_some_getD st.2 (i + j) 0 (by omega)
  have h2 := getElem?_eq_some_getD st.2 (i + j + half) 0 h
  simp only [butterfly_step, h1, h2, Option.bind_eq_bind, Option.some_bind]
  rw [write_eq_some _ _ _ (by omega)]
  simp only [Option.some_bind]
  rw [write_eq_some _ _ _ (by simp; omega)]
  rfl

/-- The state of a block after its first `j` butterfly steps: the twiddle is the `j`-th
power of `rot`, and the elements that the later steps read are still those of `xs`. -/
theorem butterfly_prefix {T : Type} [Field T] (rot : cmplx T) (half i : Nat)
    (xs : List (cmplx T)) (h : i + 2 * half ≤ xs.length) : ∀ j, j ≤ half →
    ∃ s, (List.range j).foldlM (butterfly_step rot half i) (⟨1, 0⟩, xs)
        = some (cmplx.rotpow rot j, s)
      ∧ s.length = xs.length
      ∧ ∀ p, (i + j ≤ p ∧ p < i + half) ∨ i + half + j ≤ p → s.getD p 0 = xs.getD p 0 := by
  intro j
  induction j with
  | zero =>
    intro _
    exact ⟨xs, rfl, rfl, fun _ _ => rfl⟩
  | succ j ih =>
    intro hj
    obtain ⟨s, hs, hsl, hu⟩ := ih (by omega)
    refine ⟨(s.set (i + j) (s.getD (i + j) 0 + s.getD (i + j + half) 0 * cmplx.rotpow rot j)).set
        (i + j + half) (s.getD (i + j) 0 - s.getD (i + j + half) 0 * cmplx.rotpow rot j),
      ?_, ?_, ?_⟩
    · rw [List.range_succ, List.foldlM_append, hs]
      simp only [Option.bind_eq_bind, Option.some_bind, List.foldlM_cons, List.foldlM_nil]
      rw [butterfly_step_eq rot half i j _ (by simp only [hsl]; omega)]
      simp only [Option.some_bind, Option.pure_def]
      rfl
    · simp only [List.length_set, hsl]
    · intro p hp
      rw [getD_set_eq, getD_set_eq, if_neg (by omega), if_neg (by omega)]
      exact hu p (by omega)

theorem rotpow_cis (a : ℝ) (j : Nat) :
    cmplx.rotpow (⟨Trig.cos a, Trig.sin a⟩ : cmplx ℝ) j
      = ⟨Trig.cos ((j : ℝ) * a), Trig.sin ((j : ℝ) * a)⟩ := by
  apply toC_injective
  rw [toC_rotpow, toC_cis, toC_cis, ← Complex.exp_nat_mul]
  congr 1
  push_cast
  ring

/-! ## C16 -/

/-- C16: in the block that starts at `i` of the stage of length `len`, with
`rot = cos(angle) + I*sin(angle)` and `angle = 2*PI/len*(±1)`, the accumulated twiddle `w`
with which butterfly step `j < len/2` is entered is the `j`-fold product
`1 * rot * ... * rot`; the step multiplies `x[i+j+half]` by it and leaves `w * rot`; and
it equals `cos(j*angle) + I*sin(j*angle) = exp(I*j*angle)`, the twiddle that
`dft_ct::_compute` computes directly for `n = len` and `k = j` with the same flag. -/
theorem twiddle_accumulation (inv : Bool) (len i j : Nat) (xs : List (cmplx ℝ))
    (hj : j < len / 2) (hb : i + 2 * (len / 2) ≤ xs.length) :
    ∃ s, (List.range j).foldlM
          (butterfly_step
            (⟨Trig.cos (2 * Trig.PI / (len : ℝ) * (if inv then 1 else -1)),
              Trig.sin (2 * Trig.PI / (len : ℝ) * (if inv then 1 else -1))⟩ : cmplx ℝ)
            (len / 2) i) (⟨1, 0⟩, xs)
        = some (cmplx.rotpow
            (⟨Trig.cos (2 * Trig.PI / (len : ℝ) * (if inv then 1 else -1)),
              Trig.sin (2 * Trig.PI / (len : ℝ) * (if inv then 1 else -1))⟩ : cmplx ℝ) j, s)
      ∧ butterfly_step
          (⟨Trig.cos (2 * Trig.PI / (len : ℝ) * (if inv then 1 else -1)),
            Trig.sin (2 * Trig.PI / (len : ℝ) * (if inv then 1 else -1))⟩ : cmplx ℝ)
          (len / 2) i
          (cmplx.rotpow
            (⟨Trig.cos (2 * Trig.PI / (len : ℝ) * (if inv then 1 else -1)),
              Trig.sin (2 * Trig.PI / (len : ℝ) * (if inv then 1 else -1))⟩ : cmplx ℝ) j, s) j
        = some (cmplx.rotpow
            (⟨Trig.cos (2 * Trig.PI / (len : ℝ) * (if inv then 1 else -1)),
              Trig.sin (2 * Trig.PI / (len : ℝ) * (if inv then 1 else -1))⟩ : cmplx ℝ) (j + 1),
            (s.set (i + j)
              (xs.getD (i + j) 0 + xs.getD (i + j + len / 2) 0 *
                (⟨Trig.cos ((j : ℝ) * (2 * Trig.PI / (len : ℝ) * (if inv then 1 else -1))),
                  Trig.sin ((j : ℝ) * (2 * Trig.PI / (len : ℝ) * (if inv then 1 else -1)))⟩
                  : cmplx ℝ))).set (i + j + len / 2)
              (xs.getD (i + j) 0 - xs.getD (i + j + len / 2) 0 *
                (⟨Trig.cos ((j : ℝ) * (2 * Trig.PI / (len : ℝ) * (if inv then 1 else -1))),
                  Trig.sin ((j : ℝ) * (2 * Trig.PI / (len : ℝ) * (if inv then 1 else -1)))⟩
                  : cmplx ℝ)))
      ∧ cmplx.rotpow
          (⟨Trig.cos (2 * Trig.PI / (len : ℝ) * (if inv then 1 else -1)),
            Trig.sin (2 * Trig.PI / (len : ℝ) * (if inv then 1 else -1))⟩ : cmplx ℝ) j
        = ⟨Trig.cos ((j : ℝ) * (2 * Trig.PI / (len : ℝ) * (if inv then 1 else -1))),
            Trig.sin ((j : ℝ) * (2 * Trig.PI / (len : ℝ) * (if inv then 1 else -1)))⟩
      ∧ toC (cmplx.rotpow
          (⟨Trig.cos (2 * Trig.PI / (len : ℝ) * (if inv then 1 else -1)),
            Trig.sin (2 * Trig.PI / (len : ℝ) * (if inv then 1 else -1))⟩ : cmplx ℝ) j)
        = Complex.exp (Complex.I * (j : ℂ)
            * ((2 * Real.pi / (len : ℝ) * (if inv then 1 else -1) : ℝ) : ℂ)) := by
  obtain ⟨s, hs, hsl, hu⟩ := butterfly_prefix
    (⟨Trig.cos (2 * Trig.PI / (len : ℝ) * (if inv then 1 else -1)),
      Trig.sin (2 * Trig.PI / (len : ℝ) * (if inv then 1 else -1))⟩ : cmplx ℝ)
    (len / 2) i xs hb j (by omega)
  refine ⟨s, hs, ?_, rotpow_cis _ j, ?_⟩
  · rw [butterfly_step_eq _ _ _ _ _ (by simp only [hsl]; omega)]
    simp only [hu (i + j) (Or.inl (by omega)), hu (i + j + len / 2) (Or.inr (by omega)),
      rotpow_cis, cmplx.rotpow]
  · rw [rotpow_cis, toC_cis]
    congr 1
    simp only [Trig.PI]
    push_cast
    ring

/-- Witness of C16: step `j = 1` of the block at `i = 0` of the stage `len = 4` on a
sequence of four samples, forward transform. -/
theorem twiddle_accumulation_witness :
    cmplx.rotpow
        (⟨Trig.cos (2 * Trig.PI / ((4 : ℕ) : ℝ) * (if false then 1 else -1)),
          Trig.sin (2 * Trig.PI / ((4 : ℕ) : ℝ) * (if false then 1 else -1))⟩ : cmplx ℝ) 1
      = ⟨Trig.cos (((1 : ℕ) : ℝ) * (2 * Trig.PI / ((4 : ℕ) : ℝ) * (if false then 1 else -1))),
          Trig.sin (((1 : ℕ) : ℝ) * (2 * Trig.PI / ((4 : ℕ) : ℝ) * (if false then 1 else -1)))⟩ := by
  obtain ⟨_, -, -, h, -⟩ := twiddle_accumulation false 4 0 1
    [⟨1, 0⟩, ⟨2, 0⟩, ⟨3, 0⟩, ⟨4, 0⟩] (by norm_num) (by simp)
  exact h

/-! ## Accesses of `dft_inplace` -/

theorem two_pow_mod_UINT32 (m : Nat) (hm : 32 ≤ m) : 2 ^ m % UINT32 = 0 := by
  unfold UINT32
  exact Nat.mod_eq_zero_of_dvd (Nat.pow_dvd_pow 2 hm)

theorem dft_inplace_of_length_mod_zero {T : Type} [Field T] [Trig T] (inv : Bool)
    (fuel : Nat) (xs : List (cmplx T)) (hne : ¬ xs.length ≤ 0) (h : xs.length % UINT32 = 0) :
    dft_inplace inv (fuel + 1) xs
      = if inv then some (xs.map (fun c => c.divide ((0 : ℕ) : T))) else some xs := by
  simp only [dft_inplace, hne, if_false, h, not_pow2_zero]
  simp [perm_loop, stage_loop]

theorem dft_inplace_returns {T : Type} [Field T] [Trig T] (inv : Bool) (m : Nat) (hm : m ≤ 30)
    (xs : List (cmplx T)) (hlen : xs.length = 2 ^ m) (fuel : Nat) (hf : 2 ^ m + m < fuel) :
    ∃ ys, dft_inplace inv fuel xs = some ys ∧ ys.length = xs.length := by
  have hpos : 0 < 2 ^ m := Nat.two_pow_pos m
  have hmod : xs.length % UINT32 = 2 ^ m := by
    rw [hlen]; exact Nat.mod_eq_of_lt (two_pow_lt_UINT32 m (by omega))
  have hne : ¬ xs.length ≤ 0 := by omega
  obtain ⟨ys, hys, hysl, -⟩ := perm_loop_spec m xs hlen
  obtain ⟨F, rfl⟩ : ∃ F, fuel = F + 1 + m := ⟨fuel - 1 - m, by omega⟩
  obtain ⟨s, hsl, hs⟩ := stage_loop_reaches inv m (by omega) m 0 ys (F + 1) (by omega)
    (by rw [hysl, hlen]) (by omega)
  have h2 : 2 ^ (0 + 1) % UINT32 = 2 := by simp [UINT32]
  have hnext : 2 ^ (m + 1) % UINT32 = 2 ^ (m + 1) :=
    Nat.mod_eq_of_lt (two_pow_lt_UINT32 _ (by omega))
  have hgt : ¬ 2 ^ (m + 1) ≤ 2 ^ m := by
    rw [pow_succ]; omega
  rw [h2, hnext, stage_loop, if_neg hgt] at hs
  have hrun : dft_inplace inv (F + 1 + m) xs
      = if inv then some (s.map (fun c => c.divide ((2 ^ m : ℕ) : T))) else some s := by
    simp only [dft_inplace, hne, if_false, hmod, not_pow2_two_pow m (by omega : m < 32), hys,
      Option.bind_eq_bind, Option.some_bind, hs]
    simp
  cases inv with
  | false => exact ⟨s, by simpa using hrun, by rw [hsl, hlen]⟩
  | true =>
    exact ⟨s.map (fun c => c.divide ((2 ^ m : ℕ) : T)), by simpa using hrun,
      by rw [List.length_map, hsl, hlen]⟩

/-! ## C18 -/

/-- C18: on a sequence of `2^m` samples (any `m`), with `n` the `uint32` value of the
length, no element access of `dft_inplace` is out of range. The permutation loop returns;
for `m < 32` its iteration `i < n` is entered with `j = rev_m(i) < n`. For `m < 32`, every
stage `len = 2^t <= n` runs, every block start `i = b*len < n` and step `j < len/2` has
`i+j < n` and `i+j+half < n`, the block and the whole block loop of the stage return on
every sequence of that length. The block of the wrapped stage `len = 0` (reached at
`n = 2^31`) makes no access. For `m <= 30` the transform returns given fuel, and for
`m >= 32` (`n = 0`) it returns without an indexed access. -/
theorem dft_inplace_in_bounds {T : Type} [Field T] [Trig T] (inv : Bool) (m : Nat)
    (xs : List (cmplx T)) (hlen : xs.length = 2 ^ m) :
    (∃ p, perm_loop (xs.length % UINT32) xs = some p ∧ p.2.length = xs.length)
    ∧ (m < 32 → ∀ i, i < xs.length % UINT32 →
        ∃ ys, (List.range' 1 i).foldlM (perm_step (xs.length % UINT32)) (0, xs)
            = some (bitrev m i, ys)
          ∧ ys.length = xs.length ∧ i < xs.length ∧ bitrev m i < xs.length)
    ∧ (m < 32 → ∀ t, 1 ≤ t → t ≤ m →
        2 ^ t ≤ xs.length % UINT32
        ∧ ∀ (rot : cmplx T) (s : List (cmplx T)), s.length = xs.length →
          (∀ b, b * 2 ^ t < xs.length % UINT32 →
            (∀ j, j < 2 ^ t / 2 →
              b * 2 ^ t + j < xs.length ∧ b * 2 ^ t + j + 2 ^ t / 2 < xs.length)
            ∧ ∃ st, butterfly_block rot (2 ^ t / 2) (b * 2 ^ t) s = some st
                ∧ st.2.length = xs.length)
          ∧ ∀ fuel, 2 ^ (m - t) < fuel →
              ∃ zs, block_loop rot (xs.length % UINT32) (2 ^ t) fuel 0 s = some zs
                ∧ zs.length = xs.length)
    ∧ (∀ (rot : cmplx T) (i : Nat) (s : List (cmplx T)),
        butterfly_block rot (0 / 2) i s = some (⟨1, 0⟩, s))
    ∧ (m ≤ 30 → ∀ fuel, 2 ^ m + m < fuel →
        ∃ ys, dft_inplace inv fuel xs = some ys ∧ ys.length = xs.length)
    ∧ (32 ≤ m → ∀ fuel, dft_inplace inv (fuel + 1) xs
        = if inv then some (xs.map (fun c => c.divide ((0 : ℕ) : T))) else some xs) := by
  have hpos : 0 < 2 ^ m := Nat.two_pow_pos m
  have hmod : m < 32 → xs.length % UINT32 = 2 ^ m := by
    intro hm
    rw [hlen]; exact Nat.mod_eq_of_lt (two_pow_lt_UINT32 m hm)
  refine ⟨?_, ?_, ?_, ?_, ?_, ?_⟩
  · rcases Nat.lt_or_ge m 32 with hm | hm
    · obtain ⟨ys, hys, hysl, -⟩ := perm_loop_spec m xs hlen
      rw [hmod hm]
      exact ⟨_, hys, hysl⟩
    · have h0 : xs.length % UINT32 = 0 := by
        rw [hlen]; exact two_pow_mod_UINT32 m hm
      rw [h0]
      exact ⟨(0, xs), rfl, rfl⟩
  · intro hm i hi
    rw [hmod hm] at hi ⊢
    obtain ⟨ys, hys, hysl, -⟩ := perm_loop_prefix m xs hlen i (by omega)
    have := bitrev_lt m i
    exact ⟨ys, hys, hysl, by omega, by omega⟩
  · intro hm t ht1 htm
    rw [hmod hm]
    obtain ⟨t', rfl⟩ : ∃ t', t = t' + 1 := ⟨t - 1, by omega⟩
    have hpost : 0 < 2 ^ t' := Nat.two_pow_pos t'
    have hlen' : 2 ^ (t' + 1) = 2 * 2 ^ t' := by rw [pow_succ]; ring
    have hhalf : 2 ^ (t' + 1) / 2 = 2 ^ t' := by omega
    have hn : 2 ^ m = 2 ^ (m - (t' + 1)) * 2 ^ (t' + 1) := by
      rw [← pow_add]
      congr 1
      omega
    have hle : 2 ^ (t' + 1) ≤ 2 ^ m := Nat.pow_le_pow_right (by norm_num) htm
    refine ⟨hle, ?_⟩
    intro rot s hs
    refine ⟨?_, ?_⟩
    · intro b hb
      have hb1 : b < 2 ^ (m - (t' + 1)) := by
        rw [hn] at hb
        exact Nat.lt_of_mul_lt_mul_right hb
      have hb2 : (b + 1) * 2 ^ (t' + 1) ≤ 2 ^ m := by
        rw [hn]
        exact Nat.mul_le_mul_right _ hb1
      have hb3 : b * 2 ^ (t' + 1) + 2 * 2 ^ t' ≤ 2 ^ m := by
        rw [← hlen']
        calc b * 2 ^ (t' + 1) + 2 ^ (t' + 1) = (b + 1) * 2 ^ (t' + 1) := by ring
          _ ≤ 2 ^ m := hb2
      rw [hhalf]
      refine ⟨?_, ?_⟩
      · intro j hj
        rw [hlen]
        omega
      · obtain ⟨zs, hzs, hzl, -⟩ := butterfly_block_spec rot (2 ^ t') (b * 2 ^ (t' + 1)) s
          (by rw [hs, hlen]; exact hb3)
        exact ⟨_, hzs, by rw [hzl, hs]⟩
    · intro fuel hf
      obtain ⟨zs, hzs, hzl, -, -⟩ := block_loop_spec rot (2 ^ t') (2 ^ (t' + 1))
        (2 ^ (m - (t' + 1))) hlen' hpost (by rw [← hn]; exact two_pow_lt_UINT32 m hm)
        (2 ^ (m - (t' + 1))) 0 s fuel (by omega) (by rw [← hn, hs, hlen]) hf
      rw [← hn, zero_mul] at hzs
      exact ⟨zs, hzs, by rw [hzl, hs]⟩
  · intro rot i s
    rfl
  · intro hm fuel hf
    exact dft_inplace_returns inv m hm xs hlen fuel hf
  · intro hm fuel
    exact dft_inplace_of_length_mod_zero inv fuel xs (by omega)
      (by rw [hlen]; exact two_pow_mod_UINT32 m hm)

/-- Witness of C18: the forward transform of `[1, 2, 3, 4]` (`m = 2`) returns with
fuel 7. -/
theorem dft_inplace_in_bounds_witness :
    ∃ ys, dft_inplace false 7 ([⟨1, 0⟩, ⟨2, 0⟩, ⟨3, 0⟩, ⟨4, 0⟩] : List (cmplx ℝ)) = some ys
      ∧ ys.length = ([⟨1, 0⟩, ⟨2, 0⟩, ⟨3, 0⟩, ⟨4, 0⟩] : List (cmplx ℝ)).length :=
  (dft_inplace_in_bounds false 2 ([⟨1, 0⟩, ⟨2, 0⟩, ⟨3, 0⟩, ⟨4, 0⟩] : List (cmplx ℝ))
    rfl).2.2.2.2.1 (by norm_num) 7 (by norm_num)

/-! ## The recursion of `dft_ct` -/

theorem compute_returns {T : Type} [Field T] [Trig T] (inv : Bool) (m : Nat) :
    ∀ (xs : List (cmplx T)) (fuel : Nat), xs.length = 2 ^ m → m < fuel →
      ∃ ys, dft_ct._compute inv fuel xs (2 ^ m) = some ys ∧ ys.length = xs.length := by
  induction m with
  | zero =>
    intro xs fuel hlen hf
    obtain ⟨f, rfl⟩ : ∃ f, fuel = f + 1 := ⟨fuel - 1, by omega⟩
    exact ⟨xs, by simp [dft_ct._compute], rfl⟩
  | succ m ih =>
    intro xs fuel hlen hf
    obtain ⟨f, rfl⟩ : ∃ f, fuel = f + 1 := ⟨fuel - 1, by omega⟩
    have hpos : 0 < 2 ^ m := Nat.two_pow_pos m
    have hne1 : 2 ^ (m + 1) ≠ 1 := by
      rw [pow_succ]; omega
    have hhalf : 2 ^ (m + 1) / 2 = 2 ^ m := by
      rw [pow_succ]; omega
    have h2 : 2 ^ (m + 1) = 2 * 2 ^ m := by rw [pow_succ]; ring
    obtain ⟨os, hos, hosl⟩ := ih ((List.range (2 ^ m)).map (fun i => xs.getD (2 * i + 1) 0)) f
      (by simp) (by omega)
    obtain ⟨es, hes, hesl⟩ := ih ((List.range (2 ^ m)).map (fun i => xs.getD (2 * i) 0)) f
      (by simp) (by omega)
    obtain ⟨zs, hzs, hzsl, -⟩ := combine_eq es os
      (2 * Trig.PI / ((2 ^ (m + 1) : ℕ) : T) * (if inv then 1 else -1))
      (if inv then 1 / 2 else 1) (2 ^ m) xs (by simpa using hesl) (by simpa using hosl)
      (by omega)
    refine ⟨zs, ?_, hzsl⟩
    rw [dft_ct._compute]
    simp only [hne1, if_false, hhalf]
    rw [split_even_odd_eq xs (2 ^ m) (by omega)]
    simp only [Option.bind_eq_bind, Option.some_bind, hos, hes]
    exact hzs

theorem dft_ct_eq_compute_zero {T : Type} [Field T] [Trig T] (inv : Bool) (fuel : Nat)
    (xs : List (cmplx T)) (h : xs.length = UINT32) :
    dft_ct inv fuel xs = dft_ct._compute inv fuel xs 0 := by
  have hpos : ¬ UINT32 ≤ 0 := by simp [UINT32]
  simp only [dft_ct, h, hpos, if_false, Nat.mod_self, not_pow2_zero]
  simp

/-! ## C19 -/

/-- C19 as stated fails at the power-of-two length `2^32` (`UINT32`): the length is
reduced to the `uint32` value `0`, which passes the power-of-two test, `operator()` calls
`_compute` with length `0`, and the recursion returns for no fuel. -/
theorem dft_ct_recursion_claimed_fails :
    (List.replicate UINT32 (⟨1, 0⟩ : cmplx ℝ)).length = 2 ^ 32
    ∧ (¬ ∃ fuel, dft_ct false fuel (List.replicate UINT32 (⟨1, 0⟩ : cmplx ℝ))
        ≠ dft_ct._compute false fuel (List.replicate UINT32 (⟨1, 0⟩ : cmplx ℝ)) 0)
    ∧ (¬ ∃ fuel ys, dft_ct false fuel (List.replicate UINT32 (⟨1, 0⟩ : cmplx ℝ)) = some ys) := by
  refine ⟨?_, ?_, ?_⟩
  · rw [List.length_replicate]; rfl
  · rintro ⟨fuel, h⟩
    exact h (dft_ct_eq_compute_zero false fuel _ (List.length_replicate _ _))
  · rintro ⟨fuel, ys, h⟩
    rw [dft_ct_of_length_eq_UINT32 false fuel _ (List.length_replicate _ _)] at h
    exact Option.noConfusion h

/-- C19, amended to lengths `2^m < 2^32`: `operator()` starts `_compute` with the length
`2^m >= 1`, and the transform returns once the fuel exceeds the depth `m`. A call with
length `1` returns at once; a call with length `2^(k+1)` on that many samples is not the
base case, has `half = 2^k` with `1 <= 2^k < 2^(k+1)`, fills `evens` and `odds` with
exactly `2^k` elements each from reads at `2i, 2i+1 < n`, makes its two recursive calls
with length `2^k`, and its combining loop, with writes at `k, k+half < n`, returns. -/
theorem dft_ct_terminates {T : Type} [Field T] [Trig T] (inv : Bool) (m : Nat)
    (xs : List (cmplx T)) (hm : m < 32) (hlen : xs.length = 2 ^ m) :
    (1 ≤ xs.length % UINT32
      ∧ ∀ fuel, dft_ct inv fuel xs = dft_ct._compute inv fuel xs (2 ^ m))
    ∧ (∀ fuel, m < fuel → ∃ ys, dft_ct inv fuel xs = some ys ∧ ys.length = xs.length)
    ∧ (∀ f (s : List (cmplx T)), dft_ct._compute inv (f + 1) s 1 = some s)
    ∧ (∀ k (s : List (cmplx T)), s.length = 2 ^ (k + 1) →
        2 ^ (k + 1) ≠ 1 ∧ 2 ^ (k + 1) / 2 = 2 ^ k ∧ 1 ≤ 2 ^ k ∧ 2 ^ k < 2 ^ (k + 1)
        ∧ (∀ i, i < 2 ^ (k + 1) / 2 → 2 * i < s.length ∧ 2 * i + 1 < s.length)
        ∧ (∀ j, j < 2 ^ (k + 1) / 2 → j < s.length ∧ j + 2 ^ (k + 1) / 2 < s.length)
        ∧ ∃ ev od, split_even_odd s (2 ^ (k + 1) / 2) = some (ev, od)
            ∧ ev.length = 2 ^ k ∧ od.length = 2 ^ k
            ∧ (∀ f, dft_ct._compute inv (f + 1) s (2 ^ (k + 1))
                = (dft_ct._compute inv f od (2 ^ k)).bind (fun odds =>
                    (dft_ct._compute inv f ev (2 ^ k)).bind (fun evens =>
                      combine evens odds
                        (2 * Trig.PI / ((2 ^ (k + 1) : ℕ) : T) * (if inv then 1 else -1))
                        (if inv then 1 / 2 else 1) (2 ^ k) s)))
            ∧ (∀ (evens odds : List (cmplx T)) (angle scale : T),
                evens.length = 2 ^ k → odds.length = 2 ^ k →
                ∃ zs, combine evens odds angle scale (2 ^ k) s = some zs
                  ∧ zs.length = s.length)) := by
  have hmod : xs.length % UINT32 = 2 ^ m := by
    rw [hlen]; exact Nat.mod_eq_of_lt (two_pow_lt_UINT32 m hm)
  refine ⟨⟨?_, ?_⟩, ?_, ?_, ?_⟩
  · rw [hmod]; exact Nat.two_pow_pos m
  · intro fuel
    exact dft_ct_eq_compute inv fuel m hm xs hlen
  · intro fuel hf
    rw [dft_ct_eq_compute inv fuel m hm xs hlen]
    exact compute_returns inv m xs fuel hlen hf
  · intro f s
    simp [dft_ct._compute]
  · intro k s hs
    have hpos : 0 < 2 ^ k := Nat.two_pow_pos k
    have hne1 : 2 ^ (k + 1) ≠ 1 := by
      rw [pow_succ]; omega
    have hhalf : 2 ^ (k + 1) / 2 = 2 ^ k := by
      rw [pow_succ]; omega
    have h2 : 2 ^ (k + 1) = 2 * 2 ^ k := by rw [pow_succ]; ring
    refine ⟨hne1, hhalf, hpos, by omega, ?_, ?_, ?_⟩
    · intro i hi
      omega
    · intro j hj
      omega
    · refine ⟨(List.range (2 ^ k)).map (fun i => s.getD (2 * i) 0),
        (List.range (2 ^ k)).map (fun i => s.getD (2 * i + 1) 0), ?_, by simp, by simp, ?_, ?_⟩
      · rw [hhalf]
        exact split_even_odd_eq s (2 ^ k) (by omega)
      · intro f
        rw [dft_ct._compute]
        simp only [hne1, if_false, hhalf]
        rw [split_even_odd_eq s (2 ^ k) (by omega)]
        simp only [Option.bind_eq_bind, Option.some_bind]
      · intro evens odds angle scale he ho
        obtain ⟨zs, hzs, hzl, -⟩ := combine_eq evens odds angle scale (2 ^ k) s he ho (by omega)
        exact ⟨zs, hzs, hzl⟩

/-- Witness of C19: the forward transform of `[1, 2, 3, 4]` (`m = 2`) returns with
fuel 3. -/
theorem dft_ct_terminates_witness :
    ∃ ys, dft_ct false 3 ([⟨1, 0⟩, ⟨2, 0⟩, ⟨3, 0⟩, ⟨4, 0⟩] : List (cmplx ℝ)) = some ys
      ∧ ys.length = ([⟨1, 0⟩, ⟨2, 0⟩, ⟨3, 0⟩, ⟨4, 0⟩] : List (cmplx ℝ)).length :=
  (dft_ct_terminates false 2 ([⟨1, 0⟩, ⟨2, 0⟩, ⟨3, 0⟩, ⟨4, 0⟩] : List (cmplx ℝ))
    (by norm_num) rfl).2.1 3 (by norm_num)

end DFFT
